import Mathlib

/-!
Verification of the flat open-addressed hash table in
`src/tdutils/td/utils/FlatHashMapLinear.h` (`td::FlatHashTable` with
`MapNode`, i.e. `FlatHashMapImpl`).

The embedding specializes the C++ template to integer keys and values
(`KeyT = ValueT = uint32`-like, modelled as `Nat`), with the default
equality `std::equal_to` (modelled as `=` on `Nat`) and a client hash
`hashT : Nat → Nat` (modelling `HashT()(key)`), which the table composes
with the fixed avalanche mixer `randomize_hash`.

The empty-key sentinel `KeyT()` is `0`.  A `MapNode`'s value member lives
in a raw union and is uninitialized while the node is empty; since that
storage is unobservable, an empty node is modelled as `⟨0, 0⟩`.

The table owns a header `used_node_count_` plus a bucket array; we keep
the bucket array as a `List Node` (its length is `bucket_count`, i.e.
`bucket_count_mask + 1`) together with the `used_node_count` field.  The
null state (`nodes_ == nullptr`) is `none`.

The C++ probe loops (`find`, `emplace`, `erase_node`, `begin`,
`operator++`, rehash in `resize`) are `while (true)` loops whose
termination relies on the table invariant (there is always an empty
bucket).  They are modelled with an explicit fuel of one bucket count,
which is shown sufficient under the invariant.
-/

namespace Td

/-- One bucket of the table: `MapNode<KeyT, ValueT>` with `first` the key
and `second` the value.  Key `0` (`KeyT()`) is the empty sentinel. -/
structure Node where
  first : Nat
  second : Nat
deriving DecidableEq, Repr

/-- The empty bucket: default-constructed node, `first = KeyT() = 0`.
The union's value storage is uninitialized in C++; it is unobservable, so
it is fixed to `0` here. -/
def emptyNode : Node := ⟨0, 0⟩

/-- `is_key_empty`: a key equals the default-constructed `KeyT()`, i.e. `0`. -/
def is_key_empty (key : Nat) : Bool := key == 0

/-- `MapNode::empty()`: the stored key is the sentinel. -/
def Node.isEmpty (n : Node) : Bool := is_key_empty n.first

/-- `randomize_hash`: the fixed 32-bit avalanche mixer applied to the
client hash before masking. -/
def randomize_hash (h : Nat) : Nat :=
  let r0 := h % 2 ^ 32
  let r1 := r0 ^^^ (r0 >>> 16)
  let r2 := r1 * 0x85ebca6b % 2 ^ 32
  let r3 := r2 ^^^ (r2 >>> 13)
  let r4 := r3 * 0xc2b2ae35 % 2 ^ 32
  r4 ^^^ (r4 >>> 16)

/-- The heap region of a non-null table: header (`used_node_count_`,
`bucket_count_mask_`) plus bucket array.  The mask is `nodes.length - 1`;
we store the array and recover the mask from its length. -/
structure Inner where
  used_node_count : Nat
  nodes : List Node
deriving DecidableEq, Repr

/-- A `FlatHashTable`: either the null state (`nodes_ == nullptr`) or an
allocated region. -/
abbrev FlatHashTable := Option Inner

/-- `bucket_count_mask_` of a non-null table. -/
def bucket_count_mask (inner : Inner) : Nat := inner.nodes.length - 1

/-- `bucket_count()`: `0` when null, else mask + 1. -/
def bucket_count (t : FlatHashTable) : Nat :=
  match t with
  | none => 0
  | some inner => inner.nodes.length

/-- `size()`: `0` when null, else `used_node_count_`. -/
def size (t : FlatHashTable) : Nat :=
  match t with
  | none => 0
  | some inner => inner.used_node_count

/-- `empty()`: null or no used nodes. -/
def isTableEmpty (t : FlatHashTable) : Bool :=
  match t with
  | none => true
  | some inner => inner.used_node_count == 0

/-- `calc_bucket`: `randomize_hash(HashT()(key)) & bucket_count_mask`. -/
def calc_bucket (hashT : Nat → Nat) (mask key : Nat) : Nat :=
  randomize_hash (hashT key) &&& mask

/-- `next_bucket`: advance cyclically, `(bucket + 1) & mask`. -/
def next_bucket (mask bucket : Nat) : Nat := (bucket + 1) &&& mask

/-- The probe loop of `find`: compare keys, stop at a match or at an
empty bucket, else continue at the next bucket.  `fuel` bounds the
`while (true)` loop; under the table invariant a fuel of one bucket
count is never exhausted. -/
def find_loop (nodes : List Node) (key : Nat) : Nat → Nat → Option Nat
  | _, 0 => none
  | bucket, fuel + 1 =>
    let node := nodes.getD bucket emptyNode
    if node.first == key then some bucket
    else if node.isEmpty then none
    else find_loop nodes key (next_bucket (nodes.length - 1) bucket) fuel

/-- `find(key)`: returns the bucket index of the entry (the iterator), or
`none` (= `end()`) when the table is null, the key is the sentinel, or an
empty bucket is reached first. -/
def find (hashT : Nat → Nat) (t : FlatHashTable) (key : Nat) : Option Nat :=
  match t with
  | none => none
  | some inner =>
    if is_key_empty key then none
    else find_loop inner.nodes key (calc_bucket hashT (bucket_count_mask inner) key)
      inner.nodes.length

/-- The node `find` points at, when found. -/
def find_entry (hashT : Nat → Nat) (t : FlatHashTable) (key : Nat) : Option Node :=
  match t with
  | none => none
  | some inner => (find hashT t key).map fun b => inner.nodes.getD b emptyNode

/-- The value `find` points at, when found (`it->second`). -/
def find_value (hashT : Nat → Nat) (t : FlatHashTable) (key : Nat) : Option Nat :=
  (find_entry hashT t key).map Node.second

/-- `allocate_nodes`: a fresh region of default-constructed (empty) buckets. -/
def allocate_nodes (size : Nat) : List Node := List.replicate size emptyNode

/-- The rehash probe of `resize`: from the node's new home bucket, walk to
the first empty bucket and move the node there. -/
def resize_insert_loop (nodes : List Node) (node : Node) : Nat → Nat → List Node
  | _, 0 => nodes
  | bucket, fuel + 1 =>
    if (nodes.getD bucket emptyNode).isEmpty then nodes.set bucket node
    else resize_insert_loop nodes node (next_bucket (nodes.length - 1) bucket) fuel

/-- `resize(new_size)`: if null, allocate `new_size` empty buckets with
`used_node_count = 0`; else allocate a new region, move every occupied
node to its first empty probe slot in the new region, and keep the used
count. -/
def resize (hashT : Nat → Nat) (t : FlatHashTable) (new_size : Nat) : FlatHashTable :=
  match t with
  | none => some ⟨0, allocate_nodes new_size⟩
  | some inner =>
    let new_nodes := inner.nodes.foldl
      (fun acc old_node =>
        if old_node.isEmpty then acc
        else resize_insert_loop acc old_node
          (calc_bucket hashT (new_size - 1) old_node.first) new_size)
      (allocate_nodes new_size)
    some ⟨inner.used_node_count, new_nodes⟩

/-- `try_grow`: allocate 8 buckets when null; double when
`used_node_count * 5 > bucket_count_mask * 3`. -/
def try_grow (hashT : Nat → Nat) (t : FlatHashTable) : FlatHashTable :=
  match t with
  | none => resize hashT none 8
  | some inner =>
    if inner.used_node_count * 5 > bucket_count_mask inner * 3 then
      resize hashT (some inner) (2 * bucket_count_mask inner + 2)
    else some inner

/-- Binary length of a number, with enough fuel (32 suffices for 32-bit
values); structurally recursive so that proofs can evaluate it. -/
def bitLen : Nat → Nat → Nat
  | 0, _ => 0
  | fuel + 1, n => if n = 0 then 0 else bitLen fuel (n / 2) + 1

/-- Modelled from the spec: `count_leading_zeroes32` from
`td/utils/bits.h` is declared outside the excerpt; it is the standard
count-leading-zeros of a value in 32-bit representation (`32` for `0`),
i.e. `32` minus the binary length. -/
def count_leading_zeroes32 (x : Nat) : Nat := 32 - bitLen 32 x

/-- `normalize(size)`: `max(1 << (32 - count_leading_zeroes32(size)), 8)`. -/
def normalize (size : Nat) : Nat :=
  max (1 <<< (32 - count_leading_zeroes32 size)) 8

/-- `try_shrink`: when `used_node_count * 10 < bucket_count_mask` and
`bucket_count_mask > 7`, resize to `normalize((used + 1) * 5 / 3 + 1)`. -/
def try_shrink (hashT : Nat → Nat) (inner : Inner) : FlatHashTable :=
  if inner.used_node_count * 10 < bucket_count_mask inner ∧ bucket_count_mask inner > 7 then
    resize hashT (some inner) (normalize ((inner.used_node_count + 1) * 5 / 3 + 1))
  else some inner

/-- The probe loop of `emplace`: stop at a key match (no insertion), or
construct the node in the first empty bucket and bump the used count.
Returns the region, the bucket of the entry, and the `inserted` flag. -/
def emplace_loop (inner : Inner) (key value : Nat) : Nat → Nat → Inner × Nat × Bool
  | bucket, 0 => (inner, bucket, false)
  | bucket, fuel + 1 =>
    let node := inner.nodes.getD bucket emptyNode
    if node.first == key then (inner, bucket, false)
    else if node.isEmpty then
      (⟨inner.used_node_count + 1, inner.nodes.set bucket ⟨key, value⟩⟩, bucket, true)
    else emplace_loop inner key value (next_bucket (bucket_count_mask inner) bucket) fuel

/-- `emplace(key, value)`: `try_grow`, then probe from the home bucket.
Returns the table, the bucket of the entry (the iterator) and the
`inserted` flag.  (`CHECK(!is_key_empty(key))` aborts on the sentinel;
the sentinel-free precondition is carried by the theorems.) -/
def emplace (hashT : Nat → Nat) (t : FlatHashTable) (key value : Nat) :
    FlatHashTable × Nat × Bool :=
  match try_grow hashT t with
  | none => (none, 0, false)
  | some inner =>
    let r := emplace_loop inner key value
      (calc_bucket hashT (bucket_count_mask inner) key) inner.nodes.length
    (some r.1, r.2.1, r.2.2)

/-- The backward-shift loop of `erase_node`: scan forward from the
emptied bucket; move an entry back into the hole whenever its home
bucket (linearized past the hole) permits, until an empty bucket is
reached.  `fuel` bounds the loop; one bucket count is enough under the
invariant. -/
def erase_loop (hashT : Nat → Nat) (nodes : List Node) :
    Nat → Nat → Nat → Nat → List Node
  | _, _, _, 0 => nodes
  | empty_i, empty_bucket, test_i, fuel + 1 =>
    let bc := nodes.length
    let test_bucket := if test_i ≥ bc then test_i - bc else test_i
    if (nodes.getD test_bucket emptyNode).isEmpty then nodes
    else
      let want_i0 := calc_bucket hashT (bc - 1) (nodes.getD test_bucket emptyNode).first
      let want_i := if want_i0 < empty_i then want_i0 + bc else want_i0
      if want_i ≤ empty_i ∨ want_i > test_i then
        erase_loop hashT
          ((nodes.set empty_bucket (nodes.getD test_bucket emptyNode)).set test_bucket emptyNode)
          test_i test_bucket (test_i + 1) fuel
      else
        erase_loop hashT nodes empty_i empty_bucket (test_i + 1) fuel

/-- `erase_node(it)`: clear the bucket, decrement the used count, then
backward-shift. -/
def erase_node (hashT : Nat → Nat) (inner : Inner) (i : Nat) : Inner :=
  ⟨inner.used_node_count - 1,
    erase_loop hashT (inner.nodes.set i emptyNode) i i (i + 1) inner.nodes.length⟩

/-- `erase(Iterator)`: `erase_node` then `try_shrink`. -/
def erase_iter (hashT : Nat → Nat) (t : FlatHashTable) (b : Nat) : FlatHashTable :=
  match t with
  | none => none
  | some inner => try_shrink hashT (erase_node hashT inner b)

/-- `erase(key)`: `find`; on `end()` return 0, else erase the iterator
and return 1. -/
def erase (hashT : Nat → Nat) (t : FlatHashTable) (key : Nat) : Nat × FlatHashTable :=
  match find hashT t key with
  | none => (0, t)
  | some b => (1, erase_iter hashT t b)

/-- `clear()`: free the region, back to the null state. -/
def clear (_t : FlatHashTable) : FlatHashTable := none

/-- `reserve(n)`: resize up to `normalize(n * 5 / 3 + 1)` when that is
larger than the current bucket count. -/
def reserve (hashT : Nat → Nat) (t : FlatHashTable) (n : Nat) : FlatHashTable :=
  if n = 0 then t
  else
    let want_size := normalize (n * 5 / 3 + 1)
    if want_size > bucket_count t then resize hashT t want_size else t

/-- Move construction `FlatHashTable(FlatHashTable &&other)`: take the
bucket pointer, leave the source null.  Returns (constructed, source). -/
def move_construct (t : FlatHashTable) : FlatHashTable × FlatHashTable := (t, none)

/-- Move assignment: clear the destination, take the source's pointer,
leave the source null.  Returns (destination, source). -/
def move_assign (_dest t : FlatHashTable) : FlatHashTable × FlatHashTable := (t, none)

/-- The advance loop of `begin()`: walk from the random bucket to the
first occupied bucket (cyclically).  Requires a non-empty table. -/
def begin_loop (nodes : List Node) : Nat → Nat → Nat
  | bucket, 0 => bucket
  | bucket, fuel + 1 =>
    if (nodes.getD bucket emptyNode).isEmpty then
      begin_loop nodes (next_bucket (nodes.length - 1) bucket) fuel
    else bucket

/-- `begin()`: `end()` when empty; else start from `r & mask` (`r` models
`Random::fast_uint32()`) and advance to the first occupied bucket. -/
def begin (t : FlatHashTable) (r : Nat) : Option Nat :=
  match t with
  | none => none
  | some inner =>
    if inner.used_node_count = 0 then none
    else some (begin_loop inner.nodes (r &&& bucket_count_mask inner) inner.nodes.length)

/-- `Iterator::operator++`: advance cyclically (wrapping at `end_` to
`begin_`), stop with `end()` when the recorded start is reached again,
skipping empty buckets. -/
def iter_inc_loop (nodes : List Node) (start : Nat) : Nat → Nat → Option Nat
  | it, 0 => some it
  | it, fuel + 1 =>
    let it' := if it + 1 = nodes.length then 0 else it + 1
    if it' = start then none
    else if (nodes.getD it' emptyNode).isEmpty then iter_inc_loop nodes start it' fuel
    else some it'

/-- Collect the buckets yielded by iterating `begin()..end()` with
`operator++`. -/
def iter_list_loop (nodes : List Node) (start : Nat) : Option Nat → Nat → List Nat
  | none, _ => []
  | some _, 0 => []
  | some it, fuel + 1 =>
    it :: iter_list_loop nodes start (iter_inc_loop nodes start it nodes.length) fuel

/-- The full iteration `begin(r)..end()` of a table, as the list of
visited buckets. -/
def iter_list (t : FlatHashTable) (r : Nat) : List Nat :=
  match t with
  | none => []
  | some inner =>
    iter_list_loop inner.nodes ((begin t r).getD 0) (begin t r) (inner.nodes.length + 1)

/-- First scan of `remove_if`: from the begin bucket, walk forward (no
wrap) to the first empty bucket or the end of the array. -/
def rif_find_up (nodes : List Node) (b : Nat) : Nat :=
  if _h : b < nodes.length then
    if (nodes.getD b emptyNode).isEmpty then b else rif_find_up nodes (b + 1)
  else nodes.length
termination_by nodes.length - b

/-- Fallback scan of `remove_if` when no empty bucket lies forward: from
the end of the array, walk backward to the last empty bucket. -/
def rif_find_down (nodes : List Node) : Nat → Nat
  | 0 => 0
  | b + 1 => if (nodes.getD b emptyNode).isEmpty then b else rif_find_down nodes b

/-- One scan phase of `remove_if`: visit buckets from `it` up to `stop`,
erasing matching occupied entries in place (the iterator does not advance
after an erase). -/
def rif_phase (hashT : Nat → Nat) (f : Node → Bool) (inner : Inner) :
    Nat → Nat → Nat → Inner
  | _, _, 0 => inner
  | it, stop, fuel + 1 =>
    if it = stop then inner
    else if ¬(inner.nodes.getD it emptyNode).isEmpty ∧ f (inner.nodes.getD it emptyNode) then
      rif_phase hashT f (erase_node hashT inner it) it stop fuel
    else rif_phase hashT f inner (it + 1) stop fuel

/-- `remove_if(f)`: find the split (first empty bucket from the random
begin bucket), erase matches from the split to the array end, then from
the array start to the split, and `try_shrink` once.  `r` models the
random start of `begin()`. -/
def remove_if (hashT : Nat → Nat) (f : Node → Bool) (t : FlatHashTable) (r : Nat) :
    FlatHashTable :=
  match t with
  | none => t
  | some inner =>
    if inner.used_node_count = 0 then t
    else
      let len := inner.nodes.length
      let b0 := begin_loop inner.nodes (r &&& bucket_count_mask inner) len
      let it0 := rif_find_up inner.nodes b0
      let first_empty := if it0 = len then rif_find_down inner.nodes len else it0
      let inner1 := rif_phase hashT f inner first_empty len (len + inner.used_node_count + 1)
      let inner2 := rif_phase hashT f inner1 0 first_empty (len + inner1.used_node_count + 1)
      try_shrink hashT inner2

/-- Number of occupied buckets of a region. -/
def occCount (nodes : List Node) : Nat := nodes.countP fun n => n.first != 0

/-- Cyclic distance from bucket `a` to bucket `b` in a table of `m`
buckets (both below `m`): the number of forward probe steps from `a`
to `b`. -/
def cdist (m a b : Nat) : Nat := (b + m - a) % m

/-- Bucket `b` of a region holds a live entry. -/
def occupiedAt (nodes : List Node) (b : Nat) : Prop :=
  (nodes.getD b emptyNode).first ≠ 0

instance (nodes : List Node) (b : Nat) : Decidable (occupiedAt nodes b) := by
  unfold occupiedAt; infer_instance

/-- The live entries of a region, in bucket order. -/
def entries (nodes : List Node) : List Node := nodes.filter fun n => n.first != 0

/-- The home bucket of the key stored at bucket `b`. -/
def homeOf (hashT : Nat → Nat) (nodes : List Node) (b : Nat) : Nat :=
  calc_bucket hashT (nodes.length - 1) ((nodes.getD b emptyNode).first)

/-- A power of two representable as a bucket count (the allocation
`CHECK` caps bucket counts at `2^29`). -/
def IsPow2Cap (n : Nat) : Prop := ∃ k, k < 30 ∧ n = 2 ^ k

instance (n : Nat) : Decidable (IsPow2Cap n) := by
  unfold IsPow2Cap; infer_instance

/-- The keys of the live entries are pairwise distinct. -/
def KeysNodup (nodes : List Node) : Prop := ((entries nodes).map Node.first).Nodup

/-- Probe contiguity: no empty bucket lies cyclically strictly between an
occupied bucket's home and the bucket itself. -/
def Contig (hashT : Nat → Nat) (nodes : List Node) : Prop :=
  ∀ b, b < nodes.length → occupiedAt nodes b →
    ∀ e, e < nodes.length → ¬occupiedAt nodes e →
      cdist nodes.length (homeOf hashT nodes b) b ≤
        cdist nodes.length (homeOf hashT nodes b) e

instance (hashT : Nat → Nat) (nodes : List Node) : Decidable (Contig hashT nodes) := by
  unfold Contig; infer_instance

instance (nodes : List Node) : Decidable (KeysNodup nodes) := by
  unfold KeysNodup; infer_instance

/-- The invariant of an allocated table region: power-of-two bucket count
between 8 and 2^29 (the allocation `CHECK` cap), a correct used count, the
load bound that `try_grow` re-establishes before every insertion, pairwise
distinct keys, and probe contiguity. -/
def Inv (hashT : Nat → Nat) (inner : Inner) : Prop :=
  8 ≤ inner.nodes.length ∧
  IsPow2Cap inner.nodes.length ∧
  inner.used_node_count = occCount inner.nodes ∧
  inner.used_node_count * 5 ≤ (inner.nodes.length - 1) * 3 + 5 ∧
  KeysNodup inner.nodes ∧
  Contig hashT inner.nodes

instance (hashT : Nat → Nat) (inner : Inner) : Decidable (Inv hashT inner) := by
  unfold Inv; infer_instance

/-- The whole-table invariant: trivial in the null state. -/
def WF (hashT : Nat → Nat) (t : FlatHashTable) : Prop :=
  match t with
  | none => True
  | some inner => Inv hashT inner

instance (hashT : Nat → Nat) (t : FlatHashTable) : Decidable (WF hashT t) :=
  match t with
  | none => isTrue trivial
  | some inner => inferInstanceAs (Decidable (Inv hashT inner))

/-- Some bucket of a non-null table holds key `k`. -/
def contains_key (t : FlatHashTable) (k : Nat) : Prop :=
  match t with
  | none => False
  | some inner =>
    k ≠ 0 ∧ ∃ b, b < inner.nodes.length ∧ (inner.nodes.getD b emptyNode).first = k

instance (t : FlatHashTable) (k : Nat) : Decidable (contains_key t k) :=
  match t with
  | none => isFalse id
  | some inner => inferInstanceAs (Decidable (_ ∧ _))

/-- Some bucket of a non-null table holds exactly the entry `⟨k, v⟩`. -/
def hasKV (t : FlatHashTable) (k v : Nat) : Prop :=
  match t with
  | none => False
  | some inner =>
    k ≠ 0 ∧ ∃ b, b < inner.nodes.length ∧ inner.nodes.getD b emptyNode = ⟨k, v⟩

instance (t : FlatHashTable) (k v : Nat) : Decidable (hasKV t k v) :=
  match t with
  | none => isFalse id
  | some inner => inferInstanceAs (Decidable (_ ∧ _))

/-- The live entries of a table, `[]` when null. -/
def entriesT (t : FlatHashTable) : List Node :=
  match t with
  | none => []
  | some inner => entries inner.nodes

/-- The bucket probed at linearized position `test_i` (one wrap). -/
def eb_test_bucket (len test_i : Nat) : Nat :=
  if test_i ≥ len then test_i - len else test_i

/-- The linearized home position of the entry at the probed bucket. -/
def eb_want (hashT : Nat → Nat) (nodes : List Node) (empty_i test_i : Nat) : Nat :=
  let want_i0 := calc_bucket hashT (nodes.length - 1)
    (nodes.getD (eb_test_bucket nodes.length test_i) emptyNode).first
  if want_i0 < empty_i then want_i0 + nodes.length else want_i0

/-- The region after one backward-shift move. -/
def eb_moved (nodes : List Node) (empty_bucket test_bucket : Nat) : List Node :=
  (nodes.set empty_bucket (nodes.getD test_bucket emptyNode)).set test_bucket emptyNode

/-- The occupied buckets of a table, in bucket order. -/
def occupied_buckets (t : FlatHashTable) : List Nat :=
  match t with
  | none => []
  | some inner =>
    (List.range inner.nodes.length).filter fun b =>
      (inner.nodes.getD b emptyNode).first != 0

/-- The quiescent load bound (with the structural size bounds of
`allocate_nodes`): the table is null, or `used_node_count * 5` is at most
`bucket_count_mask * 3 + 5`. -/
def LoadOk (t : FlatHashTable) : Prop :=
  match t with
  | none => True
  | some inner =>
    8 ≤ inner.nodes.length ∧ inner.nodes.length ≤ 2 ^ 29 ∧
      inner.used_node_count * 5 ≤ (inner.nodes.length - 1) * 3 + 5

instance (t : FlatHashTable) : Decidable (LoadOk t) :=
  match t with
  | none => isTrue trivial
  | some inner => inferInstanceAs (Decidable (_ ∧ _))

/-- One step of an insert/erase interleaving: `(true, k, v)` performs
`emplace(k, v)`, `(false, k, _)` performs `erase(k)`. -/
def apply_op (hashT : Nat → Nat) (t : FlatHashTable) (op : Bool × Nat × Nat) :
    FlatHashTable :=
  if op.1 then (emplace hashT t op.2.1 op.2.2).1 else (erase hashT t op.2.1).2

/-- Run an insert/erase interleaving from the empty (null) table. -/
def run_ops (hashT : Nat → Nat) (ops : List (Bool × Nat × Nat)) : FlatHashTable :=
  ops.foldl (apply_op hashT) none

/-- Whether the most recent operation of the interleaving touching key
`k` was an insert (`false` when no operation touched `k`). -/
def last_insert (ops : List (Bool × Nat × Nat)) (k : Nat) : Bool :=
  (((ops.filter fun op => op.2.1 == k).getLast?).map fun op => op.1).getD false

/-! ### Basic list helpers -/

theorem getD_set_self {l : List Node} {i : Nat} (x : Node) (h : i < l.length) :
    (l.set i x).getD i emptyNode = x := by
  simp [List.getD_eq_getElem?_getD, List.getElem?_set_self h]

theorem getD_set_ne {l : List Node} {i j : Nat} (x : Node) (h : i ≠ j) :
    (l.set i x).getD j emptyNode = l.getD j emptyNode := by
  simp [List.getD_eq_getElem?_getD, List.getElem?_set_ne h]

theorem getD_out_of_range {l : List Node} {j : Nat} (h : l.length ≤ j) :
    l.getD j emptyNode = emptyNode := by
  simp [List.getD_eq_getElem?_getD, List.getElem?_eq_none h]

theorem getD_eq_getElem {l : List Node} {j : Nat} (h : j < l.length) :
    l.getD j emptyNode = l[j] := by
  simp [List.getD_eq_getElem?_getD, List.getElem?_eq_getElem h]

/-- Split a list at an in-range position. -/
theorem eq_take_cons_drop {l : List Node} {b : Nat} (h : b < l.length) :
    l = l.take b ++ l.getD b emptyNode :: l.drop (b + 1) := by
  rw [getD_eq_getElem h, List.getElem_cons_drop, List.take_append_drop]

theorem set_eq_take_cons_drop {l : List Node} {b : Nat} (x : Node) (h : b < l.length) :
    l.set b x = l.take b ++ x :: l.drop (b + 1) := by
  rw [List.set_eq_take_append_cons_drop, if_pos h]

theorem occupiedAt_out_of_range {nodes : List Node} {b : Nat} (h : occupiedAt nodes b) :
    b < nodes.length := by
  by_contra hb
  exact h (by rw [getD_out_of_range (Nat.le_of_not_lt hb)]; rfl)

/-! ### The cyclic distance toolkit -/

theorem cdist_lt {m : Nat} (hm : 0 < m) (a b : Nat) : cdist m a b < m :=
  Nat.mod_lt _ hm

theorem cdist_self (m a : Nat) : cdist m a a = 0 := by
  unfold cdist
  rw [Nat.add_sub_cancel_left, Nat.mod_self]

/-- Walking `j < m` steps from `a` covers cyclic distance `j`. -/
theorem cdist_offset {m a j : Nat} (ha : a < m) (hj : j < m) :
    cdist m a ((a + j) % m) = j := by
  unfold cdist
  have h1 : (a + j) % m + m - a = (a + j) % m + (m - a) := by omega
  rw [h1, Nat.mod_add_mod]
  have h2 : a + j + (m - a) = j + m := by omega
  rw [h2, Nat.add_mod_right, Nat.mod_eq_of_lt hj]

/-- Walking the cyclic distance from `a` reaches `b`. -/
theorem offset_cdist {m a b : Nat} (ha : a < m) (hb : b < m) :
    (a + cdist m a b) % m = b := by
  unfold cdist
  rw [Nat.add_mod_mod]
  have h2 : a + (b + m - a) = b + m := by omega
  rw [h2, Nat.add_mod_right, Nat.mod_eq_of_lt hb]

theorem cdist_eq_zero {m a b : Nat} (ha : a < m) (hb : b < m)
    (h : cdist m a b = 0) : a = b := by
  have := offset_cdist ha hb
  rw [h, Nat.add_zero, Nat.mod_eq_of_lt ha] at this
  exact this

/-- Offsets below `m` from a common origin are injective. -/
theorem offset_inj {m a j j' : Nat} (ha : a < m) (hj : j < m) (hj' : j' < m)
    (h : (a + j) % m = (a + j') % m) : j = j' := by
  have h1 := cdist_offset ha hj
  have h2 := cdist_offset ha hj'
  rw [h] at h1
  omega

/-! ### Masking by a power-of-two bucket count -/

theorem next_bucket_eq_mod {m : Nat} (hpow : m = 2 ^ Nat.log2 m) (b : Nat) :
    next_bucket (m - 1) b = (b + 1) % m := by
  unfold next_bucket
  conv_lhs => rw [hpow]
  rw [Nat.and_pow_two_sub_one_eq_mod, ← hpow]

theorem calc_bucket_lt (hashT : Nat → Nat) (k : Nat) {m : Nat} (hm : 0 < m) :
    calc_bucket hashT (m - 1) k < m :=
  lt_of_le_of_lt Nat.and_le_right (by omega)

/-! ### Entries and occupancy counting -/

theorem occCount_eq_length_entries (nodes : List Node) :
    occCount nodes = (entries nodes).length := List.countP_eq_length_filter _ _

/-- Writing a live node into an empty bucket adds it to the entries. -/
theorem entries_set_insert {nodes : List Node} {b : Nat} {x : Node}
    (hb : b < nodes.length) (he : ¬occupiedAt nodes b) (hx : x.first ≠ 0) :
    (entries (nodes.set b x)).Perm (x :: entries nodes) := by
  have he0 : (nodes.getD b emptyNode).first = 0 := not_not.1 he
  have hold : ¬(((nodes.getD b emptyNode).first != 0) = true) := by
    rw [he0]; decide
  have hsplit := eq_take_cons_drop hb
  rw [set_eq_take_cons_drop x hb]
  conv_rhs => rw [hsplit]
  unfold entries
  rw [List.filter_append, List.filter_cons, if_pos (by simpa using hx),
    List.filter_append, List.filter_cons, if_neg hold]
  exact List.perm_middle

/-- Clearing an occupied bucket removes its node from the entries. -/
theorem entries_set_clear {nodes : List Node} {b : Nat}
    (hb : b < nodes.length) (ho : occupiedAt nodes b) :
    (entries nodes).Perm (nodes.getD b emptyNode :: entries (nodes.set b emptyNode)) := by
  have hold : ((nodes.getD b emptyNode).first != 0) = true := by
    simpa [occupiedAt] using ho
  have hsplit := eq_take_cons_drop hb
  rw [set_eq_take_cons_drop emptyNode hb]
  conv_lhs => rw [hsplit]
  unfold entries
  rw [List.filter_append, List.filter_cons, if_pos hold,
    List.filter_append, List.filter_cons, if_neg (by decide)]
  exact List.perm_middle

/-- A region with fewer live entries than buckets has an empty bucket. -/
theorem exists_empty_of_occCount_lt {nodes : List Node}
    (h : occCount nodes < nodes.length) :
    ∃ e, e < nodes.length ∧ ¬occupiedAt nodes e := by
  by_contra h'
  push_neg at h'
  have : occCount nodes = nodes.length := by
    refine List.countP_eq_length.2 fun a ha => ?_
    obtain ⟨i, hi, rfl⟩ := List.mem_iff_getElem.1 ha
    have := h' i hi
    rw [occupiedAt, getD_eq_getElem hi] at this
    simpa using this
  omega

/-- The first empty bucket on the probe path from `h`. -/
theorem exists_first_empty {nodes : List Node} {h : Nat} (hh : h < nodes.length)
    (hex : ∃ e, e < nodes.length ∧ ¬occupiedAt nodes e) :
    ∃ d, d < nodes.length ∧ ¬occupiedAt nodes ((h + d) % nodes.length) ∧
      ∀ j, j < d → occupiedAt nodes ((h + j) % nodes.length) := by
  obtain ⟨e, he, hemp⟩ := hex
  have hP : ∃ d, ¬occupiedAt nodes ((h + d) % nodes.length) :=
    ⟨cdist nodes.length h e, by rw [offset_cdist hh he]; exact hemp⟩
  refine ⟨Nat.find hP, ?_, Nat.find_spec hP, fun j hj => ?_⟩
  · exact lt_of_le_of_lt (Nat.find_min' hP (by rw [offset_cdist hh he]; exact hemp))
      (cdist_lt (by omega) h e)
  · have := Nat.find_min hP hj
    exact Decidable.not_not.1 this

/-! ### The table invariant -/









theorem IsPow2Cap.le_cap {n : Nat} (h : IsPow2Cap n) : n ≤ 2 ^ 29 := by
  obtain ⟨k, hk, rfl⟩ := h
  exact Nat.pow_le_pow_right (by norm_num) (by omega)

theorem IsPow2Cap.log2_eq {n : Nat} (h : IsPow2Cap n) : n = 2 ^ Nat.log2 n := by
  obtain ⟨k, _, rfl⟩ := h
  rw [Nat.log2_two_pow]

theorem Inv.len8 {hashT inner} (h : Inv hashT inner) : 8 ≤ inner.nodes.length := h.1

theorem Inv.pow2cap {hashT inner} (h : Inv hashT inner) : IsPow2Cap inner.nodes.length :=
  h.2.1

theorem Inv.cap {hashT inner} (h : Inv hashT inner) : inner.nodes.length ≤ 2 ^ 29 :=
  h.2.1.le_cap

theorem Inv.pow2 {hashT inner} (h : Inv hashT inner) :
    inner.nodes.length = 2 ^ Nat.log2 inner.nodes.length := h.2.1.log2_eq

theorem Inv.used_eq {hashT inner} (h : Inv hashT inner) :
    inner.used_node_count = occCount inner.nodes := h.2.2.1

theorem Inv.load {hashT inner} (h : Inv hashT inner) :
    inner.used_node_count * 5 ≤ (inner.nodes.length - 1) * 3 + 5 := h.2.2.2.1

theorem Inv.keysNodup {hashT inner} (h : Inv hashT inner) : KeysNodup inner.nodes :=
  h.2.2.2.2.1

theorem Inv.contig {hashT inner} (h : Inv hashT inner) : Contig hashT inner.nodes :=
  h.2.2.2.2.2

/-- Under the load bound, strictly fewer buckets are occupied than exist. -/
theorem occCount_lt_length {hashT inner} (h : Inv hashT inner) :
    occCount inner.nodes < inner.nodes.length := by
  have h1 := h.used_eq
  have h2 := h.load
  have h3 := h.len8
  omega

/-- Distinct occupied buckets hold distinct keys. -/
theorem keys_distinct {nodes : List Node} (hnd : KeysNodup nodes) {b b' : Nat}
    (hb : b < nodes.length) (hb' : b' < nodes.length) (hne : b ≠ b')
    (hocc : occupiedAt nodes b) (hocc' : occupiedAt nodes b') :
    (nodes.getD b emptyNode).first ≠ (nodes.getD b' emptyNode).first := by
  wlog hlt : b < b' generalizing b b'
  · exact (this hb' hb (Ne.symm hne) hocc' hocc (by omega)).symm
  intro heq
  have hsplit := eq_take_cons_drop hb'
  have hxmem : nodes.getD b emptyNode ∈ nodes.take b' := by
    rw [List.mem_iff_getElem]
    refine ⟨b, by simpa [List.length_take] using lt_min hlt hb, ?_⟩
    rw [List.getElem_take]
    exact (getD_eq_getElem hb).symm
  have hx1 : (((nodes.getD b emptyNode).first != 0) = true) := by
    simpa [occupiedAt] using hocc
  have hxent : (nodes.getD b emptyNode).first ∈ (entries (nodes.take b')).map Node.first :=
    List.mem_map_of_mem _ (List.mem_filter.2 ⟨hxmem, hx1⟩)
  have hnd' := hnd
  rw [KeysNodup] at hnd'
  conv at hnd' => rw [hsplit]
  rw [entries, List.filter_append, List.filter_cons,
    if_pos (by simpa [occupiedAt] using hocc'), List.map_append, List.map_cons,
    List.nodup_append] at hnd'
  exact hnd'.2.2 hxent (by rw [heq]; exact List.mem_cons_self _ _)

/-- The path form of contiguity: every bucket strictly before an occupied
bucket on its probe path is occupied. -/
theorem contig_path {hashT : Nat → Nat} {nodes : List Node}
    (hcont : Contig hashT nodes) {b : Nat} (hb : b < nodes.length)
    (hocc : occupiedAt nodes b) {j : Nat}
    (hj : j < cdist nodes.length (homeOf hashT nodes b) b) :
    occupiedAt nodes ((homeOf hashT nodes b + j) % nodes.length) := by
  have hm : 0 < nodes.length := by omega
  have hhome : homeOf hashT nodes b < nodes.length := calc_bucket_lt _ _ hm
  by_contra hq
  have hqlt : (homeOf hashT nodes b + j) % nodes.length < nodes.length :=
    Nat.mod_lt _ hm
  have := hcont b hb hocc _ hqlt hq
  rw [cdist_offset hhome (lt_trans hj (cdist_lt hm _ _))] at this
  omega

/-! ### The find probe -/

theorem if_cond_true {α : Sort _} {c : Bool} (h : c = true) (a b : α) :
    (if c = true then a else b) = a := by rw [h]; exact if_pos rfl

theorem if_cond_false {α : Sort _} {c : Bool} (h : c = false) (a b : α) :
    (if c = true then a else b) = b := by rw [h]; exact if_neg Bool.false_ne_true

theorem isEmpty_true_of {n : Node} (h : n.first = 0) : n.isEmpty = true := by
  unfold Node.isEmpty is_key_empty
  exact beq_iff_eq.2 h

theorem isEmpty_false_of {n : Node} (h : n.first ≠ 0) : n.isEmpty = false := by
  unfold Node.isEmpty is_key_empty
  exact beq_eq_false_iff_ne.2 h

theorem occupiedAt_of_isEmpty_false {nodes : List Node} {b : Nat}
    (h : (nodes.getD b emptyNode).isEmpty = false) : occupiedAt nodes b := by
  unfold Node.isEmpty is_key_empty at h
  exact beq_eq_false_iff_ne.1 h

theorem is_key_empty_false {k : Nat} (h : k ≠ 0) : is_key_empty k = false := by
  unfold is_key_empty
  exact beq_eq_false_iff_ne.2 h

/-- Soundness of the probe loop: a returned bucket holds the key. -/
theorem find_loop_some {nodes : List Node} {key : Nat} :
    ∀ fuel bucket b, find_loop nodes key bucket fuel = some b →
      (nodes.getD b emptyNode).first = key := by
  intro fuel
  induction fuel with
  | zero => intro bucket b h; cases h
  | succ f ih =>
    intro bucket b h
    rw [find_loop] at h
    by_cases h1 : ((nodes.getD bucket emptyNode).first == key) = true
    · rw [if_cond_true h1] at h
      cases h
      exact beq_iff_eq.1 h1
    · rw [if_cond_false (Bool.eq_false_iff.2 h1)] at h
      by_cases h2 : (nodes.getD bucket emptyNode).isEmpty = true
      · rw [if_cond_true h2] at h
        cases h
      · rw [if_cond_false (Bool.eq_false_iff.2 h2)] at h
        exact ih _ _ h

/-- If no bucket holds the key, the probe loop never returns a bucket. -/
theorem find_loop_none_of_absent {nodes : List Node} {key : Nat}
    (habs : ∀ b, (nodes.getD b emptyNode).first ≠ key) :
    ∀ fuel bucket, find_loop nodes key bucket fuel = none := by
  intro fuel
  induction fuel with
  | zero => intro bucket; rfl
  | succ f ih =>
    intro bucket
    rw [find_loop]
    rw [if_cond_false (beq_eq_false_iff_ne.2 (habs bucket))]
    by_cases h2 : (nodes.getD bucket emptyNode).isEmpty = true
    · rw [if_cond_true h2]
    · rw [if_cond_false (Bool.eq_false_iff.2 h2)]
      exact ih _

/-- Skipping over a fully occupied, key-free stretch of the probe path. -/
theorem find_loop_skip {nodes : List Node}
    (hpow : nodes.length = 2 ^ Nat.log2 nodes.length) {key : Nat} :
    ∀ d s fuel, s < nodes.length → d ≤ fuel →
      (∀ j, j < d → (nodes.getD ((s + j) % nodes.length) emptyNode).first ≠ 0 ∧
        (nodes.getD ((s + j) % nodes.length) emptyNode).first ≠ key) →
      find_loop nodes key s fuel =
        find_loop nodes key ((s + d) % nodes.length) (fuel - d) := by
  intro d
  induction d with
  | zero =>
    intro s fuel hs _ _
    rw [Nat.add_zero, Nat.mod_eq_of_lt hs, Nat.sub_zero]
  | succ d ih =>
    intro s fuel hs hfuel hcont
    obtain ⟨f, rfl⟩ : ∃ f, fuel = f + 1 := ⟨fuel - 1, by omega⟩
    obtain ⟨hocc0, hkey0⟩ := hcont 0 (Nat.succ_pos d)
    rw [Nat.add_zero, Nat.mod_eq_of_lt hs] at hocc0 hkey0
    rw [find_loop]
    rw [if_cond_false (beq_eq_false_iff_ne.2 hkey0)]
    rw [if_cond_false (isEmpty_false_of hocc0)]
    rw [next_bucket_eq_mod hpow]
    have hs' : (s + 1) % nodes.length < nodes.length := Nat.mod_lt _ (by omega)
    have hstep := ih ((s + 1) % nodes.length) f hs' (by omega) ?_
    · rw [hstep]
      have harg : ((s + 1) % nodes.length + d) % nodes.length =
          (s + (d + 1)) % nodes.length := by
        rw [Nat.mod_add_mod]
        congr 1
        omega
      have hfl : f - d = f + 1 - (d + 1) := by omega
      rw [harg, hfl]
    · intro j hj
      have hrw : ((s + 1) % nodes.length + j) % nodes.length =
          (s + (j + 1)) % nodes.length := by
        rw [Nat.mod_add_mod]
        congr 1
        omega
      rw [hrw]
      exact hcont (j + 1) (by omega)

/-- The probe loop finds the key at cyclic offset `d` when the path up to
it is occupied and key-free. -/
theorem find_loop_reaches_key {nodes : List Node}
    (hpow : nodes.length = 2 ^ Nat.log2 nodes.length) {key s d fuel : Nat}
    (hs : s < nodes.length) (hfuel : d < fuel)
    (hcont : ∀ j, j < d → (nodes.getD ((s + j) % nodes.length) emptyNode).first ≠ 0 ∧
      (nodes.getD ((s + j) % nodes.length) emptyNode).first ≠ key)
    (hhit : (nodes.getD ((s + d) % nodes.length) emptyNode).first = key) :
    find_loop nodes key s fuel = some ((s + d) % nodes.length) := by
  rw [find_loop_skip hpow d s fuel hs (by omega) hcont]
  obtain ⟨f, hf⟩ : ∃ f, fuel - d = f + 1 := ⟨fuel - d - 1, by omega⟩
  rw [hf, find_loop]
  rw [if_cond_true (beq_iff_eq.2 hhit)]

/-- The probe loop reports absence at the first empty bucket when the path
up to it is occupied and key-free. -/
theorem find_loop_reaches_empty {nodes : List Node}
    (hpow : nodes.length = 2 ^ Nat.log2 nodes.length) {key s d fuel : Nat}
    (hkey : key ≠ 0) (hs : s < nodes.length) (hfuel : d < fuel)
    (hcont : ∀ j, j < d → (nodes.getD ((s + j) % nodes.length) emptyNode).first ≠ 0 ∧
      (nodes.getD ((s + j) % nodes.length) emptyNode).first ≠ key)
    (hhit : (nodes.getD ((s + d) % nodes.length) emptyNode).first = 0) :
    find_loop nodes key s fuel = none := by
  rw [find_loop_skip hpow d s fuel hs (by omega) hcont]
  obtain ⟨f, hf⟩ : ∃ f, fuel - d = f + 1 := ⟨fuel - d - 1, by omega⟩
  rw [hf, find_loop]
  rw [if_cond_false (beq_eq_false_iff_ne.2 (hhit ▸ Ne.symm hkey))]
  rw [if_cond_true (isEmpty_true_of hhit)]

/-! ### Correctness of `find` under the invariant -/





/-- `find` locates the unique bucket holding a present key. -/
theorem find_some_of_haskey {hashT : Nat → Nat} {inner : Inner} (hInv : Inv hashT inner)
    {k b : Nat} (hk : k ≠ 0) (hb : b < inner.nodes.length)
    (hkey : (inner.nodes.getD b emptyNode).first = k) :
    find hashT (some inner) k = some b := by
  have hm : 0 < inner.nodes.length := by have := hInv.len8; omega
  have hocc : occupiedAt inner.nodes b := by rw [occupiedAt, hkey]; exact hk
  have hhlt : calc_bucket hashT (inner.nodes.length - 1) k < inner.nodes.length :=
    calc_bucket_lt _ _ hm
  have hhome : homeOf hashT inner.nodes b = calc_bucket hashT (inner.nodes.length - 1) k := by
    rw [homeOf, hkey]
  have hb_eq : (calc_bucket hashT (inner.nodes.length - 1) k +
      cdist inner.nodes.length (calc_bucket hashT (inner.nodes.length - 1) k) b) %
      inner.nodes.length = b := offset_cdist hhlt hb
  show (if is_key_empty k = true then none
    else find_loop inner.nodes k (calc_bucket hashT (bucket_count_mask inner) k)
      inner.nodes.length) = some b
  rw [if_cond_false (is_key_empty_false hk)]
  rw [show bucket_count_mask inner = inner.nodes.length - 1 from rfl]
  rw [find_loop_reaches_key hInv.pow2 hhlt
    (cdist_lt hm _ b) ?_ (by rw [hb_eq]; exact hkey), hb_eq]
  intro j hj
  have hq : occupiedAt inner.nodes
      ((calc_bucket hashT (inner.nodes.length - 1) k + j) % inner.nodes.length) := by
    have := contig_path hInv.contig hb hocc (j := j) (by rw [hhome]; exact hj)
    rw [hhome] at this
    exact this
  refine ⟨hq, ?_⟩
  have hqlt : (calc_bucket hashT (inner.nodes.length - 1) k + j) % inner.nodes.length <
      inner.nodes.length := Nat.mod_lt _ hm
  have hne : (calc_bucket hashT (inner.nodes.length - 1) k + j) % inner.nodes.length ≠ b := by
    intro he
    rw [← hb_eq] at he
    have := offset_inj hhlt (lt_trans hj (cdist_lt hm _ _)) (cdist_lt hm _ b) he
    omega
  have := keys_distinct hInv.keysNodup hqlt hb hne hq hocc
  rw [hkey] at this
  exact this

/-- `find` returns `end()` exactly on the absent keys (non-sentinel case,
allocated table). -/
theorem find_eq_none_iff {hashT : Nat → Nat} {inner : Inner} (hInv : Inv hashT inner)
    {k : Nat} (hk : k ≠ 0) :
    find hashT (some inner) k = none ↔
      ∀ b, b < inner.nodes.length → (inner.nodes.getD b emptyNode).first ≠ k := by
  constructor
  · intro hf b hb hkey
    rw [find_some_of_haskey hInv hk hb hkey] at hf
    cases hf
  · intro habs
    show (if is_key_empty k = true then none
      else find_loop inner.nodes k (calc_bucket hashT (bucket_count_mask inner) k)
        inner.nodes.length) = none
    rw [if_cond_false (is_key_empty_false hk)]
    refine find_loop_none_of_absent (fun b => ?_) _ _
    by_cases hb : b < inner.nodes.length
    · exact habs b hb
    · rw [getD_out_of_range (by omega)]
      exact fun h => hk h.symm

/-- `find` characterized on present keys. -/
theorem find_eq_some_iff {hashT : Nat → Nat} {inner : Inner} (hInv : Inv hashT inner)
    {k b : Nat} (hk : k ≠ 0) :
    find hashT (some inner) k = some b ↔
      b < inner.nodes.length ∧ (inner.nodes.getD b emptyNode).first = k := by
  constructor
  · intro hf
    have hkey : (inner.nodes.getD b emptyNode).first = k := by
      rw [show find hashT (some inner) k = (if is_key_empty k = true then none
        else find_loop inner.nodes k (calc_bucket hashT (bucket_count_mask inner) k)
          inner.nodes.length) from rfl] at hf
      rw [if_cond_false (is_key_empty_false hk)] at hf
      exact find_loop_some _ _ _ hf
    refine ⟨?_, hkey⟩
    exact occupiedAt_out_of_range (by rw [occupiedAt, hkey]; exact hk)
  · intro ⟨hb, hkey⟩
    exact find_some_of_haskey hInv hk hb hkey

/-! ### Insertion at the first empty bucket of a probe path -/

theorem mem_entries_iff {nodes : List Node} {x : Node} :
    x ∈ entries nodes ↔
      (∃ b, b < nodes.length ∧ nodes.getD b emptyNode = x) ∧ x.first ≠ 0 := by
  constructor
  · intro hx
    obtain ⟨hmem, hocc⟩ := List.mem_filter.1 hx
    obtain ⟨b, hb, hbx⟩ := List.mem_iff_getElem.1 hmem
    exact ⟨⟨b, hb, by rw [getD_eq_getElem hb]; exact hbx⟩, by simpa using hocc⟩
  · intro ⟨⟨b, hb, hbx⟩, hocc⟩
    refine List.mem_filter.2 ⟨?_, by simpa using hocc⟩
    rw [List.mem_iff_getElem]
    exact ⟨b, hb, by rw [← getD_eq_getElem hb]; exact hbx⟩

/-- A key that is in no bucket is not among the entry keys. -/
theorem key_not_mem_entries {nodes : List Node} {k : Nat}
    (habs : ∀ b, b < nodes.length → (nodes.getD b emptyNode).first ≠ k) :
    k ∉ (entries nodes).map Node.first := by
  intro hmem
  obtain ⟨x, hx, hxk⟩ := List.mem_map.1 hmem
  obtain ⟨⟨b, hb, hbx⟩, _⟩ := mem_entries_iff.1 hx
  exact habs b hb (by rw [hbx, hxk])

/-- Writing `⟨k, v⟩` into the first empty bucket of `k`'s probe path
preserves distinctness and contiguity, and extends the entries by the new
node. -/
theorem insert_preserves {hashT : Nat → Nat} {nodes : List Node} {k v d : Nat}
    (hpow : nodes.length = 2 ^ Nat.log2 nodes.length) (hm : 0 < nodes.length)
    (hnd : KeysNodup nodes) (hcont : Contig hashT nodes) (hk : k ≠ 0)
    (habs : ∀ b, b < nodes.length → (nodes.getD b emptyNode).first ≠ k)
    (hd : d < nodes.length)
    (hpath : ∀ j, j < d →
      occupiedAt nodes ((calc_bucket hashT (nodes.length - 1) k + j) % nodes.length))
    (hemp : ¬occupiedAt nodes
      ((calc_bucket hashT (nodes.length - 1) k + d) % nodes.length)) :
    let e := (calc_bucket hashT (nodes.length - 1) k + d) % nodes.length
    let nodes' := nodes.set e (⟨k, v⟩ : Node)
    nodes'.length = nodes.length ∧ KeysNodup nodes' ∧ Contig hashT nodes' ∧
      (entries nodes').Perm ((⟨k, v⟩ : Node) :: entries nodes) := by
  intro e nodes'
  have hh : calc_bucket hashT (nodes.length - 1) k < nodes.length := calc_bucket_lt _ _ hm
  have he : e < nodes.length := Nat.mod_lt _ hm
  have hperm : (entries nodes').Perm ((⟨k, v⟩ : Node) :: entries nodes) :=
    entries_set_insert he hemp hk
  have hlen : nodes'.length = nodes.length := List.length_set _ _ _
  refine ⟨hlen, ?_, ?_, hperm⟩
  · rw [KeysNodup]
    have := (hperm.map Node.first).nodup_iff
    rw [this]
    rw [List.map_cons]
    exact List.nodup_cons.2 ⟨key_not_mem_entries habs, hnd⟩
  · intro b hb hocc e' he' hemp'
    rw [hlen] at hb he'
    have hde : cdist nodes.length (calc_bucket hashT (nodes.length - 1) k) e = d :=
      cdist_offset hh hd
    have hne' : e' ≠ e := by
      intro heq
      apply hemp'
      rw [occupiedAt, heq]
      unfold nodes'
      rw [getD_set_self _ he]
      exact hk
    have hemp'' : ¬occupiedAt nodes e' := by
      intro ho
      apply hemp'
      rw [occupiedAt]
      unfold nodes'
      rw [getD_set_ne _ (Ne.symm hne')]
      exact ho
    by_cases hbe : b = e
    · have hkey' : (nodes'.getD b emptyNode) = ⟨k, v⟩ := by
        rw [hbe]; exact getD_set_self _ he
      have hhome' : homeOf hashT nodes' b = calc_bucket hashT (nodes.length - 1) k := by
        rw [homeOf, hkey', hlen]
      rw [hhome', hlen, hbe, hde]
      by_contra hlt
      push_neg at hlt
      have := hpath _ hlt
      rw [offset_cdist hh he'] at this
      exact hemp'' this
    · have hkeep : nodes'.getD b emptyNode = nodes.getD b emptyNode :=
        getD_set_ne _ (Ne.symm hbe)
      have hoccb : occupiedAt nodes b := by rw [occupiedAt, ← hkeep]; exact hocc
      have hhome' : homeOf hashT nodes' b = homeOf hashT nodes b := by
        rw [homeOf, homeOf, hkeep, hlen]
      rw [hhome', hlen]
      exact hcont b hb hoccb e' he' hemp''

/-! ### The emplace and rehash probes -/

theorem next_bucket_mask_eq_mod {inner : Inner}
    (hpow : inner.nodes.length = 2 ^ Nat.log2 inner.nodes.length) (b : Nat) :
    next_bucket (bucket_count_mask inner) b = (b + 1) % inner.nodes.length := by
  rw [show bucket_count_mask inner = inner.nodes.length - 1 from rfl]
  exact next_bucket_eq_mod hpow b

/-- Skipping over a fully occupied, key-free stretch in the emplace probe. -/
theorem emplace_loop_skip {inner : Inner}
    (hpow : inner.nodes.length = 2 ^ Nat.log2 inner.nodes.length) {key value : Nat} :
    ∀ d s fuel, s < inner.nodes.length → d ≤ fuel →
      (∀ j, j < d →
        (inner.nodes.getD ((s + j) % inner.nodes.length) emptyNode).first ≠ 0 ∧
        (inner.nodes.getD ((s + j) % inner.nodes.length) emptyNode).first ≠ key) →
      emplace_loop inner key value s fuel =
        emplace_loop inner key value ((s + d) % inner.nodes.length) (fuel - d) := by
  intro d
  induction d with
  | zero =>
    intro s fuel hs _ _
    rw [Nat.add_zero, Nat.mod_eq_of_lt hs, Nat.sub_zero]
  | succ d ih =>
    intro s fuel hs hfuel hcont
    obtain ⟨f, rfl⟩ : ∃ f, fuel = f + 1 := ⟨fuel - 1, by omega⟩
    obtain ⟨hocc0, hkey0⟩ := hcont 0 (Nat.succ_pos d)
    rw [Nat.add_zero, Nat.mod_eq_of_lt hs] at hocc0 hkey0
    rw [emplace_loop]
    rw [if_cond_false (beq_eq_false_iff_ne.2 hkey0)]
    rw [if_cond_false (isEmpty_false_of hocc0)]
    rw [next_bucket_mask_eq_mod hpow]
    have hs' : (s + 1) % inner.nodes.length < inner.nodes.length :=
      Nat.mod_lt _ (by omega)
    have hstep := ih ((s + 1) % inner.nodes.length) f hs' (by omega) ?_
    · rw [hstep]
      have harg : ((s + 1) % inner.nodes.length + d) % inner.nodes.length =
          (s + (d + 1)) % inner.nodes.length := by
        rw [Nat.mod_add_mod]
        congr 1
        omega
      have hfl : f - d = f + 1 - (d + 1) := by omega
      rw [harg, hfl]
    · intro j hj
      have hrw : ((s + 1) % inner.nodes.length + j) % inner.nodes.length =
          (s + (j + 1)) % inner.nodes.length := by
        rw [Nat.mod_add_mod]
        congr 1
        omega
      rw [hrw]
      exact hcont (j + 1) (by omega)

/-- The emplace probe stops without inserting at a bucket already holding
the key. -/
theorem emplace_loop_found {inner : Inner}
    (hpow : inner.nodes.length = 2 ^ Nat.log2 inner.nodes.length)
    {key value s d fuel : Nat} (hs : s < inner.nodes.length) (hfuel : d < fuel)
    (hcont : ∀ j, j < d →
      (inner.nodes.getD ((s + j) % inner.nodes.length) emptyNode).first ≠ 0 ∧
      (inner.nodes.getD ((s + j) % inner.nodes.length) emptyNode).first ≠ key)
    (hhit : (inner.nodes.getD ((s + d) % inner.nodes.length) emptyNode).first = key) :
    emplace_loop inner key value s fuel =
      (inner, (s + d) % inner.nodes.length, false) := by
  rw [emplace_loop_skip hpow d s fuel hs (by omega) hcont]
  obtain ⟨f, hf⟩ : ∃ f, fuel - d = f + 1 := ⟨fuel - d - 1, by omega⟩
  rw [hf, emplace_loop]
  rw [if_cond_true (beq_iff_eq.2 hhit)]

/-- The emplace probe constructs the node in the first empty bucket and
bumps the used count. -/
theorem emplace_loop_inserts {inner : Inner}
    (hpow : inner.nodes.length = 2 ^ Nat.log2 inner.nodes.length)
    {key value s d fuel : Nat} (hkey : key ≠ 0) (hs : s < inner.nodes.length)
    (hfuel : d < fuel)
    (hcont : ∀ j, j < d →
      (inner.nodes.getD ((s + j) % inner.nodes.length) emptyNode).first ≠ 0 ∧
      (inner.nodes.getD ((s + j) % inner.nodes.length) emptyNode).first ≠ key)
    (hhit : (inner.nodes.getD ((s + d) % inner.nodes.length) emptyNode).first = 0) :
    emplace_loop inner key value s fuel =
      (⟨inner.used_node_count + 1,
        inner.nodes.set ((s + d) % inner.nodes.length) ⟨key, value⟩⟩,
        (s + d) % inner.nodes.length, true) := by
  rw [emplace_loop_skip hpow d s fuel hs (by omega) hcont]
  obtain ⟨f, hf⟩ : ∃ f, fuel - d = f + 1 := ⟨fuel - d - 1, by omega⟩
  rw [hf, emplace_loop]
  rw [if_cond_false (beq_eq_false_iff_ne.2 (hhit ▸ Ne.symm hkey))]
  rw [if_cond_true (isEmpty_true_of hhit)]

/-- The rehash probe writes the node into the first empty bucket of its
path. -/
theorem resize_insert_loop_spec {nodes : List Node} {x : Node}
    (hpow : nodes.length = 2 ^ Nat.log2 nodes.length) :
    ∀ d s fuel, s < nodes.length → d < fuel →
      (∀ j, j < d → occupiedAt nodes ((s + j) % nodes.length)) →
      ¬occupiedAt nodes ((s + d) % nodes.length) →
      resize_insert_loop nodes x s fuel = nodes.set ((s + d) % nodes.length) x := by
  intro d
  induction d with
  | zero =>
    intro s fuel hs hfuel _ hemp
    obtain ⟨f, rfl⟩ : ∃ f, fuel = f + 1 := ⟨fuel - 1, by omega⟩
    rw [resize_insert_loop]
    rw [Nat.add_zero, Nat.mod_eq_of_lt hs] at hemp
    rw [if_cond_true (isEmpty_true_of (not_not.1 hemp))]
    rw [Nat.add_zero, Nat.mod_eq_of_lt hs]
  | succ d ih =>
    intro s fuel hs hfuel hocc hemp
    obtain ⟨f, rfl⟩ : ∃ f, fuel = f + 1 := ⟨fuel - 1, by omega⟩
    rw [resize_insert_loop]
    have hocc0 := hocc 0 (Nat.succ_pos d)
    rw [Nat.add_zero, Nat.mod_eq_of_lt hs] at hocc0
    rw [if_cond_false (isEmpty_false_of hocc0)]
    rw [next_bucket_eq_mod hpow]
    have hs' : (s + 1) % nodes.length < nodes.length := Nat.mod_lt _ (by omega)
    have hrw : ∀ j, ((s + 1) % nodes.length + j) % nodes.length =
        (s + (j + 1)) % nodes.length := by
      intro j
      rw [Nat.mod_add_mod]
      congr 1
      omega
    rw [ih ((s + 1) % nodes.length) f hs' (by omega)
      (fun j hj => by rw [hrw j]; exact hocc (j + 1) (by omega))
      (by rw [hrw d]; exact hemp)]
    rw [hrw d]

/-! ### Rehash: `resize` rebuilds a well-formed region -/

theorem getD_allocate (n b : Nat) : (allocate_nodes n).getD b emptyNode = emptyNode := by
  unfold allocate_nodes
  rw [List.getD_eq_getElem?_getD, List.getElem?_replicate]
  by_cases hb : b < n
  · rw [if_pos hb]; rfl
  · rw [if_neg hb]; rfl

theorem not_occupiedAt_allocate (n b : Nat) : ¬occupiedAt (allocate_nodes n) b := by
  rw [occupiedAt, getD_allocate]
  exact fun h => h rfl

theorem entries_allocate (n : Nat) : entries (allocate_nodes n) = [] := by
  rw [entries, List.filter_eq_nil]
  intro a ha
  rw [List.eq_of_mem_replicate ha]
  decide

theorem entries_cons_occ {x : Node} {l : List Node} (hx : x.first ≠ 0) :
    entries (x :: l) = x :: entries l := by
  rw [entries, entries, List.filter_cons, if_pos (by simpa using hx)]

theorem entries_cons_emp {x : Node} {l : List Node} (hx : x.first = 0) :
    entries (x :: l) = entries l := by
  rw [entries, entries, List.filter_cons, if_neg (by simp [hx])]

/-- One rehash insertion preserves the partial-region invariants. -/
theorem rehash_insert_step {hashT : Nat → Nat} {ns : Nat} {acc : List Node} {x : Node}
    (hlen : acc.length = ns) (hpow : ns = 2 ^ Nat.log2 ns) (hns : 0 < ns)
    (hnd : KeysNodup acc) (hcont : Contig hashT acc) (hx : x.first ≠ 0)
    (habs : ∀ b, b < ns → (acc.getD b emptyNode).first ≠ x.first)
    (hocc : occCount acc < ns) :
    let r := resize_insert_loop acc x (calc_bucket hashT (ns - 1) x.first) ns
    r.length = ns ∧ KeysNodup r ∧ Contig hashT r ∧
      (entries r).Perm (x :: entries acc) := by
  intro r
  have hpow' : acc.length = 2 ^ Nat.log2 acc.length := by rw [hlen]; exact hpow
  have hm : 0 < acc.length := by omega
  have hh : calc_bucket hashT (acc.length - 1) x.first < acc.length :=
    calc_bucket_lt _ _ hm
  obtain ⟨d, hd, hemp, hpath⟩ := exists_first_empty hh
    (exists_empty_of_occCount_lt (by omega))
  have hr : r = acc.set ((calc_bucket hashT (acc.length - 1) x.first + d) % acc.length) x := by
    unfold r
    rw [show ns - 1 = acc.length - 1 by rw [hlen]]
    exact resize_insert_loop_spec hpow' d _ ns hh (by omega) hpath hemp
  have := @insert_preserves hashT acc x.first x.second d
    hpow' hm hnd hcont hx (fun b hb => habs b (by omega)) hd hpath hemp
  rw [hr]
  exact ⟨by rw [List.length_set, hlen], this.2.1, this.2.2.1, this.2.2.2⟩

/-- Folding the rehash insertion over a list of distinct-keyed old nodes
rebuilds all invariants and preserves the entries. -/
theorem rehash_fold {hashT : Nat → Nat} {ns : Nat} (hpow : ns = 2 ^ Nat.log2 ns)
    (hns : 0 < ns) :
    ∀ (l : List Node) (acc : List Node),
      acc.length = ns → KeysNodup acc → Contig hashT acc →
      (∀ x, x ∈ l → x.first ≠ 0 → ∀ b, b < ns → (acc.getD b emptyNode).first ≠ x.first) →
      KeysNodup l →
      occCount acc + occCount l < ns →
      let r := l.foldl (fun acc old_node =>
        if old_node.isEmpty then acc
        else resize_insert_loop acc old_node
          (calc_bucket hashT (ns - 1) old_node.first) ns) acc
      r.length = ns ∧ KeysNodup r ∧ Contig hashT r ∧
        (entries r).Perm (entries l ++ entries acc) := by
  intro l
  induction l with
  | nil =>
    intro acc h1 h2 h3 _ _ _
    exact ⟨h1, h2, h3, by simp [entries]⟩
  | cons x l' ih =>
    intro acc hlen hnd hcont habs hsuf hcap
    by_cases hx : x.first = 0
    · have hstep : (if x.isEmpty then acc
          else resize_insert_loop acc x (calc_bucket hashT (ns - 1) x.first) ns) = acc := by
        rw [if_pos ?_]
        rw [Node.isEmpty, is_key_empty]
        exact beq_iff_eq.2 hx
      rw [List.foldl_cons, hstep]
      have hsuf' : KeysNodup l' := by rwa [KeysNodup, entries_cons_emp hx] at hsuf
      have hcap' : occCount acc + occCount l' < ns := by
        rw [occCount_eq_length_entries (x :: l'), entries_cons_emp hx,
          ← occCount_eq_length_entries l'] at hcap
        exact hcap
      have := ih acc hlen hnd hcont (fun y hy => habs y (List.mem_cons_of_mem _ hy))
        hsuf' hcap'
      refine ⟨this.1, this.2.1, this.2.2.1, ?_⟩
      rw [entries_cons_emp hx]
      exact this.2.2.2
    · have hstep : (if x.isEmpty then acc
          else resize_insert_loop acc x (calc_bucket hashT (ns - 1) x.first) ns) =
          resize_insert_loop acc x (calc_bucket hashT (ns - 1) x.first) ns := by
        rw [if_neg ?_]
        rw [Node.isEmpty, is_key_empty]
        simp [hx]
      rw [List.foldl_cons, hstep]
      have hcapx : occCount acc < ns := by
        rw [occCount_eq_length_entries (x :: l'), entries_cons_occ hx] at hcap
        simp only [List.length_cons] at hcap
        omega
      obtain ⟨hlen', hnd', hcont', hperm'⟩ := rehash_insert_step hlen hpow hns hnd hcont hx
        (fun b hb => habs x (List.mem_cons_self _ _) hx b hb) hcapx
      set acc' := resize_insert_loop acc x (calc_bucket hashT (ns - 1) x.first) ns with hacc'
      have hsufnd : x.first ∉ (entries l').map Node.first ∧ KeysNodup l' := by
        rw [KeysNodup, entries_cons_occ hx, List.map_cons] at hsuf
        exact ⟨(List.nodup_cons.1 hsuf).1, (List.nodup_cons.1 hsuf).2⟩
      have habs' : ∀ y, y ∈ l' → y.first ≠ 0 →
          ∀ b, b < ns → (acc'.getD b emptyNode).first ≠ y.first := by
        intro y hy hyocc b hb hbad
        have hbent : acc'.getD b emptyNode ∈ entries acc' :=
          mem_entries_iff.2 ⟨⟨b, by omega, rfl⟩, by rw [hbad]; exact hyocc⟩
        have : acc'.getD b emptyNode ∈ x :: entries acc := hperm'.subset hbent
        rcases List.mem_cons.1 this with hcase | hcase
        · apply hsufnd.1
          have hxy : x.first = y.first := by rw [← hcase, hbad]
          rw [hxy]
          exact List.mem_map_of_mem _ (List.mem_filter.2
            ⟨hy, by simpa using hyocc⟩)
        · obtain ⟨⟨b', hb', hb'x⟩, _⟩ := mem_entries_iff.1 hcase
          apply habs y (List.mem_cons_of_mem _ hy) hyocc b' (by omega)
          rw [hb'x, hbad]
      have hcap' : occCount acc' + occCount l' < ns := by
        have h1 : occCount acc' = occCount acc + 1 := by
          rw [occCount_eq_length_entries, occCount_eq_length_entries, hperm'.length_eq]
          rfl
        rw [occCount_eq_length_entries (x :: l'), entries_cons_occ hx] at hcap
        rw [h1]
        simp only [List.length_cons] at hcap
        rw [occCount_eq_length_entries l']
        omega
      have := ih acc' hlen' hnd' hcont' habs' hsufnd.2 hcap'
      refine ⟨this.1, this.2.1, this.2.2.1, ?_⟩
      refine this.2.2.2.trans ?_
      rw [entries_cons_occ hx]
      exact List.Perm.trans (List.Perm.append_left _ hperm') List.perm_middle



/-- `resize` on an allocated region with distinct keys and enough room
rebuilds a well-formed region with the same used count and entries. -/
theorem resize_spec {hashT : Nat → Nat} {inner : Inner} {ns : Nat}
    (hpow : ns = 2 ^ Nat.log2 ns) (hns : 0 < ns)
    (hnd : KeysNodup inner.nodes) (hocc : occCount inner.nodes < ns) :
    ∃ inner', resize hashT (some inner) ns = some inner' ∧
      inner'.used_node_count = inner.used_node_count ∧
      inner'.nodes.length = ns ∧ KeysNodup inner'.nodes ∧ Contig hashT inner'.nodes ∧
      (entries inner'.nodes).Perm (entries inner.nodes) := by
  have halloc_len : (allocate_nodes ns).length = ns := List.length_replicate _ _
  have halloc_nd : KeysNodup (allocate_nodes ns) := by
    rw [KeysNodup, entries_allocate]
    exact List.nodup_nil
  have halloc_cont : Contig hashT (allocate_nodes ns) := fun b _ hocc' =>
    absurd hocc' (not_occupiedAt_allocate ns b)
  have habs : ∀ x, x ∈ inner.nodes → x.first ≠ 0 →
      ∀ b, b < ns → ((allocate_nodes ns).getD b emptyNode).first ≠ x.first := by
    intro x _ hx b _ h
    rw [getD_allocate] at h
    exact hx h.symm
  have hcap : occCount (allocate_nodes ns) + occCount inner.nodes < ns := by
    have h0 : occCount (allocate_nodes ns) = 0 := by
      rw [occCount_eq_length_entries, entries_allocate]
      rfl
    omega
  obtain ⟨h1, h2, h3, h4⟩ := rehash_fold hpow hns inner.nodes (allocate_nodes ns)
    halloc_len halloc_nd halloc_cont habs hnd hcap
  exact ⟨⟨inner.used_node_count, _⟩, rfl, rfl, h1, h2, h3,
    h4.trans (by rw [entries_allocate, List.append_nil])⟩

theorem log2_double {n : Nat} (hn : 0 < n) : Nat.log2 (2 * n) = Nat.log2 n + 1 := by
  rw [Nat.log2]
  rw [if_pos (by omega : 2 * n ≥ 2)]
  have h2 : 2 * n / 2 = n := by omega
  rw [h2]

theorem pow2_double {n : Nat} (hpow : n = 2 ^ Nat.log2 n) (hn : 0 < n) :
    2 * n = 2 ^ Nat.log2 (2 * n) := by
  rw [log2_double hn, pow_succ, Nat.mul_comm]
  omega

/-- `try_grow` yields an allocated, well-formed table with the entries of
the input and the pre-insertion load slack `used * 5 ≤ mask * 3`.  The
hypothesis `size t < 2^27` keeps the doubled region within the `CHECK`
cap of `allocate_nodes` (beyond it the C++ process aborts). -/
theorem try_grow_spec {hashT : Nat → Nat} {t : FlatHashTable} (hWF : WF hashT t)
    (hna : size t < 2 ^ 27) :
    ∃ inner1, try_grow hashT t = some inner1 ∧ Inv hashT inner1 ∧
      inner1.used_node_count = size t ∧
      inner1.used_node_count * 5 ≤ (inner1.nodes.length - 1) * 3 ∧
      (entries inner1.nodes).Perm (entriesT t) := by
  match t with
  | none =>
    refine ⟨⟨0, allocate_nodes 8⟩, rfl,
      ⟨by decide, by decide, by decide, by decide, by decide,
        fun b _ hocc' => absurd hocc' (not_occupiedAt_allocate 8 b)⟩,
      rfl, by decide, by decide⟩
  | some inner =>
    have hInv : Inv hashT inner := hWF
    have hlen8 := hInv.len8
    have hload := hInv.load
    have hpow := hInv.pow2
    have hused := hInv.used_eq
    by_cases hgrow : inner.used_node_count * 5 > bucket_count_mask inner * 3
    · have hns : 2 * bucket_count_mask inner + 2 = 2 * inner.nodes.length := by
        rw [show bucket_count_mask inner = inner.nodes.length - 1 from rfl]
        omega
      have hpow2 : 2 * inner.nodes.length = 2 ^ Nat.log2 (2 * inner.nodes.length) :=
        pow2_double hpow (by omega)
      have hocclt : occCount inner.nodes < 2 * inner.nodes.length := by
        rw [← hused]
        omega
      obtain ⟨inner', heq, husedeq, hlen', hnd', hcont', hperm'⟩ :=
        @resize_spec hashT inner (2 * inner.nodes.length)
          hpow2 (by omega) hInv.keysNodup hocclt
      have hmask : bucket_count_mask inner = inner.nodes.length - 1 := rfl
      have hgrow' : inner.used_node_count * 5 > (inner.nodes.length - 1) * 3 := by
        rw [hmask] at hgrow
        exact hgrow
      have hcap29 : inner.nodes.length ≤ 2 ^ 28 := by
        have h27 : (2:Nat) ^ 27 = 134217728 := by norm_num
        have h28 : (2:Nat) ^ 28 = 268435456 := by norm_num
        rw [show size (some inner) = inner.used_node_count from rfl] at hna
        omega
      refine ⟨inner', ?_, ?_, ?_, ?_, ?_⟩
      · rw [try_grow, if_pos hgrow, hns]
        exact heq
      · refine ⟨by rw [hlen']; omega, ?_, ?_, ?_, hnd', hcont'⟩
        · obtain ⟨k, hk, hklen⟩ := hInv.pow2cap
          have hk28 : k ≤ 28 := by
            refine (Nat.pow_le_pow_iff_right Nat.one_lt_two).1 ?_
            rw [← hklen]
            exact hcap29
          refine ⟨k + 1, by omega, ?_⟩
          rw [hlen', hklen]
          ring
        · rw [husedeq, hused, occCount_eq_length_entries, occCount_eq_length_entries,
            hperm'.length_eq]
        · rw [husedeq, hlen']
          omega
      · rw [husedeq]; rfl
      · rw [husedeq, hlen']
        omega
      · exact hperm'
    · refine ⟨inner, by rw [try_grow, if_neg hgrow], hInv, rfl, ?_, List.Perm.refl _⟩
      rw [show bucket_count_mask inner = inner.nodes.length - 1 from rfl] at hgrow
      omega

/-! ### Semantics of `emplace` -/

theorem hasKV_iff_mem_entries {inner : Inner} {k v : Nat} (hk : k ≠ 0) :
    hasKV (some inner) k v ↔ (⟨k, v⟩ : Node) ∈ entries inner.nodes := by
  constructor
  · intro ⟨_, b, hb, hbkv⟩
    exact mem_entries_iff.2 ⟨⟨b, hb, hbkv⟩, hk⟩
  · intro hmem
    obtain ⟨⟨b, hb, hbkv⟩, _⟩ := mem_entries_iff.1 hmem
    exact ⟨hk, b, hb, hbkv⟩

theorem contains_key_iff_mem_keys {inner : Inner} {k : Nat} (hk : k ≠ 0) :
    contains_key (some inner) k ↔ k ∈ (entries inner.nodes).map Node.first := by
  constructor
  · intro ⟨_, b, hb, hbk⟩
    refine List.mem_map.2 ⟨inner.nodes.getD b emptyNode, ?_, hbk⟩
    exact mem_entries_iff.2 ⟨⟨b, hb, rfl⟩, by rw [hbk]; exact hk⟩
  · intro hmem
    obtain ⟨x, hx, hxk⟩ := List.mem_map.1 hmem
    obtain ⟨⟨b, hb, hbx⟩, _⟩ := mem_entries_iff.1 hx
    exact ⟨hk, b, hb, by rw [hbx, hxk]⟩

/-- The probe-path data of a present key: its bucket lies at some cyclic
offset `d` from its home, and every bucket before it on the path is
occupied by a different key. -/
theorem present_probe {hashT : Nat → Nat} {inner : Inner} (hInv : Inv hashT inner)
    {k b : Nat} (hk : k ≠ 0) (hb : b < inner.nodes.length)
    (hkey : (inner.nodes.getD b emptyNode).first = k) :
    ∃ d, d < inner.nodes.length ∧
      (calc_bucket hashT (inner.nodes.length - 1) k + d) % inner.nodes.length = b ∧
      ∀ j, j < d →
        (inner.nodes.getD ((calc_bucket hashT (inner.nodes.length - 1) k + j) %
          inner.nodes.length) emptyNode).first ≠ 0 ∧
        (inner.nodes.getD ((calc_bucket hashT (inner.nodes.length - 1) k + j) %
          inner.nodes.length) emptyNode).first ≠ k := by
  have hm : 0 < inner.nodes.length := by have := hInv.len8; omega
  have hocc : occupiedAt inner.nodes b := by rw [occupiedAt, hkey]; exact hk
  have hhlt : calc_bucket hashT (inner.nodes.length - 1) k < inner.nodes.length :=
    calc_bucket_lt _ _ hm
  have hhome : homeOf hashT inner.nodes b = calc_bucket hashT (inner.nodes.length - 1) k := by
    rw [homeOf, hkey]
  have hb_eq : (calc_bucket hashT (inner.nodes.length - 1) k +
      cdist inner.nodes.length (calc_bucket hashT (inner.nodes.length - 1) k) b) %
      inner.nodes.length = b := offset_cdist hhlt hb
  refine ⟨cdist inner.nodes.length (calc_bucket hashT (inner.nodes.length - 1) k) b,
    cdist_lt hm _ _, hb_eq, ?_⟩
  intro j hj
  have hq : occupiedAt inner.nodes
      ((calc_bucket hashT (inner.nodes.length - 1) k + j) % inner.nodes.length) := by
    have := contig_path hInv.contig hb hocc (j := j) (by rw [hhome]; exact hj)
    rw [hhome] at this
    exact this
  refine ⟨hq, ?_⟩
  have hqlt : (calc_bucket hashT (inner.nodes.length - 1) k + j) % inner.nodes.length <
      inner.nodes.length := Nat.mod_lt _ hm
  have hne : (calc_bucket hashT (inner.nodes.length - 1) k + j) % inner.nodes.length ≠ b := by
    intro he
    rw [← hb_eq] at he
    have := offset_inj hhlt (lt_trans hj (cdist_lt hm _ _)) (cdist_lt hm _ b) he
    omega
  have := keys_distinct hInv.keysNodup hqlt hb hne hq hocc
  rw [hkey] at this
  exact this

/-- `emplace` on a present key: no insertion, the table keeps its size and
entries (it may have grown), and the returned iterator points at the
existing entry with its old value. -/
theorem emplace_present {hashT : Nat → Nat} {t : FlatHashTable} {k v w : Nat}
    (hWF : WF hashT t) (hna : size t < 2 ^ 27) (hkv : hasKV t k w) :
    ∃ inner', (emplace hashT t k v).1 = some inner' ∧
      (emplace hashT t k v).2.2 = false ∧ Inv hashT inner' ∧
      inner'.used_node_count = size t ∧
      (entries inner'.nodes).Perm (entriesT t) ∧
      inner'.nodes.getD (emplace hashT t k v).2.1 emptyNode = ⟨k, w⟩ := by
  have hk : k ≠ 0 := by
    match t with
    | none => exact absurd hkv id
    | some inner => exact hkv.1
  obtain ⟨inner1, heq, hInv1, hused1, hslack, hperm1⟩ := try_grow_spec hWF hna
  have hmem1 : (⟨k, w⟩ : Node) ∈ entries inner1.nodes := by
    refine hperm1.mem_iff.2 ?_
    match t with
    | none => exact absurd hkv id
    | some inner => exact (hasKV_iff_mem_entries hk).1 hkv
  obtain ⟨⟨b1, hb1, hb1kv⟩, _⟩ := mem_entries_iff.1 hmem1
  have hb1k : (inner1.nodes.getD b1 emptyNode).first = k := by rw [hb1kv]
  obtain ⟨d, hd, hbeq, hcont⟩ := present_probe hInv1 hk hb1 hb1k
  have hloop : emplace_loop inner1 k v
      (calc_bucket hashT (bucket_count_mask inner1) k) inner1.nodes.length =
      (inner1, b1, false) := by
    rw [show bucket_count_mask inner1 = inner1.nodes.length - 1 from rfl]
    rw [emplace_loop_found hInv1.pow2 (calc_bucket_lt _ _ (by omega)) hd hcont
      (by rw [hbeq]; exact hb1k), hbeq]
  have hre : emplace hashT t k v = (some inner1, b1, false) := by
    unfold emplace
    rw [heq]
    show (some (emplace_loop inner1 k v
        (calc_bucket hashT (bucket_count_mask inner1) k) inner1.nodes.length).1,
      (emplace_loop inner1 k v (calc_bucket hashT (bucket_count_mask inner1) k)
        inner1.nodes.length).2.1,
      (emplace_loop inner1 k v (calc_bucket hashT (bucket_count_mask inner1) k)
        inner1.nodes.length).2.2) = (some inner1, b1, false)
    rw [hloop]
  rw [hre]
  exact ⟨inner1, rfl, rfl, hInv1, hused1, hperm1, hb1kv⟩

/-- `emplace` on an absent key inserts it: the size grows by one and the
new entry joins the previous entries. -/
theorem emplace_absent {hashT : Nat → Nat} {t : FlatHashTable} {k v : Nat}
    (hWF : WF hashT t) (hna : size t < 2 ^ 27) (hk : k ≠ 0)
    (hab : ¬contains_key t k) :
    ∃ inner', (emplace hashT t k v).1 = some inner' ∧
      (emplace hashT t k v).2.2 = true ∧ Inv hashT inner' ∧
      inner'.used_node_count = size t + 1 ∧
      (entries inner'.nodes).Perm ((⟨k, v⟩ : Node) :: entriesT t) := by
  obtain ⟨inner1, heq, hInv1, hused1, hslack, hperm1⟩ := try_grow_spec hWF hna
  have habs1 : ∀ b, b < inner1.nodes.length →
      (inner1.nodes.getD b emptyNode).first ≠ k := by
    intro b hb hbk
    have hmem : inner1.nodes.getD b emptyNode ∈ entries inner1.nodes :=
      mem_entries_iff.2 ⟨⟨b, hb, rfl⟩, by rw [hbk]; exact hk⟩
    have hmemT : inner1.nodes.getD b emptyNode ∈ entriesT t := hperm1.subset hmem
    match t with
    | none => exact absurd hmemT (List.not_mem_nil _)
    | some inner =>
      exact hab ((contains_key_iff_mem_keys hk).2
        (by rw [← hbk]; exact List.mem_map_of_mem _ hmemT))
  have hm1 : 0 < inner1.nodes.length := by have := hInv1.len8; omega
  have hocc1 : occCount inner1.nodes < inner1.nodes.length := by
    have h1 := hInv1.used_eq
    have h2 := hInv1.len8
    omega
  have hhlt : calc_bucket hashT (inner1.nodes.length - 1) k < inner1.nodes.length :=
    calc_bucket_lt _ _ hm1
  obtain ⟨d, hd, hemp, hpath⟩ := exists_first_empty hhlt
    (exists_empty_of_occCount_lt hocc1)
  have hcont : ∀ j, j < d →
      (inner1.nodes.getD ((calc_bucket hashT (inner1.nodes.length - 1) k + j) %
        inner1.nodes.length) emptyNode).first ≠ 0 ∧
      (inner1.nodes.getD ((calc_bucket hashT (inner1.nodes.length - 1) k + j) %
        inner1.nodes.length) emptyNode).first ≠ k := by
    intro j hj
    exact ⟨hpath j hj, habs1 _ (Nat.mod_lt _ hm1)⟩
  have hhit : (inner1.nodes.getD ((calc_bucket hashT (inner1.nodes.length - 1) k + d) %
      inner1.nodes.length) emptyNode).first = 0 := not_not.1 hemp
  have hloop : emplace_loop inner1 k v
      (calc_bucket hashT (bucket_count_mask inner1) k) inner1.nodes.length =
      (⟨inner1.used_node_count + 1,
        inner1.nodes.set ((calc_bucket hashT (inner1.nodes.length - 1) k + d) %
          inner1.nodes.length) ⟨k, v⟩⟩,
        (calc_bucket hashT (inner1.nodes.length - 1) k + d) % inner1.nodes.length,
        true) := by
    rw [show bucket_count_mask inner1 = inner1.nodes.length - 1 from rfl]
    exact emplace_loop_inserts hInv1.pow2 hk hhlt hd hcont hhit
  obtain ⟨hlen', hnd', hcont', hperm'⟩ := insert_preserves (v := v)
    hInv1.pow2 hm1 hInv1.keysNodup hInv1.contig hk habs1 hd hpath hemp
  have hre : emplace hashT t k v = (some ⟨inner1.used_node_count + 1,
      inner1.nodes.set ((calc_bucket hashT (inner1.nodes.length - 1) k + d) %
        inner1.nodes.length) ⟨k, v⟩⟩,
      (calc_bucket hashT (inner1.nodes.length - 1) k + d) % inner1.nodes.length,
      true) := by
    unfold emplace
    rw [heq]
    show (some (emplace_loop inner1 k v
        (calc_bucket hashT (bucket_count_mask inner1) k) inner1.nodes.length).1,
      (emplace_loop inner1 k v (calc_bucket hashT (bucket_count_mask inner1) k)
        inner1.nodes.length).2.1,
      (emplace_loop inner1 k v (calc_bucket hashT (bucket_count_mask inner1) k)
        inner1.nodes.length).2.2) = _
    rw [hloop]
  rw [hre]
  refine ⟨_, rfl, rfl, ?_, ?_, ?_⟩
  · refine ⟨?_, ?_, ?_, ?_, hnd', hcont'⟩
    · show 8 ≤ (inner1.nodes.set _ _).length
      rw [List.length_set]
      exact hInv1.len8
    · show IsPow2Cap (inner1.nodes.set _ _).length
      rw [List.length_set]
      exact hInv1.pow2cap
    · show inner1.used_node_count + 1 = occCount (inner1.nodes.set _ _)
      rw [occCount_eq_length_entries, hperm'.length_eq, List.length_cons,
        ← occCount_eq_length_entries, ← hInv1.used_eq]
    · show (inner1.used_node_count + 1) * 5 ≤ ((inner1.nodes.set _ _).length - 1) * 3 + 5
      rw [List.length_set]
      omega
  · show inner1.used_node_count + 1 = size t + 1
    omega
  · exact hperm'.trans (List.Perm.cons _ hperm1)

/-! ### The value returned by `find` -/

theorem find_value_eq {hashT : Nat → Nat} {inner : Inner} {k : Nat} :
    find_value hashT (some inner) k =
      (find hashT (some inner) k).map fun b => (inner.nodes.getD b emptyNode).second := by
  unfold find_value find_entry
  cases find hashT (some inner) k <;> rfl

theorem find_value_some_iff {hashT : Nat → Nat} {inner : Inner} {k v : Nat}
    (hInv : Inv hashT inner) (hk : k ≠ 0) :
    find_value hashT (some inner) k = some v ↔ hasKV (some inner) k v := by
  rw [find_value_eq]
  constructor
  · intro h
    obtain ⟨b, hb, hbv⟩ := Option.map_eq_some'.1 h
    obtain ⟨hblt, hbk⟩ := (find_eq_some_iff hInv hk).1 hb
    refine ⟨hk, b, hblt, ?_⟩
    have : inner.nodes.getD b emptyNode =
        ⟨(inner.nodes.getD b emptyNode).first, (inner.nodes.getD b emptyNode).second⟩ :=
      rfl
    rw [this, hbk, hbv]
  · intro ⟨_, b, hb, hbkv⟩
    rw [find_some_of_haskey hInv hk hb (by rw [hbkv])]
    rw [Option.map_some', hbkv]

theorem find_value_none_iff {hashT : Nat → Nat} {inner : Inner} {k : Nat}
    (hInv : Inv hashT inner) (hk : k ≠ 0) :
    find_value hashT (some inner) k = none ↔ ¬contains_key (some inner) k := by
  rw [find_value_eq]
  rw [Option.map_eq_none']
  rw [find_eq_none_iff hInv hk]
  constructor
  · intro habs ⟨_, b, hb, hbk⟩
    exact habs b hb hbk
  · intro hnc b hb hbk
    exact hnc ⟨hk, b, hb, hbk⟩

/-- At most one value is stored under each key. -/
theorem hasKV_unique {hashT : Nat → Nat} {inner : Inner} {k v v' : Nat}
    (hInv : Inv hashT inner) (h1 : hasKV (some inner) k v)
    (h2 : hasKV (some inner) k v') : v = v' := by
  obtain ⟨hk, b, hb, hbkv⟩ := h1
  obtain ⟨_, b', hb', hbkv'⟩ := h2
  by_cases hbb : b = b'
  · rw [hbb, hbkv'] at hbkv
    exact (congrArg Node.second hbkv).symm
  · have := keys_distinct hInv.keysNodup hb hb' hbb
      (by rw [occupiedAt, hbkv]; exact hk) (by rw [occupiedAt, hbkv']; exact hk)
    rw [hbkv, hbkv'] at this
    exact absurd rfl this

/-! ### Stepping the backward-shift loop -/







theorem erase_loop_break {hashT : Nat → Nat} {nodes : List Node}
    {empty_i empty_bucket test_i f : Nat}
    (htb : ¬occupiedAt nodes (eb_test_bucket nodes.length test_i)) :
    erase_loop hashT nodes empty_i empty_bucket test_i (f + 1) = nodes := by
  rw [erase_loop]
  exact if_cond_true (isEmpty_true_of (not_not.1 htb)) _ _

theorem erase_loop_move {hashT : Nat → Nat} {nodes : List Node}
    {empty_i empty_bucket test_i f : Nat}
    (htb : occupiedAt nodes (eb_test_bucket nodes.length test_i))
    (hcond : eb_want hashT nodes empty_i test_i ≤ empty_i ∨
      eb_want hashT nodes empty_i test_i > test_i) :
    erase_loop hashT nodes empty_i empty_bucket test_i (f + 1) =
      erase_loop hashT (eb_moved nodes empty_bucket (eb_test_bucket nodes.length test_i))
        test_i (eb_test_bucket nodes.length test_i) (test_i + 1) f := by
  rw [erase_loop]
  show (if (nodes.getD (eb_test_bucket nodes.length test_i) emptyNode).isEmpty = true
      then nodes
      else if eb_want hashT nodes empty_i test_i ≤ empty_i ∨
          eb_want hashT nodes empty_i test_i > test_i
        then erase_loop hashT
          (eb_moved nodes empty_bucket (eb_test_bucket nodes.length test_i))
          test_i (eb_test_bucket nodes.length test_i) (test_i + 1) f
        else erase_loop hashT nodes empty_i empty_bucket (test_i + 1) f) = _
  rw [if_cond_false (isEmpty_false_of htb), if_pos hcond]

theorem erase_loop_stay {hashT : Nat → Nat} {nodes : List Node}
    {empty_i empty_bucket test_i f : Nat}
    (htb : occupiedAt nodes (eb_test_bucket nodes.length test_i))
    (hcond : ¬(eb_want hashT nodes empty_i test_i ≤ empty_i ∨
      eb_want hashT nodes empty_i test_i > test_i)) :
    erase_loop hashT nodes empty_i empty_bucket test_i (f + 1) =
      erase_loop hashT nodes empty_i empty_bucket (test_i + 1) f := by
  rw [erase_loop]
  show (if (nodes.getD (eb_test_bucket nodes.length test_i) emptyNode).isEmpty = true
      then nodes
      else if eb_want hashT nodes empty_i test_i ≤ empty_i ∨
          eb_want hashT nodes empty_i test_i > test_i
        then erase_loop hashT
          (eb_moved nodes empty_bucket (eb_test_bucket nodes.length test_i))
          test_i (eb_test_bucket nodes.length test_i) (test_i + 1) f
        else erase_loop hashT nodes empty_i empty_bucket (test_i + 1) f) = _
  rw [if_cond_false (isEmpty_false_of htb), if_neg hcond]

theorem eb_moved_length {nodes : List Node} {e t : Nat} :
    (eb_moved nodes e t).length = nodes.length := by
  rw [eb_moved, List.length_set, List.length_set]

/-- The backward-shift loop never changes the bucket count. -/
theorem erase_loop_length {hashT : Nat → Nat} :
    ∀ fuel nodes empty_i empty_bucket test_i,
      (erase_loop hashT nodes empty_i empty_bucket test_i fuel).length = nodes.length := by
  intro fuel
  induction fuel with
  | zero => intro nodes _ _ _; rfl
  | succ f ih =>
    intro nodes empty_i empty_bucket test_i
    by_cases htb : occupiedAt nodes (eb_test_bucket nodes.length test_i)
    · by_cases hcond : eb_want hashT nodes empty_i test_i ≤ empty_i ∨
        eb_want hashT nodes empty_i test_i > test_i
      · rw [erase_loop_move htb hcond, ih, eb_moved_length]
      · rw [erase_loop_stay htb hcond, ih]
    · rw [erase_loop_break htb]

theorem erase_node_length {hashT : Nat → Nat} {inner : Inner} {i : Nat} :
    (erase_node hashT inner i).nodes.length = inner.nodes.length := by
  rw [erase_node]
  show (erase_loop hashT (inner.nodes.set i emptyNode) i i (i + 1)
    inner.nodes.length).length = _
  rw [erase_loop_length, List.length_set]

theorem erase_node_used {hashT : Nat → Nat} {inner : Inner} {i : Nat} :
    (erase_node hashT inner i).used_node_count = inner.used_node_count - 1 := rfl

/-- The rehash fold never changes the region size it builds. -/
theorem resize_insert_loop_length {nodes : List Node} {x : Node} :
    ∀ fuel bucket, (resize_insert_loop nodes x bucket fuel).length = nodes.length := by
  intro fuel
  induction fuel with
  | zero => intro bucket; rfl
  | succ f ih =>
    intro bucket
    rw [resize_insert_loop]
    by_cases h : (nodes.getD bucket emptyNode).isEmpty = true
    · rw [if_cond_true h, List.length_set]
    · rw [if_cond_false (Bool.eq_false_iff.2 h)]
      exact ih _

theorem resize_length {hashT : Nat → Nat} {inner : Inner} {ns : Nat} :
    ∃ inner', resize hashT (some inner) ns = some inner' ∧
      inner'.used_node_count = inner.used_node_count ∧ inner'.nodes.length = ns := by
  refine ⟨⟨inner.used_node_count, _⟩, rfl, rfl, ?_⟩
  show (inner.nodes.foldl _ (allocate_nodes ns)).length = ns
  have : ∀ (l : List Node) (acc : List Node), acc.length = ns →
      (l.foldl (fun acc old_node =>
        if old_node.isEmpty then acc
        else resize_insert_loop acc old_node
          (calc_bucket hashT (ns - 1) old_node.first) ns) acc).length = ns := by
    intro l
    induction l with
    | nil => intro acc h; exact h
    | cons x l' ih =>
      intro acc h
      rw [List.foldl_cons]
      by_cases hx : x.isEmpty = true
      · rw [if_cond_true hx]
        exact ih _ h
      · rw [if_cond_false (Bool.eq_false_iff.2 hx)]
        exact ih _ (by rw [resize_insert_loop_length]; exact h)
  exact this inner.nodes (allocate_nodes ns) (List.length_replicate _ _)

/-! ### Arithmetic of `normalize` -/

theorem bitLen_zero : ∀ f, bitLen f 0 = 0 := by
  intro f
  cases f with
  | zero => rfl
  | succ f => rw [bitLen, if_pos rfl]

theorem bitLen_eq_log2 : ∀ f x, 0 < x → x < 2 ^ f → bitLen f x = Nat.log2 x + 1 := by
  intro f
  induction f with
  | zero =>
    intro x h1 h2
    simp only [pow_zero] at h2
    omega
  | succ f ih =>
    intro x h1 h2
    rw [bitLen, if_neg (by omega)]
    by_cases hx2 : x ≥ 2
    · have hx2' : 0 < x / 2 := by omega
      have hlt : x / 2 < 2 ^ f := by
        have hp : (2:Nat) ^ (f + 1) = 2 ^ f * 2 := by ring
        rw [hp] at h2
        omega
      rw [ih (x / 2) hx2' hlt]
      conv_rhs => rw [Nat.log2]
      rw [if_pos hx2]
    · have hx1 : x = 1 := by omega
      subst hx1
      rw [show (1:Nat) / 2 = 0 from rfl, bitLen_zero]
      conv_rhs => rw [Nat.log2]
      rw [if_neg hx2]

theorem count_leading_zeroes32_spec {x : Nat} (h1 : 0 < x) (h2 : x < 2 ^ 32) :
    count_leading_zeroes32 x = 32 - (Nat.log2 x + 1) := by
  rw [count_leading_zeroes32, bitLen_eq_log2 32 x h1 h2]

theorem lt_pow_log2_succ {n : Nat} (h : 0 < n) : n < 2 ^ (Nat.log2 n + 1) :=
  (Nat.log2_lt (by omega)).1 (Nat.lt_succ_self _)

theorem normalize_pos_eq {n : Nat} (h1 : 0 < n) (h2 : n < 2 ^ 31) :
    normalize n = max (2 ^ (Nat.log2 n + 1)) 8 := by
  have h32 : n < 2 ^ 32 := by
    have ha : (2:Nat) ^ 31 = 2147483648 := by norm_num
    have hb : (2:Nat) ^ 32 = 4294967296 := by norm_num
    omega
  have hlog : Nat.log2 n < 32 := (Nat.log2_lt (by omega)).2 h32
  rw [normalize, count_leading_zeroes32_spec h1 h32]
  rw [show 32 - (32 - (Nat.log2 n + 1)) = Nat.log2 n + 1 by omega]
  rw [Nat.shiftLeft_eq, one_mul]

/-- `normalize` returns the least power of two strictly greater than its
argument, clamped to a minimum of 8. -/
theorem normalize_spec {n : Nat} (h1 : 0 < n) (h2 : n < 2 ^ 31) :
    (∃ k, normalize n = 2 ^ k) ∧ 8 ≤ normalize n ∧ n < normalize n ∧
      ∀ p, (∃ j, p = 2 ^ j) → 8 ≤ p → n < p → normalize n ≤ p := by
  rw [normalize_pos_eq h1 h2]
  refine ⟨?_, le_max_right _ _, ?_, ?_⟩
  · by_cases h : 2 ^ (Nat.log2 n + 1) ≤ 8
    · rw [max_eq_right h]
      exact ⟨3, by norm_num⟩
    · rw [max_eq_left (by omega)]
      exact ⟨Nat.log2 n + 1, rfl⟩
  · exact lt_of_lt_of_le (lt_pow_log2_succ h1) (le_max_left _ _)
  · intro p ⟨j, hj⟩ hp8 hnp
    refine max_le ?_ hp8
    rw [hj]
    refine Nat.pow_le_pow_right (by norm_num) ?_
    have : Nat.log2 n < j := (Nat.log2_lt (by omega)).2 (by rw [← hj]; exact hnp)
    omega

/-! ### Claim theorems: C3, C8, C9 -/

/-- C3, counterexample: the claim states `normalize(p) = p` for every
power of two `p ≥ 8`, but `normalize 8 = 16 ≠ 8`: the helper returns the
smallest power of two strictly greater than its argument. -/
theorem claim_C3_counterexample : normalize 8 = 16 ∧ normalize 8 ≠ 8 := by decide

/-- C3 (amended): for every `n` (`0 < n < 2^31`; beyond, 32-bit `clz` does
not apply), `normalize n` is the smallest power of two strictly greater
than `n`, clamped to a minimum of 8; and `normalize 0 = 8`. -/
theorem claim_C3_amended :
    normalize 0 = 8 ∧
    ∀ n, 0 < n → n < 2 ^ 31 →
      (∃ k, normalize n = 2 ^ k) ∧ 8 ≤ normalize n ∧ n < normalize n ∧
      ∀ p, (∃ j, p = 2 ^ j) → 8 ≤ p → n < p → normalize n ≤ p :=
  ⟨by decide, fun n h1 h2 => normalize_spec h1 h2⟩

/-- C3, witness: the amended statement applied at `n = 9` gives
`normalize 9 = 16`, the least admissible power of two above 9. -/
theorem claim_C3_witness :
    normalize 9 = 16 ∧ 8 ≤ normalize 9 ∧ 9 < normalize 9 ∧ normalize 9 ≤ 2 ^ 4 :=
  ⟨by decide, (claim_C3_amended.2 9 (by decide) (by norm_num)).2.1,
    (claim_C3_amended.2 9 (by decide) (by norm_num)).2.2.1,
    (claim_C3_amended.2 9 (by decide) (by norm_num)).2.2.2 (2 ^ 4) ⟨4, rfl⟩
      (by norm_num) (by norm_num)⟩

/-- C8: after move construction or move assignment from `t`, the
moved-from table is in the null state: `size() = 0` and
`bucket_count() = 0`, while the constructed/assigned table took `t`'s
buckets. -/
theorem claim_C8_move_emptiness :
    ∀ t dest : FlatHashTable,
      (move_construct t).2 = none ∧
      size (move_construct t).2 = 0 ∧ bucket_count (move_construct t).2 = 0 ∧
      (move_assign dest t).2 = none ∧
      size (move_assign dest t).2 = 0 ∧ bucket_count (move_assign dest t).2 = 0 ∧
      (move_construct t).1 = t ∧ (move_assign dest t).1 = t :=
  fun _ _ => ⟨rfl, rfl, rfl, rfl, rfl, rfl, rfl, rfl⟩

theorem find_eq_none_of_not_contains {hashT : Nat → Nat} {t : FlatHashTable} {k : Nat}
    (hnc : ¬contains_key t k) : find hashT t k = none := by
  match t with
  | none => rfl
  | some inner =>
    by_cases hk : k = 0
    · show (if is_key_empty k = true then none
        else find_loop inner.nodes k (calc_bucket hashT (bucket_count_mask inner) k)
          inner.nodes.length) = none
      rw [hk]
      exact if_cond_true rfl _ _
    · show (if is_key_empty k = true then none
        else find_loop inner.nodes k (calc_bucket hashT (bucket_count_mask inner) k)
          inner.nodes.length) = none
      rw [if_cond_false (is_key_empty_false hk)]
      refine find_loop_none_of_absent (fun b => ?_) _ _
      by_cases hb : b < inner.nodes.length
      · exact fun hbk => hnc ⟨hk, b, hb, hbk⟩
      · rw [getD_out_of_range (by omega)]
        exact fun h => hk h.symm

/-- C9: erasing a key that is in no bucket (including the sentinel key
and the null table) returns 0 and leaves the table object unchanged — in
particular `size`, `bucket_count` and every `find` are unchanged, and no
shrink is attempted. -/
theorem claim_C9_erase_absent (hashT : Nat → Nat) (t : FlatHashTable) (k : Nat)
    (hnc : ¬contains_key t k) :
    erase hashT t k = (0, t) ∧
    size (erase hashT t k).2 = size t ∧
    bucket_count (erase hashT t k).2 = bucket_count t ∧
    ∀ k', find hashT (erase hashT t k).2 k' = find hashT t k' := by
  have h : erase hashT t k = (0, t) := by
    unfold erase
    rw [find_eq_none_of_not_contains hnc]
  exact ⟨h, by rw [h], by rw [h], fun k' => by rw [h]⟩

/-! ### The load bound after each mutation (C2) -/

theorem normalize_ge8 (x : Nat) : 8 ≤ normalize x := le_max_right _ _

theorem emplace_loop_succ_found {inner : Inner} {k v bucket f : Nat}
    (h : (inner.nodes.getD bucket emptyNode).first = k) :
    emplace_loop inner k v bucket (f + 1) = (inner, bucket, false) := by
  rw [emplace_loop]
  exact if_cond_true (beq_iff_eq.2 h) _ _

theorem emplace_loop_succ_empty {inner : Inner} {k v bucket f : Nat}
    (hne : (inner.nodes.getD bucket emptyNode).first ≠ k)
    (he : (inner.nodes.getD bucket emptyNode).first = 0) :
    emplace_loop inner k v bucket (f + 1) =
      (⟨inner.used_node_count + 1, inner.nodes.set bucket ⟨k, v⟩⟩, bucket, true) := by
  rw [emplace_loop]
  show (if ((inner.nodes.getD bucket emptyNode).first == k) = true
      then (inner, bucket, false)
      else if (inner.nodes.getD bucket emptyNode).isEmpty = true
        then (⟨inner.used_node_count + 1, inner.nodes.set bucket ⟨k, v⟩⟩, bucket, true)
        else emplace_loop inner k v (next_bucket (bucket_count_mask inner) bucket) f) = _
  rw [if_cond_false (beq_eq_false_iff_ne.2 hne), if_cond_true (isEmpty_true_of he)]

theorem emplace_loop_succ_cont {inner : Inner} {k v bucket f : Nat}
    (hne : (inner.nodes.getD bucket emptyNode).first ≠ k)
    (ho : (inner.nodes.getD bucket emptyNode).first ≠ 0) :
    emplace_loop inner k v bucket (f + 1) =
      emplace_loop inner k v (next_bucket (bucket_count_mask inner) bucket) f := by
  rw [emplace_loop]
  show (if ((inner.nodes.getD bucket emptyNode).first == k) = true
      then (inner, bucket, false)
      else if (inner.nodes.getD bucket emptyNode).isEmpty = true
        then (⟨inner.used_node_count + 1, inner.nodes.set bucket ⟨k, v⟩⟩, bucket, true)
        else emplace_loop inner k v (next_bucket (bucket_count_mask inner) bucket) f) = _
  rw [if_cond_false (beq_eq_false_iff_ne.2 hne), if_cond_false (isEmpty_false_of ho)]

/-- The emplace probe grows the used count by at most one and never
changes the bucket count. -/
theorem emplace_loop_le {inner : Inner} {k v : Nat} :
    ∀ fuel bucket,
      (emplace_loop inner k v bucket fuel).1.used_node_count ≤
        inner.used_node_count + 1 ∧
      (emplace_loop inner k v bucket fuel).1.nodes.length = inner.nodes.length := by
  intro fuel
  induction fuel with
  | zero => intro bucket; exact ⟨Nat.le_succ _, rfl⟩
  | succ f ih =>
    intro bucket
    by_cases h1 : (inner.nodes.getD bucket emptyNode).first = k
    · rw [emplace_loop_succ_found h1]
      exact ⟨Nat.le_succ _, rfl⟩
    · by_cases h2 : (inner.nodes.getD bucket emptyNode).first = 0
      · rw [emplace_loop_succ_empty h1 h2]
        exact ⟨le_refl _, List.length_set _ _ _⟩
      · rw [emplace_loop_succ_cont h1 h2]
        exact ih _

/-- `try_shrink` re-establishes the load bound. -/
theorem try_shrink_LoadOk {hashT : Nat → Nat} {inner : Inner}
    (h : LoadOk (some inner)) : LoadOk (try_shrink hashT inner) := by
  obtain ⟨hlen8, hcap, _⟩ := h
  rw [try_shrink]
  by_cases hcond : inner.used_node_count * 10 < bucket_count_mask inner ∧
      bucket_count_mask inner > 7
  · rw [if_pos hcond]
    obtain ⟨innerR, heq, husedR, hlenR⟩ := @resize_length hashT inner
      (normalize ((inner.used_node_count + 1) * 5 / 3 + 1))
    rw [heq]
    have hmask : bucket_count_mask inner = inner.nodes.length - 1 := rfl
    rw [hmask] at hcond
    have hused : inner.used_node_count < 2 ^ 26 := by
      have h29 : (2:Nat) ^ 29 = 536870912 := by norm_num
      have h26 : (2:Nat) ^ 26 = 67108864 := by norm_num
      omega
    have harg1 : 0 < (inner.used_node_count + 1) * 5 / 3 + 1 := by omega
    have harg2 : (inner.used_node_count + 1) * 5 / 3 + 1 < 2 ^ 31 := by
      have h26 : (2:Nat) ^ 26 = 67108864 := by norm_num
      have h31 : (2:Nat) ^ 31 = 2147483648 := by norm_num
      omega
    obtain ⟨_, hge8, hgt, hmin⟩ := normalize_spec harg1 harg2
    have hle27 : normalize ((inner.used_node_count + 1) * 5 / 3 + 1) ≤ 2 ^ 27 := by
      refine hmin (2 ^ 27) ⟨27, rfl⟩ (by norm_num) ?_
      have h26 : (2:Nat) ^ 26 = 67108864 := by norm_num
      have h27 : (2:Nat) ^ 27 = 134217728 := by norm_num
      omega
    refine ⟨by rw [hlenR]; exact hge8, ?_, ?_⟩
    · rw [hlenR]
      have h27 : (2:Nat) ^ 27 = 134217728 := by norm_num
      have h29 : (2:Nat) ^ 29 = 536870912 := by norm_num
      omega
    · rw [husedR, hlenR]
      omega
  · rw [if_neg hcond]
    exact ⟨hlen8, hcap, by omega⟩

/-- The scan phases of `remove_if` only decrease the used count and never
change the bucket count. -/
theorem rif_phase_le {hashT : Nat → Nat} {f : Node → Bool} :
    ∀ fuel inner it stop,
      (rif_phase hashT f inner it stop fuel).used_node_count ≤
        inner.used_node_count ∧
      (rif_phase hashT f inner it stop fuel).nodes.length = inner.nodes.length := by
  intro fuel
  induction fuel with
  | zero => intro inner _ _; exact ⟨le_refl _, rfl⟩
  | succ fl ih =>
    intro inner it stop
    rw [rif_phase]
    by_cases h1 : it = stop
    · rw [if_pos h1]
      exact ⟨le_refl _, rfl⟩
    · rw [if_neg h1]
      by_cases h2 : ¬(inner.nodes.getD it emptyNode).isEmpty = true ∧
          f (inner.nodes.getD it emptyNode) = true
      · rw [if_pos h2]
        obtain ⟨ha, hb⟩ := ih (erase_node hashT inner it) it stop
        refine ⟨le_trans ha ?_, ?_⟩
        · rw [erase_node_used]
          omega
        · rw [hb, erase_node_length]
      · rw [if_neg h2]
        exact ih inner (it + 1) stop

theorem LoadOk_emplace {hashT : Nat → Nat} {t : FlatHashTable} {k v : Nat}
    (h : LoadOk t) (hna : size t < 2 ^ 27) : LoadOk (emplace hashT t k v).1 := by
  have hgrow : ∃ inner1, try_grow hashT t = some inner1 ∧
      8 ≤ inner1.nodes.length ∧ inner1.nodes.length ≤ 2 ^ 29 ∧
      inner1.used_node_count * 5 ≤ (inner1.nodes.length - 1) * 3 := by
    match t with
    | none => exact ⟨⟨0, allocate_nodes 8⟩, rfl, by decide, by decide, by decide⟩
    | some inner =>
      obtain ⟨hlen8, hcap, hload⟩ := h
      by_cases hg : inner.used_node_count * 5 > bucket_count_mask inner * 3
      · have hmask : bucket_count_mask inner = inner.nodes.length - 1 := rfl
        rw [hmask] at hg
        obtain ⟨innerR, heq, husedR, hlenR⟩ := @resize_length hashT
          inner (2 * bucket_count_mask inner + 2)
        refine ⟨innerR, by rw [try_grow, if_pos (by rw [hmask]; exact hg)]; exact heq,
          ?_, ?_, ?_⟩
        · rw [hlenR, hmask]; omega
        · rw [hlenR, hmask]
          rw [show size (some inner) = inner.used_node_count from rfl] at hna
          have h27 : (2:Nat) ^ 27 = 134217728 := by norm_num
          have h29 : (2:Nat) ^ 29 = 536870912 := by norm_num
          omega
        · rw [husedR, hlenR, hmask]
          omega
      · exact ⟨inner, by rw [try_grow, if_neg hg], hlen8, hcap, by
          rw [show bucket_count_mask inner = inner.nodes.length - 1 from rfl] at hg
          omega⟩
  obtain ⟨inner1, heq, h8, hcap, hslack⟩ := hgrow
  unfold emplace
  rw [heq]
  show LoadOk (some (emplace_loop inner1 k v
    (calc_bucket hashT (bucket_count_mask inner1) k) inner1.nodes.length).1)
  obtain ⟨hle, hlen⟩ := @emplace_loop_le inner1 k v
    inner1.nodes.length (calc_bucket hashT (bucket_count_mask inner1) k)
  exact ⟨by rw [hlen]; exact h8, by rw [hlen]; exact hcap, by rw [hlen]; omega⟩

theorem LoadOk_erase_iter {hashT : Nat → Nat} {t : FlatHashTable} {b : Nat}
    (h : LoadOk t) : LoadOk (erase_iter hashT t b) := by
  match t with
  | none => exact trivial
  | some inner =>
    obtain ⟨hlen8, hcap, hload⟩ := h
    show LoadOk (try_shrink hashT (erase_node hashT inner b))
    refine try_shrink_LoadOk ⟨?_, ?_, ?_⟩
    · rw [erase_node_length]; exact hlen8
    · rw [erase_node_length]; exact hcap
    · rw [erase_node_used, erase_node_length]
      omega

theorem LoadOk_erase {hashT : Nat → Nat} {t : FlatHashTable} {k : Nat}
    (h : LoadOk t) : LoadOk (erase hashT t k).2 := by
  unfold erase
  cases hf : find hashT t k with
  | none => exact h
  | some b => exact LoadOk_erase_iter h

theorem LoadOk_phases_shrink {hashT : Nat → Nat} {f : Node → Bool} {inner : Inner}
    (h8 : 8 ≤ inner.nodes.length) (hcap : inner.nodes.length ≤ 2 ^ 29)
    (hload : inner.used_node_count * 5 ≤ (inner.nodes.length - 1) * 3 + 5)
    (it1 stop1 fuel1 it2 stop2 fuel2 : Nat) :
    LoadOk (try_shrink hashT (rif_phase hashT f
      (rif_phase hashT f inner it1 stop1 fuel1) it2 stop2 fuel2)) := by
  obtain ⟨ha1, hb1⟩ := @rif_phase_le hashT f fuel1 inner it1 stop1
  obtain ⟨ha2, hb2⟩ := @rif_phase_le hashT f fuel2
    (rif_phase hashT f inner it1 stop1 fuel1) it2 stop2
  refine try_shrink_LoadOk ⟨?_, ?_, ?_⟩
  · rw [hb2, hb1]
    exact h8
  · rw [hb2, hb1]
    exact hcap
  · rw [hb2, hb1]
    have := le_trans ha2 ha1
    omega

theorem LoadOk_remove_if {hashT : Nat → Nat} {f : Node → Bool} {t : FlatHashTable}
    {r : Nat} (h : LoadOk t) : LoadOk (remove_if hashT f t r) := by
  match t with
  | none => exact trivial
  | some inner =>
    obtain ⟨hlen8, hcap, hload⟩ := h
    rw [remove_if]
    by_cases hemp : inner.used_node_count = 0
    · rw [if_pos hemp]
      exact ⟨hlen8, hcap, hload⟩
    · rw [if_neg hemp]
      exact LoadOk_phases_shrink hlen8 hcap hload _ _ _ _ _ _

theorem LoadOk_clear (t : FlatHashTable) : LoadOk (clear t) := trivial

/-- C2, counterexample: inserting keys 1..5 (integer hash, with the
mandatory mixer) into an empty map leaves `bucket_count() = 8` — the
claimed 8→16 transition does not happen at the 5th insert — and the
claimed bound `used_count * 5 ≤ bucket_mask * 3` fails: `25 > 21`. -/
theorem claim_C2_counterexample :
    bucket_count ([1, 2, 3, 4, 5].foldl
      (fun t k => (emplace randomize_hash t k k).1) (none : FlatHashTable)) = 8 ∧
    size ([1, 2, 3, 4, 5].foldl
      (fun t k => (emplace randomize_hash t k k).1) (none : FlatHashTable)) * 5 >
      (bucket_count ([1, 2, 3, 4, 5].foldl
        (fun t k => (emplace randomize_hash t k k).1) (none : FlatHashTable)) - 1) * 3 := by
  decide

/-- C2 (amended): after every completed mutation (emplace — growth is
checked before the insertion, erase by key or iterator, remove_if, clear,
and the resizes they trigger), the table is null or
`used_count * 5 ≤ bucket_mask * 3 + 5`; and inserting keys 1..6 into an
empty map makes `bucket_count()` transition from 8 to 16 at the 6th
insert (not the 5th), with `size() = 6` and all entries findable.  The
`size t < 2^27` hypothesis on emplace keeps the doubled region within the
2^29 allocation cap, beyond which the C++ process aborts. -/
theorem claim_C2_amended :
    (∀ (hashT : Nat → Nat) (t : FlatHashTable) (k v : Nat),
      LoadOk t → size t < 2 ^ 27 → LoadOk (emplace hashT t k v).1) ∧
    (∀ (hashT : Nat → Nat) (t : FlatHashTable) (k : Nat),
      LoadOk t → LoadOk (erase hashT t k).2) ∧
    (∀ (hashT : Nat → Nat) (t : FlatHashTable) (b : Nat),
      LoadOk t → LoadOk (erase_iter hashT t b)) ∧
    (∀ (hashT : Nat → Nat) (f : Node → Bool) (t : FlatHashTable) (r : Nat),
      LoadOk t → LoadOk (remove_if hashT f t r)) ∧
    (∀ t : FlatHashTable, LoadOk (clear t)) ∧
    bucket_count ([1, 2, 3, 4, 5].foldl
      (fun t k => (emplace randomize_hash t k k).1) (none : FlatHashTable)) = 8 ∧
    bucket_count ([1, 2, 3, 4, 5, 6].foldl
      (fun t k => (emplace randomize_hash t k k).1) (none : FlatHashTable)) = 16 ∧
    size ([1, 2, 3, 4, 5, 6].foldl
      (fun t k => (emplace randomize_hash t k k).1) (none : FlatHashTable)) = 6 ∧
    ∀ k, k ∈ [1, 2, 3, 4, 5, 6] →
      find_value randomize_hash ([1, 2, 3, 4, 5, 6].foldl
        (fun t k => (emplace randomize_hash t k k).1) (none : FlatHashTable)) k = some k :=
  ⟨fun _ _ _ _ => LoadOk_emplace, fun _ _ _ => LoadOk_erase,
    fun _ _ _ => LoadOk_erase_iter, fun _ _ _ _ => LoadOk_remove_if, LoadOk_clear,
    by decide, by decide, by decide, by decide⟩

/-- C2, witness: the emplace and erase preservation clauses applied to a
concrete one-entry 8-bucket table. -/
theorem claim_C2_witness :
    LoadOk (some ⟨1, [⟨3, 30⟩, emptyNode, emptyNode, emptyNode,
      emptyNode, emptyNode, emptyNode, emptyNode]⟩) ∧
    size (some ⟨1, [⟨3, 30⟩, emptyNode, emptyNode, emptyNode,
      emptyNode, emptyNode, emptyNode, emptyNode]⟩) < 2 ^ 27 ∧
    LoadOk (emplace randomize_hash (some ⟨1, [⟨3, 30⟩, emptyNode, emptyNode, emptyNode,
      emptyNode, emptyNode, emptyNode, emptyNode]⟩) 5 50).1 ∧
    LoadOk (erase randomize_hash (some ⟨1, [⟨3, 30⟩, emptyNode, emptyNode, emptyNode,
      emptyNode, emptyNode, emptyNode, emptyNode]⟩) 3).2 :=
  ⟨by decide, by decide,
    claim_C2_amended.1 randomize_hash _ 5 50 (by decide) (by decide),
    claim_C2_amended.2.1 randomize_hash _ 3 (by decide)⟩

/-! ### Key-value semantics over sequences of emplace (C1, C10) -/

theorem hasKV_iff_mem_entriesT {t : FlatHashTable} {k v : Nat} (hk : k ≠ 0) :
    hasKV t k v ↔ (⟨k, v⟩ : Node) ∈ entriesT t := by
  match t with
  | none => exact ⟨fun h => absurd h id, fun h => absurd h (List.not_mem_nil _)⟩
  | some inner => exact hasKV_iff_mem_entries hk

theorem contains_key_iff_exists {t : FlatHashTable} {k : Nat} :
    contains_key t k ↔ k ≠ 0 ∧ ∃ v, hasKV t k v := by
  match t with
  | none => exact ⟨fun h => absurd h id, fun ⟨_, _, h⟩ => absurd h id⟩
  | some inner =>
    constructor
    · intro ⟨hk, b, hb, hbk⟩
      refine ⟨hk, (inner.nodes.getD b emptyNode).second, hk, b, hb, ?_⟩
      have : inner.nodes.getD b emptyNode =
          ⟨(inner.nodes.getD b emptyNode).first, (inner.nodes.getD b emptyNode).second⟩ :=
        rfl
      rw [this, hbk]
    · intro ⟨hk, v, _, b, hb, hbkv⟩
      exact ⟨hk, b, hb, by rw [hbkv]⟩

theorem lookup_isSome_iff {l : List (Nat × Nat)} {k : Nat} :
    (l.lookup k).isSome = true ↔ k ∈ l.map Prod.fst := by
  induction l with
  | nil => simp [List.lookup]
  | cons p rest ih =>
    rw [List.lookup, List.map_cons]
    by_cases hk : k = p.1
    · rw [show (k == p.1) = true from beq_iff_eq.2 hk]
      simp [hk]
    · rw [show (k == p.1) = false from beq_eq_false_iff_ne.2 hk]
      rw [List.mem_cons]
      simp only [Option.isSome]
      constructor
      · intro h
        exact Or.inr (ih.1 h)
      · intro h
        rcases h with h | h
        · exact absurd h hk
        · exact ih.2 h

theorem lookup_cons_self {p : Nat × Nat} {l : List (Nat × Nat)} :
    (p :: l).lookup p.1 = some p.2 := by
  rw [List.lookup, beq_self_eq_true]

theorem lookup_cons_ne {p : Nat × Nat} {l : List (Nat × Nat)} {k : Nat} (h : k ≠ p.1) :
    (p :: l).lookup k = l.lookup k := by
  rw [List.lookup, show (k == p.1) = false from beq_eq_false_iff_ne.2 h]

/-- A lookup hitting in the prefix is unchanged by appending. -/
theorem lookup_append_single_found {l : List (Nat × Nat)} {p : Nat × Nat} {k u : Nat}
    (h : l.lookup k = some u) : (l ++ [p]).lookup k = some u := by
  rw [List.lookup_append, h]
  rfl

theorem lookup_append_single_self {l : List (Nat × Nat)} {p : Nat × Nat}
    (h : l.lookup p.1 = none) : (l ++ [p]).lookup p.1 = some p.2 := by
  rw [List.lookup_append, h]
  show ([p].lookup p.1) = some p.2
  exact lookup_cons_self

theorem lookup_append_single_ne {l : List (Nat × Nat)} {p : Nat × Nat} {k : Nat}
    (hne : k ≠ p.1) (h : l.lookup k = none) : (l ++ [p]).lookup k = none := by
  rw [List.lookup_append, h]
  show ([p].lookup k) = none
  rw [lookup_cons_ne hne]
  rfl

/-- A table refining an association list contains exactly its keys. -/
theorem contains_of_kviff {t : FlatHashTable} {l : List (Nat × Nat)}
    (h : ∀ k v, k ≠ 0 → (hasKV t k v ↔ l.lookup k = some v)) :
    ∀ k, k ≠ 0 → (contains_key t k ↔ (l.lookup k).isSome = true) := by
  intro k hk
  rw [contains_key_iff_exists]
  constructor
  · intro ⟨_, v, hv⟩
    rw [(h k v hk).1 hv]
    rfl
  · intro hs
    obtain ⟨u, hu⟩ := Option.isSome_iff_exists.1 hs
    exact ⟨hk, u, (h k u hk).2 hu⟩

/-- The main induction for sequences of insertions: the table refines the
association list of the operations performed so far (the first occurrence
of a key wins, since `emplace` does not overwrite), and the size counts
the distinct keys. -/
theorem emplace_fold_spec {hashT : Nat → Nat} :
    ∀ (ops : List (Nat × Nat)) (t : FlatHashTable) (model : List (Nat × Nat)),
      WF hashT t →
      (∀ p, p ∈ ops → p.1 ≠ 0) →
      size t + ops.length < 2 ^ 27 →
      (∀ k v, k ≠ 0 → (hasKV t k v ↔ model.lookup k = some v)) →
      size t = ((model.map Prod.fst).toFinset).card →
      WF hashT (ops.foldl (fun t p => (emplace hashT t p.1 p.2).1) t) ∧
      (∀ k v, k ≠ 0 →
        (hasKV (ops.foldl (fun t p => (emplace hashT t p.1 p.2).1) t) k v ↔
          (model ++ ops).lookup k = some v)) ∧
      size (ops.foldl (fun t p => (emplace hashT t p.1 p.2).1) t) =
        (((model ++ ops).map Prod.fst).toFinset).card := by
  intro ops
  induction ops with
  | nil =>
    intro t model hWF _ _ hkv hsize
    rw [List.foldl_nil, List.append_nil]
    exact ⟨hWF, fun k v hk => hkv k v hk, hsize⟩
  | cons p rest ih =>
    intro t model hWF hops hbound hkv hsize
    have hp1 : p.1 ≠ 0 := hops p (List.mem_cons_self _ _)
    have hna : size t < 2 ^ 27 := by
      rw [List.length_cons] at hbound
      omega
    rw [List.foldl_cons]
    have happ : model ++ p :: rest = (model ++ [p]) ++ rest := by
      rw [List.append_assoc]
      rfl
    have hck := contains_of_kviff hkv
    by_cases hc : contains_key t p.1
    · -- present: emplace is a no-op on the mapping
      obtain ⟨u0, hu0⟩ := Option.isSome_iff_exists.1 ((hck p.1 hp1).1 hc)
      obtain ⟨w, hw⟩ : ∃ w, hasKV t p.1 w := (contains_key_iff_exists.1 hc).2
      obtain ⟨inner', heq', hins', hInv', hused', hperm', _⟩ :=
        emplace_present (v := p.2) hWF hna hw
      have hWF' : WF hashT (emplace hashT t p.1 p.2).1 := by
        rw [heq']
        exact hInv'
      have hkv' : ∀ k v, k ≠ 0 →
          (hasKV (emplace hashT t p.1 p.2).1 k v ↔ (model ++ [p]).lookup k = some v) := by
        intro k v hk
        rw [heq', hasKV_iff_mem_entries hk, hperm'.mem_iff, ← hasKV_iff_mem_entriesT hk,
          hkv k v hk]
        cases hlk : model.lookup k with
        | some u => rw [lookup_append_single_found hlk]
        | none =>
          have hkp : k ≠ p.1 := by
            intro he
            rw [he, hu0] at hlk
            cases hlk
          rw [lookup_append_single_ne hkp hlk]
      have hsize' : size (emplace hashT t p.1 p.2).1 =
          (((model ++ [p]).map Prod.fst).toFinset).card := by
        rw [heq']
        show inner'.used_node_count = _
        rw [hused', hsize, List.map_append, List.toFinset_append]
        have hpin : p.1 ∈ (model.map Prod.fst).toFinset := by
          rw [List.mem_toFinset]
          exact lookup_isSome_iff.1 ((hck p.1 hp1).1 hc)
        rw [show (([p] : List (Nat × Nat)).map Prod.fst).toFinset = {p.1} from rfl]
        rw [Finset.union_comm, ← Finset.insert_eq, Finset.insert_eq_self.2 hpin]
      have hbound' : size (emplace hashT t p.1 p.2).1 + rest.length < 2 ^ 27 := by
        rw [heq']
        show inner'.used_node_count + _ < _
        rw [hused']
        rw [List.length_cons] at hbound
        omega
      have := ih (emplace hashT t p.1 p.2).1 (model ++ [p]) hWF'
        (fun q hq => hops q (List.mem_cons_of_mem _ hq)) hbound' hkv' hsize'
      rw [happ]
      exact this
    · -- absent: emplace inserts the new pair
      obtain ⟨inner', heq', hins', hInv', hused', hperm'⟩ :=
        emplace_absent (v := p.2) hWF hna hp1 hc
      have hnone : model.lookup p.1 = none := by
        cases hlk : model.lookup p.1 with
        | none => rfl
        | some u => exact absurd ((hck p.1 hp1).2 (by rw [hlk]; rfl)) hc
      have hWF' : WF hashT (emplace hashT t p.1 p.2).1 := by
        rw [heq']
        exact hInv'
      have hkv' : ∀ k v, k ≠ 0 →
          (hasKV (emplace hashT t p.1 p.2).1 k v ↔ (model ++ [p]).lookup k = some v) := by
        intro k v hk
        rw [heq', hasKV_iff_mem_entries hk, hperm'.mem_iff, List.mem_cons,
          ← hasKV_iff_mem_entriesT hk, hkv k v hk]
        by_cases hkp : k = p.1
        · rw [hkp, hnone, lookup_append_single_self hnone]
          constructor
          · intro h
            rcases h with h | h
            · have hv : v = p.2 := congrArg Node.second h
              rw [hv]
            · cases h
          · intro h
            have hv : v = p.2 := (Option.some.inj h).symm
            exact Or.inl (by rw [hv])
        · cases hlk : model.lookup k with
          | some u =>
            rw [lookup_append_single_found hlk]
            constructor
            · intro h
              rcases h with h | h
              · exact absurd (congrArg Node.first h) hkp
              · exact h
            · exact fun h => Or.inr h
          | none =>
            rw [lookup_append_single_ne hkp hlk]
            constructor
            · intro h
              rcases h with h | h
              · exact absurd (congrArg Node.first h) hkp
              · exact h
            · exact fun h => Or.inr h
      have hsize' : size (emplace hashT t p.1 p.2).1 =
          (((model ++ [p]).map Prod.fst).toFinset).card := by
        rw [heq']
        show inner'.used_node_count = _
        rw [hused', hsize, List.map_append, List.toFinset_append]
        have hpout : p.1 ∉ (model.map Prod.fst).toFinset := by
          rw [List.mem_toFinset]
          intro hmem
          have := lookup_isSome_iff.2 hmem
          rw [hnone] at this
          cases this
        rw [show (([p] : List (Nat × Nat)).map Prod.fst).toFinset = {p.1} from rfl]
        rw [Finset.union_comm, ← Finset.insert_eq, Finset.card_insert_of_not_mem hpout]
      have hbound' : size (emplace hashT t p.1 p.2).1 + rest.length < 2 ^ 27 := by
        rw [heq']
        show inner'.used_node_count + _ < _
        rw [hused']
        rw [List.length_cons] at hbound
        omega
      have := ih (emplace hashT t p.1 p.2).1 (model ++ [p]) hWF'
        (fun q hq => hops q (List.mem_cons_of_mem _ hq)) hbound' hkv' hsize'
      rw [happ]
      exact this

/-- C1, counterexample: emplacing `(5, 10)` and then `(5, 20)` leaves the
value 10 — `emplace` does not overwrite on a repeated key, so `find`
returns the first-inserted value, not the last-inserted one. -/
theorem claim_C1_counterexample :
    find_value randomize_hash ([(5, 10), (5, 20)].foldl
      (fun t p => (emplace randomize_hash t p.1 p.2).1) (none : FlatHashTable)) 5 =
      some 10 ∧ (10 : Nat) ≠ 20 := by
  exact ⟨by decide, by decide⟩

/-- C1 (amended): for every sequence of insertions of non-sentinel keys
(repeats allowed, fewer than `2^27` insertions — the allocation cap of
the table; the C++ process aborts beyond it) via `emplace` into an
initially empty table, afterwards `find(k)` returns the FIRST-inserted
value for each inserted key `k` (repeated emplace does not overwrite),
`find` misses all other keys, and `size()` equals the number of distinct
keys inserted. -/
theorem claim_C1_amended (hashT : Nat → Nat) (ops : List (Nat × Nat))
    (hkeys : ∀ p, p ∈ ops → p.1 ≠ 0) (hlen : ops.length < 2 ^ 27) :
    (∀ k, k ≠ 0 →
      find_value hashT (ops.foldl (fun t p => (emplace hashT t p.1 p.2).1)
        (none : FlatHashTable)) k = List.lookup k ops) ∧
    size (ops.foldl (fun t p => (emplace hashT t p.1 p.2).1) (none : FlatHashTable)) =
      (ops.map Prod.fst).dedup.length := by
  obtain ⟨hWF', hkv', hsize'⟩ := emplace_fold_spec ops none [] trivial hkeys
    (by rw [show size none = 0 from rfl]; omega)
    (fun k v hk => ⟨fun h => absurd h id, fun h => by cases h⟩)
    (by rfl)
  rw [List.nil_append] at hkv' hsize'
  constructor
  · intro k hk
    cases ht' : ops.foldl (fun t p => (emplace hashT t p.1 p.2).1)
        (none : FlatHashTable) with
    | none =>
      rw [show find_value hashT none k = none from rfl]
      cases hlk : List.lookup k ops with
      | none => rfl
      | some u =>
        have := (hkv' k u hk).2 hlk
        rw [ht'] at this
        exact absurd this id
    | some inner =>
      have hInv : Inv hashT inner := by
        have := hWF'
        rw [ht'] at this
        exact this
      cases hlk : List.lookup k ops with
      | none =>
        rw [(find_value_none_iff hInv hk)]
        intro hcont
        obtain ⟨_, v, hv⟩ := contains_key_iff_exists.1 hcont
        have := (hkv' k v hk).1 (by rw [ht']; exact hv)
        rw [hlk] at this
        cases this
      | some u =>
        rw [(find_value_some_iff hInv hk)]
        have := (hkv' k u hk).2 hlk
        rw [ht'] at this
        exact this
  · rw [hsize', List.card_toFinset]

/-- C1, witness: inserting `(1,11), (2,22), (1,99)` gives `find(1) = 11`
(the first value for key 1) and `size() = 2`. -/
theorem claim_C1_witness :
    find_value randomize_hash ([(1, 11), (2, 22), (1, 99)].foldl
      (fun t p => (emplace randomize_hash t p.1 p.2).1) (none : FlatHashTable)) 1 =
      List.lookup 1 [(1, 11), (2, 22), (1, 99)] ∧
    List.lookup 1 [((1 : Nat), (11 : Nat)), (2, 22), (1, 99)] = some 11 ∧
    size ([(1, 11), (2, 22), (1, 99)].foldl
      (fun t p => (emplace randomize_hash t p.1 p.2).1) (none : FlatHashTable)) =
      ([((1 : Nat), (11 : Nat)), (2, 22), (1, 99)].map Prod.fst).dedup.length ∧
    ([((1 : Nat), (11 : Nat)), (2, 22), (1, 99)].map Prod.fst).dedup.length = 2 :=
  ⟨(claim_C1_amended randomize_hash _ (by decide) (by decide)).1 1 (by decide),
    by decide,
    (claim_C1_amended randomize_hash _ (by decide) (by decide)).2,
    by decide⟩

/-- C10: emplacing an already-present key returns `inserted = false` and
an iterator pointing at the existing entry (the returned bucket holds
exactly the previously stored key-value pair), leaves `size()` and the
whole key-to-value mapping unchanged (the stored value is not
overwritten); the bucket count can still change, because `try_grow` runs
before the probe: emplacing the existing key 1 into the five-entry
8-bucket table grows it to 16 buckets while a sixth entry is never
created. -/
theorem claim_C10_emplace_existing :
    (∀ (hashT : Nat → Nat) (t : FlatHashTable) (k v w : Nat),
      WF hashT t → size t < 2 ^ 27 → hasKV t k w →
      (emplace hashT t k v).2.2 = false ∧
      size (emplace hashT t k v).1 = size t ∧
      find_value hashT (emplace hashT t k v).1 k = some w ∧
      (∀ k' v', hasKV (emplace hashT t k v).1 k' v' ↔ hasKV t k' v') ∧
      ∀ inner', (emplace hashT t k v).1 = some inner' →
        inner'.nodes.getD (emplace hashT t k v).2.1 emptyNode = ⟨k, w⟩) ∧
    ((emplace randomize_hash ([1, 2, 3, 4, 5].foldl
        (fun t k => (emplace randomize_hash t k k).1) (none : FlatHashTable)) 1 99).2.2 =
      false ∧
    bucket_count ([1, 2, 3, 4, 5].foldl
      (fun t k => (emplace randomize_hash t k k).1) (none : FlatHashTable)) = 8 ∧
    bucket_count (emplace randomize_hash ([1, 2, 3, 4, 5].foldl
      (fun t k => (emplace randomize_hash t k k).1) (none : FlatHashTable)) 1 99).1 = 16 ∧
    size (emplace randomize_hash ([1, 2, 3, 4, 5].foldl
      (fun t k => (emplace randomize_hash t k k).1) (none : FlatHashTable)) 1 99).1 = 5 ∧
    find_value randomize_hash (emplace randomize_hash ([1, 2, 3, 4, 5].foldl
      (fun t k => (emplace randomize_hash t k k).1) (none : FlatHashTable)) 1 99).1 1 =
      some 1) := by
  constructor
  · intro hashT t k v w hWF hna hkv
    have hk : k ≠ 0 := by
      match t with
      | none => exact absurd hkv id
      | some inner => exact hkv.1
    obtain ⟨inner', heq', hins', hInv', hused', hperm', hslot'⟩ :=
      emplace_present (v := v) hWF hna hkv
    refine ⟨hins', ?_, ?_, ?_, ?_⟩
    · rw [heq']
      exact hused'
    · rw [heq']
      rw [find_value_some_iff hInv' hk]
      rw [hasKV_iff_mem_entries hk, hperm'.mem_iff, ← hasKV_iff_mem_entriesT hk]
      exact hkv
    · intro k' v'
      by_cases hk' : k' = 0
      · rw [heq', hk']
        constructor
        · intro h
          exact absurd rfl h.1
        · intro h
          match t with
          | none => exact absurd h id
          | some inner => exact absurd rfl h.1
      · rw [heq', hasKV_iff_mem_entries hk', hperm'.mem_iff,
          ← hasKV_iff_mem_entriesT hk']
    · intro inner'' heq''
      rw [heq'] at heq''
      rw [← Option.some.inj heq'']
      exact hslot'
  · exact ⟨by decide, by decide, by decide, by decide, by decide⟩

/-- C10, witness: the universal clause applied to a concrete one-entry
table — re-emplacing key 3 with value 99 keeps value 30. -/
theorem claim_C10_witness :
    WF randomize_hash (emplace randomize_hash none 3 30).1 ∧
    hasKV (emplace randomize_hash none 3 30).1 3 30 ∧
    (emplace randomize_hash (emplace randomize_hash none 3 30).1 3 99).2.2 = false ∧
    find_value randomize_hash
      (emplace randomize_hash (emplace randomize_hash none 3 30).1 3 99).1 3 =
      some 30 :=
  ⟨by decide, by decide,
    (claim_C10_emplace_existing.1 randomize_hash _ 3 99 30 (by decide) (by decide)
      (by decide)).1,
    (claim_C10_emplace_existing.1 randomize_hash _ 3 99 30 (by decide) (by decide)
      (by decide)).2.2.1⟩

/-! ### Iteration visits every occupied bucket exactly once (C7) -/

theorem wrap_eq_mod {len it : Nat} (h : it < len) :
    (if it + 1 = len then 0 else it + 1) = (it + 1) % len := by
  by_cases he : it + 1 = len
  · rw [if_pos he, he, Nat.mod_self]
  · rw [if_neg he, Nat.mod_eq_of_lt (by omega)]

theorem exists_first_occupied {nodes : List Node} {s : Nat} (hs : s < nodes.length)
    (hex : ∃ e, e < nodes.length ∧ occupiedAt nodes e) :
    ∃ d, d < nodes.length ∧ occupiedAt nodes ((s + d) % nodes.length) ∧
      ∀ j, j < d → ¬occupiedAt nodes ((s + j) % nodes.length) := by
  obtain ⟨e, he, hocc⟩ := hex
  have hP : ∃ d, occupiedAt nodes ((s + d) % nodes.length) :=
    ⟨cdist nodes.length s e, by rw [offset_cdist hs he]; exact hocc⟩
  refine ⟨Nat.find hP, ?_, Nat.find_spec hP, fun j hj => Nat.find_min hP hj⟩
  exact lt_of_le_of_lt (Nat.find_min' hP (by rw [offset_cdist hs he]; exact hocc))
    (cdist_lt (by omega) s e)

/-- `begin` walks from the random bucket to the first occupied one. -/
theorem begin_loop_spec {nodes : List Node}
    (hpow : nodes.length = 2 ^ Nat.log2 nodes.length) :
    ∀ d s fuel, s < nodes.length → d < fuel →
      (∀ j, j < d → ¬occupiedAt nodes ((s + j) % nodes.length)) →
      occupiedAt nodes ((s + d) % nodes.length) →
      begin_loop nodes s fuel = (s + d) % nodes.length := by
  intro d
  induction d with
  | zero =>
    intro s fuel hs hfuel _ hocc
    obtain ⟨f, rfl⟩ : ∃ f, fuel = f + 1 := ⟨fuel - 1, by omega⟩
    have h0 : (s + 0) % nodes.length = s := by
      rw [Nat.add_zero]
      exact Nat.mod_eq_of_lt hs
    rw [h0] at hocc ⊢
    rw [begin_loop, if_cond_false (isEmpty_false_of hocc)]
  | succ d ih =>
    intro s fuel hs hfuel hemp hocc
    obtain ⟨f, rfl⟩ : ∃ f, fuel = f + 1 := ⟨fuel - 1, by omega⟩
    have h0 := hemp 0 (Nat.succ_pos d)
    rw [Nat.add_zero, Nat.mod_eq_of_lt hs] at h0
    rw [begin_loop, if_cond_true (isEmpty_true_of (not_not.1 h0))]
    rw [next_bucket_eq_mod hpow]
    have hs' : (s + 1) % nodes.length < nodes.length := Nat.mod_lt _ (by omega)
    have hrw : ∀ j, ((s + 1) % nodes.length + j) % nodes.length =
        (s + (j + 1)) % nodes.length := by
      intro j
      rw [Nat.mod_add_mod]
      congr 1
      omega
    rw [ih ((s + 1) % nodes.length) f hs' (by omega)
      (fun j hj => by rw [hrw j]; exact hemp (j + 1) (by omega))
      (by rw [hrw d]; exact hocc)]
    rw [hrw d]

theorem iter_inc_loop_succ (nodes : List Node) (start it f : Nat) :
    iter_inc_loop nodes start it (f + 1) =
      (if (if it + 1 = nodes.length then 0 else it + 1) = start then none
       else if (nodes.getD (if it + 1 = nodes.length then 0 else it + 1)
           emptyNode).isEmpty = true
         then iter_inc_loop nodes start (if it + 1 = nodes.length then 0 else it + 1) f
         else some (if it + 1 = nodes.length then 0 else it + 1)) := rfl

/-- `operator++` reaches `end()` when no occupied bucket remains before
the recorded start. -/
theorem iter_inc_none {nodes : List Node} {s : Nat} (hs : s < nodes.length) :
    ∀ δ j fuel, j + δ = nodes.length → δ ≤ fuel → j < nodes.length →
      (∀ i, j < i → i < nodes.length → ¬occupiedAt nodes ((s + i) % nodes.length)) →
      iter_inc_loop nodes s ((s + j) % nodes.length) fuel = none := by
  intro δ
  induction δ with
  | zero => intro j fuel hj _ hjlt _; omega
  | succ δ ih =>
    intro j fuel hj hfuel hjlt hemp
    obtain ⟨f, rfl⟩ : ∃ f, fuel = f + 1 := ⟨fuel - 1, by omega⟩
    have hit : (s + j) % nodes.length < nodes.length := Nat.mod_lt _ (by omega)
    rw [iter_inc_loop_succ, wrap_eq_mod hit, Nat.mod_add_mod]
    by_cases hend : j + 1 = nodes.length
    · have : (s + j + 1) % nodes.length = s := by
        rw [Nat.add_assoc, hend, Nat.add_mod_right, Nat.mod_eq_of_lt hs]
      rw [this, if_pos rfl]
    · have hj1 : j + 1 < nodes.length := by omega
      have hne : (s + j + 1) % nodes.length ≠ s := by
        intro he
        have he2 : (s + (j + 1)) % nodes.length = (s + 0) % nodes.length := by
          have h0 : (s + 0) % nodes.length = s := by
            rw [Nat.add_zero]
            exact Nat.mod_eq_of_lt hs
          rw [h0]
          rw [show s + (j + 1) = s + j + 1 from by omega]
          exact he
        have := offset_inj hs hj1 (by omega) he2
        omega
      rw [if_neg hne]
      have hej1 := hemp (j + 1) (by omega) hj1
      rw [show s + j + 1 = s + (j + 1) from by omega] at *
      rw [if_cond_true (isEmpty_true_of (not_not.1 hej1))]
      exact ih (j + 1) f (by omega) (by omega) hj1
        (fun i hi1 hi2 => hemp i (by omega) hi2)

/-- `operator++` yields the next occupied bucket before the start. -/
theorem iter_inc_some {nodes : List Node} {s : Nat} (hs : s < nodes.length) :
    ∀ δ j fuel, j + δ < nodes.length → 0 < δ → δ ≤ fuel →
      (∀ i, j < i → i < j + δ → ¬occupiedAt nodes ((s + i) % nodes.length)) →
      occupiedAt nodes ((s + (j + δ)) % nodes.length) →
      iter_inc_loop nodes s ((s + j) % nodes.length) fuel =
        some ((s + (j + δ)) % nodes.length) := by
  intro δ
  induction δ with
  | zero => intro j fuel _ h0 _ _ _; omega
  | succ δ ih =>
    intro j fuel hjδ _ hfuel hemp hocc
    obtain ⟨f, rfl⟩ : ∃ f, fuel = f + 1 := ⟨fuel - 1, by omega⟩
    have hit : (s + j) % nodes.length < nodes.length := Nat.mod_lt _ (by omega)
    rw [iter_inc_loop_succ, wrap_eq_mod hit, Nat.mod_add_mod]
    have hj1 : j + 1 < nodes.length := by omega
    have hne : (s + j + 1) % nodes.length ≠ s := by
      intro he
      have he2 : (s + (j + 1)) % nodes.length = (s + 0) % nodes.length := by
        have h0 : (s + 0) % nodes.length = s := by
          rw [Nat.add_zero]
          exact Nat.mod_eq_of_lt hs
        rw [h0]
        rw [show s + (j + 1) = s + j + 1 from by omega]
        exact he
      have := offset_inj hs hj1 (by omega) he2
      omega
    rw [if_neg hne]
    rw [show s + j + 1 = s + (j + 1) from by omega]
    by_cases hδ : δ = 0
    · rw [hδ] at hocc
      rw [show j + (0 + 1) = j + 1 from by omega] at hocc
      rw [if_cond_false (isEmpty_false_of hocc)]
      rw [hδ, show j + (0 + 1) = j + 1 from by omega]
    · have hej1 : ¬occupiedAt nodes ((s + (j + 1)) % nodes.length) :=
        hemp (j + 1) (by omega) (by omega)
      rw [if_cond_true (isEmpty_true_of (not_not.1 hej1))]
      have := ih (j + 1) f (by omega) (by omega) (by omega)
        (fun i hi1 hi2 => hemp i (by omega) (by omega)) ?_
      · rw [this]
        rw [show j + 1 + δ = j + (δ + 1) from by omega]
      · rw [show j + 1 + δ = j + (δ + 1) from by omega]
        exact hocc

/-- Splitting an offset filter at its minimum. -/
theorem filter_range_split (P : Nat → Bool) :
    ∀ m j j', j < j' → (∀ i, j < i → i < j' → P i = false) → P j = true → j < m →
      (List.range m).filter (fun i => decide (j ≤ i) && P i) =
        j :: (List.range m).filter (fun i => decide (j' ≤ i) && P i) := by
  intro m
  induction m with
  | zero => intro j j' _ _ _ hjm; omega
  | succ m ih =>
    intro j j' hjj' hmid hPj hjm
    rw [List.range_succ, List.filter_append, List.filter_append]
    by_cases hj : j < m
    · rw [ih j j' hjj' hmid hPj hj]
      have hlast : (List.filter (fun i => decide (j ≤ i) && P i) [m]) =
          (List.filter (fun i => decide (j' ≤ i) && P i) [m]) := by
        by_cases hj'm : j' ≤ m
        · rw [List.filter_cons, List.filter_cons]
          rw [show decide (j ≤ m) = true from decide_eq_true (by omega)]
          rw [show decide (j' ≤ m) = true from decide_eq_true hj'm]
          simp only [List.filter_nil]
        · have hPm : P m = false := hmid m (by omega) (by omega)
          rw [List.filter_cons, List.filter_cons, hPm]
          rw [Bool.and_false, Bool.and_false]
          simp only [List.filter_nil]
      rw [hlast]
      rfl
    · have hjem : j = m := by omega
      have h1 : (List.range m).filter (fun i => decide (j ≤ i) && P i) = [] := by
        rw [List.filter_eq_nil]
        intro a ha
        have := List.mem_range.1 ha
        rw [show decide (j ≤ a) = false from decide_eq_false (by omega)]
        rw [Bool.false_and]
        exact Bool.false_ne_true
      have h2 : (List.range m).filter (fun i => decide (j' ≤ i) && P i) = [] := by
        rw [List.filter_eq_nil]
        intro a ha
        have := List.mem_range.1 ha
        rw [show decide (j' ≤ a) = false from decide_eq_false (by omega)]
        rw [Bool.false_and]
        exact Bool.false_ne_true
      have h3 : (List.filter (fun i => decide (j ≤ i) && P i) [m]) = [m] := by
        rw [List.filter_cons]
        rw [show decide (j ≤ m) = true from decide_eq_true (by omega)]
        rw [← hjem, hPj]
        rfl
      have h4 : (List.filter (fun i => decide (j' ≤ i) && P i) [m]) = [] := by
        rw [List.filter_cons]
        rw [show decide (j' ≤ m) = false from decide_eq_false (by omega)]
        rw [Bool.false_and]
        rfl
      rw [h1, h2, h3, h4, ← hjem]
      rfl

/-- An offset filter whose minimum is the only hit. -/
theorem filter_range_single (P : Nat → Bool) :
    ∀ m j, (∀ i, j < i → i < m → P i = false) → P j = true → j < m →
      (List.range m).filter (fun i => decide (j ≤ i) && P i) = [j] := by
  intro m
  induction m with
  | zero => intro j _ _ hjm; omega
  | succ m ih =>
    intro j hmid hPj hjm
    rw [List.range_succ, List.filter_append]
    by_cases hj : j < m
    · rw [ih j (fun i h1 h2 => hmid i h1 (by omega)) hPj hj]
      have h4 : (List.filter (fun i => decide (j ≤ i) && P i) [m]) = [] := by
        rw [List.filter_cons]
        rw [hmid m (by omega) (by omega), Bool.and_false]
        rfl
      rw [h4]
      rfl
    · have hjem : j = m := by omega
      have h1 : (List.range m).filter (fun i => decide (j ≤ i) && P i) = [] := by
        rw [List.filter_eq_nil]
        intro a ha
        have := List.mem_range.1 ha
        rw [show decide (j ≤ a) = false from decide_eq_false (by omega)]
        rw [Bool.false_and]
        exact Bool.false_ne_true
      have h3 : (List.filter (fun i => decide (j ≤ i) && P i) [m]) = [m] := by
        rw [List.filter_cons]
        rw [show decide (j ≤ m) = true from decide_eq_true (by omega)]
        rw [← hjem, hPj]
        rfl
      rw [h1, h3, ← hjem]
      rfl

/-- The collection loop gathers exactly the occupied buckets at offsets
of at least the current one from the start. -/
theorem iter_list_loop_spec {nodes : List Node} {s : Nat} (hs : s < nodes.length) :
    ∀ fuel j, j < nodes.length → occupiedAt nodes ((s + j) % nodes.length) →
      ((List.range nodes.length).filter (fun i => decide (j ≤ i) &&
        ((nodes.getD ((s + i) % nodes.length) emptyNode).first != 0))).length ≤ fuel →
      iter_list_loop nodes s (some ((s + j) % nodes.length)) fuel =
        ((List.range nodes.length).filter (fun i => decide (j ≤ i) &&
          ((nodes.getD ((s + i) % nodes.length) emptyNode).first != 0))).map
          (fun i => (s + i) % nodes.length) := by
  intro fuel
  induction fuel with
  | zero =>
    intro j hj hocc hlen
    exfalso
    have hmem : j ∈ (List.range nodes.length).filter (fun i => decide (j ≤ i) &&
        ((nodes.getD ((s + i) % nodes.length) emptyNode).first != 0)) := by
      rw [List.mem_filter]
      refine ⟨List.mem_range.2 hj, ?_⟩
      rw [show decide (j ≤ j) = true from decide_eq_true (le_refl j)]
      rw [Bool.true_and]
      simpa [occupiedAt] using hocc
    have := List.length_pos.2 (List.ne_nil_of_mem hmem)
    omega
  | succ f ih =>
    intro j hj hocc hlen
    rw [iter_list_loop]
    by_cases hnext : ∃ i, j < i ∧ i < nodes.length ∧
        occupiedAt nodes ((s + i) % nodes.length)
    · have hj' := Nat.find_spec hnext
      set j' := Nat.find hnext with hj'def
      have hmid : ∀ i, j < i → i < j' → ¬occupiedAt nodes ((s + i) % nodes.length) := by
        intro i h1 h2
        intro ho
        exact Nat.find_min hnext h2 ⟨h1, lt_trans h2 hj'.2.1, ho⟩
      have hinc : iter_inc_loop nodes s ((s + j) % nodes.length) nodes.length =
          some ((s + j') % nodes.length) := by
        have := iter_inc_some hs (j' - j) j nodes.length
          (by omega) (by omega) (by omega)
          (fun i h1 h2 => hmid i h1 (by omega))
          (by rw [show j + (j' - j) = j' from by omega]; exact hj'.2.2)
        rw [show j + (j' - j) = j' from by omega] at this
        exact this
      rw [hinc]
      have hsplit := filter_range_split
        (fun i => ((nodes.getD ((s + i) % nodes.length) emptyNode).first != 0))
        nodes.length j j' hj'.1
        (fun i h1 h2 => by
          have := hmid i h1 h2
          simpa [occupiedAt] using this)
        (by simpa [occupiedAt] using hocc) hj
      simp only [] at hsplit
      rw [hsplit] at hlen ⊢
      rw [List.length_cons] at hlen
      rw [ih j' hj'.2.1 hj'.2.2 (by omega)]
      rfl
    · push_neg at hnext
      have hinc : iter_inc_loop nodes s ((s + j) % nodes.length) nodes.length =
          none := by
        refine iter_inc_none hs (nodes.length - j) j nodes.length
          (by omega) (by omega) hj ?_
        intro i h1 h2
        exact hnext i h1 h2
      rw [hinc]
      have hsingle := filter_range_single
        (fun i => ((nodes.getD ((s + i) % nodes.length) emptyNode).first != 0))
        nodes.length j
        (fun i h1 h2 => by
          have := hnext i h1 h2
          simpa [occupiedAt] using this)
        (by simpa [occupiedAt] using hocc) hj
      rw [hsingle]
      rw [show iter_list_loop nodes s none f = [] from by cases f <;> rfl]
      rfl

theorem range_rotate_eq_map {m s : Nat} (hs : s < m) :
    (List.range m).rotate s = (List.range m).map (fun i => (s + i) % m) := by
  apply List.ext_get
  · rw [List.length_rotate, List.length_map]
  · intro n h1 h2
    rw [List.get_rotate]
    rw [List.get_map]
    have hn : n < m := by
      have := h1
      rw [List.length_rotate, List.length_range] at this
      exact this
    simp only [List.get_range]
    rw [List.length_range]
    rw [Nat.add_comm]

/-- C7: for every table satisfying the invariant and every value of the
random start, iterating from `begin` to `end` yields every occupied
bucket exactly once — a permutation of the occupied-bucket list. -/
theorem claim_C7_iteration (hashT : Nat → Nat) (t : FlatHashTable) (r : Nat)
    (hWF : WF hashT t) : (iter_list t r).Perm (occupied_buckets t) := by
  match t with
  | none => exact List.Perm.refl []
  | some inner =>
    have hInv : Inv hashT inner := hWF
    by_cases hused : inner.used_node_count = 0
    · have hoccb : occupied_buckets (some inner) = [] := by
        rw [occupied_buckets, List.filter_eq_nil]
        intro b hb
        have h0 : occCount inner.nodes = 0 := by rw [← hInv.used_eq]; exact hused
        rw [occCount] at h0
        have hall := List.countP_eq_zero.1 h0
        have hblt : b < inner.nodes.length := List.mem_range.1 hb
        have hmem : inner.nodes.getD b emptyNode ∈ inner.nodes := by
          rw [getD_eq_getElem hblt]
          exact List.getElem_mem hblt
        exact hall _ hmem
      have hiter : iter_list (some inner) r = [] := by
        rw [iter_list]
        rw [show begin (some inner) r = none from by rw [begin, if_pos hused]]
        rfl
      rw [hiter, hoccb]
    · have hm : 0 < inner.nodes.length := by have := hInv.len8; omega
      have hr : r &&& bucket_count_mask inner < inner.nodes.length :=
        lt_of_le_of_lt Nat.and_le_right (by
          rw [show bucket_count_mask inner = inner.nodes.length - 1 from rfl]
          omega)
      have hex : ∃ e, e < inner.nodes.length ∧ occupiedAt inner.nodes e := by
        by_contra hno
        push_neg at hno
        apply hused
        rw [hInv.used_eq, occCount, List.countP_eq_zero]
        intro a ha
        obtain ⟨i, hi, rfl⟩ := List.mem_iff_getElem.1 ha
        have := hno i hi
        rw [occupiedAt, getD_eq_getElem hi] at this
        simpa using this
      obtain ⟨d0, hd0, hoccs, hempties⟩ := exists_first_occupied hr hex
      have hbegin : begin (some inner) r = some
          (((r &&& bucket_count_mask inner) + d0) % inner.nodes.length) := by
        rw [begin, if_neg hused,
          begin_loop_spec hInv.pow2 d0 _ inner.nodes.length hr (by omega)
            hempties hoccs]
      have hs : ((r &&& bucket_count_mask inner) + d0) % inner.nodes.length <
          inner.nodes.length := Nat.mod_lt _ hm
      have hiter : iter_list (some inner) r = iter_list_loop inner.nodes
          (((r &&& bucket_count_mask inner) + d0) % inner.nodes.length)
          (some (((r &&& bucket_count_mask inner) + d0) % inner.nodes.length))
          (inner.nodes.length + 1) := by
        rw [iter_list, hbegin]
        rfl
      have hs0 : (((r &&& bucket_count_mask inner) + d0) % inner.nodes.length + 0) %
          inner.nodes.length = ((r &&& bucket_count_mask inner) + d0) %
          inner.nodes.length := by
        rw [Nat.add_zero, Nat.mod_eq_of_lt hs]
      have hspec := iter_list_loop_spec hs (inner.nodes.length + 1) 0 (by omega)
        (by rw [hs0]; exact hoccs)
        (le_trans (List.length_filter_le _ _) (by rw [List.length_range]; omega))
      rw [hs0] at hspec
      rw [hiter, hspec]
      have hpred : ((List.range inner.nodes.length).filter (fun i => decide (0 ≤ i) &&
          ((inner.nodes.getD ((((r &&& bucket_count_mask inner) + d0) %
            inner.nodes.length + i) % inner.nodes.length) emptyNode).first != 0))) =
          ((List.range inner.nodes.length).filter (fun i =>
          ((inner.nodes.getD ((((r &&& bucket_count_mask inner) + d0) %
            inner.nodes.length + i) % inner.nodes.length) emptyNode).first != 0))) := by
        refine List.filter_congr ?_
        intro a _
        rw [show decide (0 ≤ a) = true from decide_eq_true (Nat.zero_le a)]
        rw [Bool.true_and]
      rw [hpred]
      have hcomm := List.filter_map (p := fun b =>
          ((inner.nodes.getD b emptyNode).first != 0))
        (fun i => (((r &&& bucket_count_mask inner) + d0) % inner.nodes.length + i) %
          inner.nodes.length) (List.range inner.nodes.length)
      rw [show ((List.range inner.nodes.length).filter (fun i =>
          ((inner.nodes.getD ((((r &&& bucket_count_mask inner) + d0) %
            inner.nodes.length + i) % inner.nodes.length) emptyNode).first != 0))).map
          (fun i => (((r &&& bucket_count_mask inner) + d0) % inner.nodes.length + i) %
            inner.nodes.length) =
          ((List.range inner.nodes.length).map
            (fun i => (((r &&& bucket_count_mask inner) + d0) % inner.nodes.length + i) %
              inner.nodes.length)).filter
            (fun b => ((inner.nodes.getD b emptyNode).first != 0)) from hcomm.symm]
      rw [← range_rotate_eq_map hs]
      exact (List.rotate_perm _ _).filter _

/-- C7, witness: iterating the three-entry table from two different
random starts yields permutations of its occupied buckets. -/
theorem claim_C7_witness :
    WF randomize_hash ([1, 2, 3].foldl
      (fun t k => (emplace randomize_hash t k k).1) (none : FlatHashTable)) ∧
    (iter_list ([1, 2, 3].foldl
      (fun t k => (emplace randomize_hash t k k).1) (none : FlatHashTable)) 0).Perm
      (occupied_buckets ([1, 2, 3].foldl
        (fun t k => (emplace randomize_hash t k k).1) (none : FlatHashTable))) ∧
    (iter_list ([1, 2, 3].foldl
      (fun t k => (emplace randomize_hash t k k).1) (none : FlatHashTable)) 5).Perm
      (occupied_buckets ([1, 2, 3].foldl
        (fun t k => (emplace randomize_hash t k k).1) (none : FlatHashTable))) :=
  ⟨by decide,
    claim_C7_iteration randomize_hash _ 0 (by decide),
    claim_C7_iteration randomize_hash _ 5 (by decide)⟩

/-! ### Claim C6: the shrink policy of erase -/

set_option maxRecDepth 40000 in
/-- C6, counterexample: insert keys 1..9, `reserve(40)` (bucket count
128), then erase key 1.  A shrink occurs (8 * 10 < 127), and the claimed
new size — the smallest power of two ≥ `(used+1)*5/3+1 = 16`, i.e. 16 —
differs from the actual new bucket count `normalize(16) = 32`. -/
theorem claim_C6_counterexample :
    size (erase randomize_hash (reserve randomize_hash
      ([1, 2, 3, 4, 5, 6, 7, 8, 9].foldl
        (fun t k => (emplace randomize_hash t k k).1) (none : FlatHashTable)) 40) 1).2
      = 8 ∧
    (8 + 1) * 5 / 3 + 1 = 16 ∧
    (∃ j, (16 : Nat) = 2 ^ j) ∧
    bucket_count (reserve randomize_hash
      ([1, 2, 3, 4, 5, 6, 7, 8, 9].foldl
        (fun t k => (emplace randomize_hash t k k).1) (none : FlatHashTable)) 40) = 128 ∧
    bucket_count (erase randomize_hash (reserve randomize_hash
      ([1, 2, 3, 4, 5, 6, 7, 8, 9].foldl
        (fun t k => (emplace randomize_hash t k k).1) (none : FlatHashTable)) 40) 1).2
      = 32 :=
  ⟨by decide, by decide, ⟨4, by norm_num⟩, by decide, by decide⟩

/-- C6 (amended): on an erase that removed an entry, (a) the bucket count
changes only when `used * 10 < mask ∧ mask > 7` held after the removal;
(b) when that condition holds the new bucket count is
`normalize((used+1)*5/3+1)`, the smallest power of two STRICTLY GREATER
than `(used+1)*5/3+1` and never below 8; (c) when it does not hold the
bucket count is unchanged. -/
theorem claim_C6_amended (hashT : Nat → Nat) (t : FlatHashTable) (k : Nat)
    (hWF : WF hashT t) (h1 : (erase hashT t k).1 = 1) :
    (bucket_count (erase hashT t k).2 ≠ bucket_count t →
      size (erase hashT t k).2 * 10 < bucket_count t - 1 ∧ bucket_count t - 1 > 7) ∧
    (size (erase hashT t k).2 * 10 < bucket_count t - 1 ∧ bucket_count t - 1 > 7 →
      bucket_count (erase hashT t k).2 =
        normalize ((size (erase hashT t k).2 + 1) * 5 / 3 + 1) ∧
      (∃ j, bucket_count (erase hashT t k).2 = 2 ^ j) ∧
      8 ≤ bucket_count (erase hashT t k).2 ∧
      (size (erase hashT t k).2 + 1) * 5 / 3 + 1 < bucket_count (erase hashT t k).2 ∧
      ∀ p, (∃ j, p = 2 ^ j) → 8 ≤ p →
        (size (erase hashT t k).2 + 1) * 5 / 3 + 1 < p →
        bucket_count (erase hashT t k).2 ≤ p) ∧
    (¬(size (erase hashT t k).2 * 10 < bucket_count t - 1 ∧ bucket_count t - 1 > 7) →
      bucket_count (erase hashT t k).2 = bucket_count t) := by
  cases hf : find hashT t k with
  | none =>
    exfalso
    unfold erase at h1
    rw [hf] at h1
    have : (0 : Nat) = 1 := h1
    omega
  | some b =>
    cases t with
    | none =>
      exfalso
      have : (none : Option Nat) = some b := hf
      cases this
    | some inner =>
      have hInv : Inv hashT inner := hWF
      have ht' : (erase hashT (some inner) k).2 =
          try_shrink hashT (erase_node hashT inner b) := by
        unfold erase
        rw [hf]
        rfl
      have hEu : (erase_node hashT inner b).used_node_count =
          inner.used_node_count - 1 := rfl
      have hEl : (erase_node hashT inner b).nodes.length = inner.nodes.length :=
        erase_node_length
      have hmaskE : bucket_count_mask (erase_node hashT inner b) =
          inner.nodes.length - 1 := by
        rw [bucket_count_mask, hEl]
      have hbc : bucket_count (some inner) = inner.nodes.length := rfl
      by_cases hcond : (erase_node hashT inner b).used_node_count * 10 <
          bucket_count_mask (erase_node hashT inner b) ∧
          bucket_count_mask (erase_node hashT inner b) > 7
      · obtain ⟨innerR, heqR, husedR, hlenR⟩ := @resize_length hashT
          (erase_node hashT inner b)
          (normalize (((erase_node hashT inner b).used_node_count + 1) * 5 / 3 + 1))
        have ht'' : (erase hashT (some inner) k).2 = some innerR := by
          rw [ht', try_shrink, if_pos hcond, heqR]
        have hsize' : size (erase hashT (some inner) k).2 =
            (erase_node hashT inner b).used_node_count := by
          rw [ht'']
          show innerR.used_node_count = _
          exact husedR
        have hcount' : bucket_count (erase hashT (some inner) k).2 =
            normalize (((erase_node hashT inner b).used_node_count + 1) * 5 / 3 + 1) := by
          rw [ht'']
          show innerR.nodes.length = _
          exact hlenR
        have hcap := hInv.cap
        rw [hmaskE] at hcond
        have harg1 : 0 < ((erase_node hashT inner b).used_node_count + 1) * 5 / 3 + 1 := by
          omega
        have harg2 : ((erase_node hashT inner b).used_node_count + 1) * 5 / 3 + 1 <
            2 ^ 31 := by
          have h29 : (2:Nat) ^ 29 = 536870912 := by norm_num
          have h31 : (2:Nat) ^ 31 = 2147483648 := by norm_num
          omega
        obtain ⟨hpow, hge8, hgt, hmin⟩ := normalize_spec harg1 harg2
        have hcondR : size (erase hashT (some inner) k).2 * 10 <
            bucket_count (some inner) - 1 ∧ bucket_count (some inner) - 1 > 7 := by
          rw [hsize', hbc]
          exact hcond
        refine ⟨fun _ => hcondR, fun _ => ?_, fun hnc => absurd hcondR hnc⟩
        rw [hsize', hcount']
        exact ⟨rfl, hpow, hge8, hgt, hmin⟩
      · have ht'' : (erase hashT (some inner) k).2 = some (erase_node hashT inner b) := by
          rw [ht', try_shrink, if_neg hcond]
        have hsize' : size (erase hashT (some inner) k).2 =
            (erase_node hashT inner b).used_node_count := by rw [ht'']; rfl
        have hcount' : bucket_count (erase hashT (some inner) k).2 =
            bucket_count (some inner) := by
          rw [ht'']
          show (erase_node hashT inner b).nodes.length = _
          rw [hEl, hbc]
        refine ⟨fun hne => absurd hcount' hne, fun hc => ?_, fun _ => hcount'⟩
        exfalso
        apply hcond
        rw [hsize', hbc] at hc
        rw [hmaskE]
        exact hc

/-- C6, witness: erasing key 2 from the well-formed table holding 1, 2, 3
in 8 buckets removes it without a shrink (mask 7 is not greater than 7),
leaving the bucket count at 8. -/
theorem claim_C6_witness :
    WF randomize_hash ([1, 2, 3].foldl
      (fun t k => (emplace randomize_hash t k k).1) (none : FlatHashTable)) ∧
    (erase randomize_hash ([1, 2, 3].foldl
      (fun t k => (emplace randomize_hash t k k).1) (none : FlatHashTable)) 2).1 = 1 ∧
    bucket_count (erase randomize_hash ([1, 2, 3].foldl
      (fun t k => (emplace randomize_hash t k k).1) (none : FlatHashTable)) 2).2 =
      bucket_count ([1, 2, 3].foldl
        (fun t k => (emplace randomize_hash t k k).1) (none : FlatHashTable)) :=
  ⟨by decide, by decide,
    (claim_C6_amended randomize_hash _ 2 (by decide) (by decide)).2.2 (by decide)⟩

/-- C9, witness: erasing the absent key 5, and the sentinel 0, from a
concrete one-entry table returns 0 and leaves it unchanged. -/
theorem claim_C9_witness :
    ¬contains_key (some ⟨1, [⟨3, 30⟩, emptyNode, emptyNode, emptyNode,
      emptyNode, emptyNode, emptyNode, emptyNode]⟩) 5 ∧
    erase randomize_hash (some ⟨1, [⟨3, 30⟩, emptyNode, emptyNode, emptyNode,
      emptyNode, emptyNode, emptyNode, emptyNode]⟩) 5 =
      (0, some ⟨1, [⟨3, 30⟩, emptyNode, emptyNode, emptyNode,
        emptyNode, emptyNode, emptyNode, emptyNode]⟩) ∧
    erase randomize_hash (none : FlatHashTable) 0 = (0, none) :=
  ⟨by decide,
    (claim_C9_erase_absent randomize_hash _ 5 (by decide)).1,
    (claim_C9_erase_absent randomize_hash none 0 (by decide)).1⟩

/-! ### Arithmetic of the backward-shift scan -/

theorem cdist_closed {m a b : Nat} (ha : a < m) (hb : b < m) :
    cdist m a b = if a ≤ b then b - a else b + m - a := by
  rw [cdist]
  by_cases h : a ≤ b
  · rw [if_pos h]
    rw [show b + m - a = b - a + m from by omega, Nat.add_mod_right]
    exact Nat.mod_eq_of_lt (by omega)
  · rw [if_neg h]
    exact Nat.mod_eq_of_lt (by omega)

theorem cdist_det {m a b b' : Nat} (ha : a < m) (hb : b < m) (hb' : b' < m)
    (h : cdist m a b = cdist m a b') : b = b' := by
  have h1 := offset_cdist ha hb
  have h2 := offset_cdist ha hb'
  rw [← h1, ← h2, h]

/-- A bucket strictly inside another bucket's probe segment stays
strictly inside it after composing segments. -/
theorem cdist_between {m h x y b : Nat} (hh : h < m) (hx : x < m) (hy : y < m)
    (hb : b < m) (h1 : cdist m h x < cdist m h b) (h2 : cdist m x y < cdist m x b) :
    cdist m h y < cdist m h b := by
  have hm : 0 < m := by omega
  have hblt : cdist m h b < m := cdist_lt hm h b
  have hxa : (h + cdist m h x) % m = x := offset_cdist hh hx
  have hxb : cdist m x b = cdist m h b - cdist m h x := by
    have hlt1 : cdist m h b - cdist m h x < m := by omega
    have hco : (x + (cdist m h b - cdist m h x)) % m = b := by
      calc (x + (cdist m h b - cdist m h x)) % m
          = ((h + cdist m h x) % m + (cdist m h b - cdist m h x)) % m := by rw [hxa]
        _ = (h + cdist m h x + (cdist m h b - cdist m h x)) % m :=
            Nat.mod_add_mod _ _ _
        _ = (h + cdist m h b) % m := by
            rw [show h + cdist m h x + (cdist m h b - cdist m h x) = h + cdist m h b
              from by omega]
        _ = b := offset_cdist hh hb
    have hoff := cdist_offset hx hlt1
    rw [hco] at hoff
    exact hoff
  have hyy : (x + cdist m x y) % m = y := offset_cdist hx hy
  have hlt2 : cdist m h x + cdist m x y < m := by omega
  have hyo : (h + (cdist m h x + cdist m x y)) % m = y := by
    calc (h + (cdist m h x + cdist m x y)) % m
        = (h + cdist m h x + cdist m x y) % m := by rw [Nat.add_assoc]
      _ = ((h + cdist m h x) % m + cdist m x y) % m := (Nat.mod_add_mod _ _ _).symm
      _ = (x + cdist m x y) % m := by rw [hxa]
      _ = y := hyy
  have hcy : cdist m h y = cdist m h x + cdist m x y := by
    have hoff := cdist_offset hh hlt2
    rw [hyo] at hoff
    exact hoff
  omega

theorem eb_test_bucket_lt {m i p : Nat} (him : i < m) (hp1 : i ≤ p)
    (hp2 : p < i + m) : eb_test_bucket m p < m := by
  rw [eb_test_bucket]
  split <;> omega

theorem eb_test_bucket_inj {m i p q : Nat} (him : i < m) (hp1 : i ≤ p)
    (hp2 : p < i + m) (hq1 : i ≤ q) (hq2 : q < i + m)
    (h : eb_test_bucket m p = eb_test_bucket m q) : p = q := by
  rw [eb_test_bucket, eb_test_bucket] at h
  split at h <;> (split at h <;> omega)

/-- Scan positions translate to cyclic distances between their buckets. -/
theorem cdist_eb_test_bucket {m i E t : Nat} (him : i < m) (hiE : i ≤ E)
    (hEt : E ≤ t) (ht : t < i + m) :
    cdist m (eb_test_bucket m E) (eb_test_bucket m t) = t - E := by
  rw [eb_test_bucket, eb_test_bucket,
    cdist_closed (by split <;> omega) (by split <;> omega)]
  split_ifs <;> omega

theorem eb_want_eq {hashT : Nat → Nat} {nodes : List Node} {E t : Nat} :
    eb_want hashT nodes E t =
      (if homeOf hashT nodes (eb_test_bucket nodes.length t) < E
        then homeOf hashT nodes (eb_test_bucket nodes.length t) + nodes.length
        else homeOf hashT nodes (eb_test_bucket nodes.length t)) := rfl

theorem homeOf_lt {hashT : Nat → Nat} {nodes : List Node} (b : Nat)
    (hm : 0 < nodes.length) : homeOf hashT nodes b < nodes.length :=
  calc_bucket_lt hashT _ hm

/-- The backward-shift move condition says exactly that the probe path of
the tested entry passes through (or lands on) the hole no later than its
current bucket. -/
theorem eb_cond_iff {hashT : Nat → Nat} {nodes : List Node} {i E t : Nat}
    (him : i < nodes.length) (hiE : i ≤ E) (hEt : E < t)
    (ht : t < i + nodes.length) :
    (eb_want hashT nodes E t ≤ E ∨ eb_want hashT nodes E t > t) ↔
      cdist nodes.length (homeOf hashT nodes (eb_test_bucket nodes.length t))
          (eb_test_bucket nodes.length E) ≤
        cdist nodes.length (homeOf hashT nodes (eb_test_bucket nodes.length t))
          (eb_test_bucket nodes.length t) := by
  have hw : homeOf hashT nodes (eb_test_bucket nodes.length t) < nodes.length :=
    homeOf_lt _ (by omega)
  rw [eb_want_eq]
  rw [cdist_closed hw (eb_test_bucket_lt him hiE (by omega)),
    cdist_closed hw (eb_test_bucket_lt him (by omega : i ≤ t) ht)]
  obtain ⟨w0, hg, hwlt⟩ : ∃ w0,
      homeOf hashT nodes (eb_test_bucket nodes.length t) = w0 ∧
      w0 < nodes.length := ⟨_, rfl, hw⟩
  rw [hg]
  rw [eb_test_bucket, eb_test_bucket]
  split_ifs <;> omega

theorem eb_moved_getD_test {nodes : List Node} {a b : Nat} (hb : b < nodes.length) :
    (eb_moved nodes a b).getD b emptyNode = emptyNode := by
  rw [eb_moved]
  exact getD_set_self _ (by rw [List.length_set]; exact hb)

theorem eb_moved_getD_hole {nodes : List Node} {a b : Nat} (ha : a < nodes.length)
    (hab : a ≠ b) :
    (eb_moved nodes a b).getD a emptyNode = nodes.getD b emptyNode := by
  rw [eb_moved, getD_set_ne _ (fun h => hab h.symm)]
  exact getD_set_self _ ha

theorem eb_moved_getD_other {nodes : List Node} {a b c : Nat} (hca : c ≠ a)
    (hcb : c ≠ b) :
    (eb_moved nodes a b).getD c emptyNode = nodes.getD c emptyNode := by
  rw [eb_moved, getD_set_ne _ (fun h => hcb h.symm),
    getD_set_ne _ (fun h => hca h.symm)]

theorem homeOf_congr {hashT : Nat → Nat} {nodes nodes' : List Node} {b c : Nat}
    (hlen : nodes'.length = nodes.length)
    (hval : nodes'.getD b emptyNode = nodes.getD c emptyNode) :
    homeOf hashT nodes' b = homeOf hashT nodes c := by
  rw [homeOf, homeOf, hlen, hval]

/-- The invariant of the backward-shift loop of `erase_node`, relative to
the original region `orig` (before the erased bucket `i` was cleared) and
a fixed originally-empty bucket at scan position `p0` that bounds the
scan.  The loop preserves the live entries up to permutation and
re-establishes probe contiguity. -/
theorem erase_loop_spec {hashT : Nat → Nat} {orig : List Node} {i p0 : Nat}
    (him : i < orig.length)
    (hp0a : i < p0) (hp0b : p0 < i + orig.length)
    (hp0e : ¬occupiedAt orig (eb_test_bucket orig.length p0)) :
    ∀ fuel nodes E t,
      nodes.length = orig.length →
      i ≤ E → E < t → t < i + orig.length →
      t ≤ p0 → p0 - t + 1 ≤ fuel →
      (entries nodes).Perm (entries (orig.set i emptyNode)) →
      ¬occupiedAt nodes (eb_test_bucket orig.length E) →
      (∀ p, i ≤ p → p < t → p ≠ E →
        occupiedAt nodes (eb_test_bucket orig.length p)) →
      (∀ p, t ≤ p → p < i + orig.length →
        nodes.getD (eb_test_bucket orig.length p) emptyNode =
          orig.getD (eb_test_bucket orig.length p) emptyNode) →
      (∀ b, b < orig.length → occupiedAt nodes b →
        cdist orig.length (eb_test_bucket orig.length E) b < t - E →
        cdist orig.length (homeOf hashT nodes b) b <
          cdist orig.length (homeOf hashT nodes b) (eb_test_bucket orig.length E)) →
      (∀ b, b < orig.length → occupiedAt nodes b →
        ∀ e, e < orig.length → ¬occupiedAt orig e →
          cdist orig.length (homeOf hashT nodes b) b ≤
            cdist orig.length (homeOf hashT nodes b) e) →
      (entries (erase_loop hashT nodes E (eb_test_bucket orig.length E) t
          fuel)).Perm (entries (orig.set i emptyNode)) ∧
        Contig hashT
          (erase_loop hashT nodes E (eb_test_bucket orig.length E) t fuel) := by
  intro fuel
  induction fuel with
  | zero =>
    intro nodes E t _ _ _ _ htp0 hfuel _ _ _ _ _ _
    omega
  | succ f ih =>
    intro nodes E t hlen hiE hEt ht htp0 hfuel hperm hemp hscan hunt hver horig
    have hm : 0 < orig.length := by omega
    have hbeq : ∀ p, eb_test_bucket nodes.length p = eb_test_bucket orig.length p :=
      fun p => by rw [hlen]
    have hebE : eb_test_bucket orig.length E < orig.length :=
      eb_test_bucket_lt him hiE (by omega)
    have hebT : eb_test_bucket orig.length t < orig.length :=
      eb_test_bucket_lt him (by omega) ht
    by_cases htb : occupiedAt nodes (eb_test_bucket nodes.length t)
    · -- tested bucket occupied: the scan advances
      have htbo : occupiedAt nodes (eb_test_bucket orig.length t) := by
        rw [← hbeq]; exact htb
      have htlt : t < p0 := by
        rcases Nat.lt_or_ge t p0 with h | h
        · exact h
        · exfalso
          have htp : t = p0 := by omega
          apply hp0e
          rw [← htp]
          have := hunt t (le_refl t) ht
          rw [occupiedAt, ← this]
          exact htbo
      by_cases hcond : eb_want hashT nodes E t ≤ E ∨ eb_want hashT nodes E t > t
      · -- move: fill the hole, the hole advances to the tested bucket
        rw [erase_loop_move htb hcond]
        rw [hbeq t]
        set x := nodes.getD (eb_test_bucket orig.length t) emptyNode with hxdef
        have hx : x.first ≠ 0 := htbo
        have hEne : eb_test_bucket orig.length E ≠ eb_test_bucket orig.length t := by
          intro h
          have := eb_test_bucket_inj him hiE (by omega) (by omega) ht h
          omega
        have hlen' : (eb_moved nodes (eb_test_bucket orig.length E)
            (eb_test_bucket orig.length t)).length = orig.length := by
          rw [eb_moved_length, hlen]
        have hgetT : (eb_moved nodes (eb_test_bucket orig.length E)
            (eb_test_bucket orig.length t)).getD (eb_test_bucket orig.length t)
            emptyNode = emptyNode :=
          eb_moved_getD_test (by rw [hlen]; exact hebT)
        have hgetE : (eb_moved nodes (eb_test_bucket orig.length E)
            (eb_test_bucket orig.length t)).getD (eb_test_bucket orig.length E)
            emptyNode = x :=
          eb_moved_getD_hole (by rw [hlen]; exact hebE) hEne
        have hgetO : ∀ c, c ≠ eb_test_bucket orig.length E →
            c ≠ eb_test_bucket orig.length t →
            (eb_moved nodes (eb_test_bucket orig.length E)
              (eb_test_bucket orig.length t)).getD c emptyNode =
              nodes.getD c emptyNode :=
          fun c hca hcb => eb_moved_getD_other hca hcb
        -- entries are preserved by the move
        have hperm' : (entries (eb_moved nodes (eb_test_bucket orig.length E)
            (eb_test_bucket orig.length t))).Perm
            (entries (orig.set i emptyNode)) := by
          have hA : (entries (nodes.set (eb_test_bucket orig.length E) x)).Perm
              (x :: entries nodes) :=
            entries_set_insert (by rw [hlen]; exact hebE)
              (by rw [← hbeq] at hemp; rw [hbeq] at hemp; exact hemp) hx
          have hoccT : occupiedAt (nodes.set (eb_test_bucket orig.length E) x)
              (eb_test_bucket orig.length t) := by
            rw [occupiedAt, getD_set_ne _ hEne]
            exact htbo
          have hB := @entries_set_clear
            (nodes.set (eb_test_bucket orig.length E) x)
            (eb_test_bucket orig.length t)
            (by rw [List.length_set, hlen]; exact hebT) hoccT
          rw [getD_set_ne _ hEne] at hB
          have hC : (x :: entries (eb_moved nodes (eb_test_bucket orig.length E)
              (eb_test_bucket orig.length t))).Perm (x :: entries nodes) :=
            (hB.symm).trans hA
          exact (hC.cons_inv).trans hperm
        refine ih (eb_moved nodes (eb_test_bucket orig.length E)
            (eb_test_bucket orig.length t)) t (t + 1) hlen'
          (by omega) (by omega) (by omega) (by omega) (by omega)
          hperm' ?_ ?_ ?_ ?_ ?_
        · -- the new hole is empty
          rw [occupiedAt, hgetT]
          exact fun h => h rfl
        · -- scanned occupancy
          intro p hp1 hp2 hp3
          by_cases hpE : p = E
          · rw [hpE, occupiedAt, hgetE]
            exact hx
          · have hpt : p < t := by omega
            have hne1 : eb_test_bucket orig.length p ≠ eb_test_bucket orig.length E :=
              fun h => hpE (eb_test_bucket_inj him hp1 (by omega) hiE (by omega) h)
            have hne2 : eb_test_bucket orig.length p ≠ eb_test_bucket orig.length t :=
              fun h => hp3 (eb_test_bucket_inj him hp1 (by omega) (by omega) ht h)
            rw [occupiedAt, hgetO _ hne1 hne2]
            exact hscan p hp1 hpt hpE
        · -- unscanned buckets untouched
          intro p hp1 hp2
          have hne1 : eb_test_bucket orig.length p ≠ eb_test_bucket orig.length E :=
            fun h => by
              have := eb_test_bucket_inj him (by omega) hp2 hiE (by omega) h
              omega
          have hne2 : eb_test_bucket orig.length p ≠ eb_test_bucket orig.length t :=
            fun h => by
              have := eb_test_bucket_inj him (by omega) hp2 (by omega) ht h
              omega
          rw [hgetO _ hne1 hne2]
          exact hunt p (by omega) hp2
        · -- no survivors yet after the hole moved
          intro b hb hocc hc
          exfalso
          have hc0 : cdist orig.length (eb_test_bucket orig.length t) b = 0 := by
            omega
          have := cdist_eq_zero hebT hb hc0
          rw [occupiedAt, ← this, hgetT] at hocc
          exact hocc rfl
        · -- original-empty avoidance
          intro b hb hocc e he hempe
          by_cases hbt : b = eb_test_bucket orig.length t
          · exfalso
            rw [occupiedAt, hbt, hgetT] at hocc
            exact hocc rfl
          by_cases hbE : b = eb_test_bucket orig.length E
          · have hhome : homeOf hashT (eb_moved nodes (eb_test_bucket orig.length E)
                (eb_test_bucket orig.length t)) b =
                homeOf hashT nodes (eb_test_bucket orig.length t) := by
              refine homeOf_congr (by rw [eb_moved_length]) ?_
              rw [hbE, hgetE, hxdef]
            rw [hhome]
            have hchain1 : cdist orig.length
                (homeOf hashT nodes (eb_test_bucket orig.length t))
                (eb_test_bucket orig.length E) ≤
                cdist orig.length
                (homeOf hashT nodes (eb_test_bucket orig.length t))
                (eb_test_bucket orig.length t) := by
              have hiff := @eb_cond_iff hashT nodes i E t
                (by rw [hlen]; exact him) hiE hEt (by rw [hlen]; omega)
              rw [hbeq, hbeq, hlen] at hiff
              exact hiff.1 hcond
            have hchain2 := horig (eb_test_bucket orig.length t) hebT htbo e he hempe
            rw [hbE]
            omega
          · have hval : (eb_moved nodes (eb_test_bucket orig.length E)
                (eb_test_bucket orig.length t)).getD b emptyNode =
                nodes.getD b emptyNode := hgetO b hbE hbt
            have hhome : homeOf hashT (eb_moved nodes (eb_test_bucket orig.length E)
                (eb_test_bucket orig.length t)) b = homeOf hashT nodes b :=
              homeOf_congr (by rw [eb_moved_length]) hval
            rw [hhome]
            refine horig b hb ?_ e he hempe
            rw [occupiedAt, ← hval]
            exact hocc
      · -- stay: the tested entry is already well-placed
        rw [erase_loop_stay htb hcond]
        refine ih nodes E (t + 1) hlen hiE (by omega) (by omega) (by omega)
          (by omega) hperm hemp ?_ ?_ ?_ horig
        · intro p hp1 hp2 hp3
          by_cases hpt : p = t
          · rw [hpt]; exact htbo
          · exact hscan p hp1 (by omega) hp3
        · intro p hp1 hp2
          exact hunt p (by omega) hp2
        · intro b hb hocc hc
          rcases Nat.lt_trichotomy (cdist orig.length
            (eb_test_bucket orig.length E) b) (t - E) with h | h | h
          · exact hver b hb hocc h
          · have hbt : b = eb_test_bucket orig.length t := by
              refine cdist_det hebE hb hebT ?_
              rw [cdist_eb_test_bucket him hiE (by omega) ht]
              exact h
            have hiff := @eb_cond_iff hashT nodes i E t
              (by rw [hlen]; exact him) hiE hEt (by rw [hlen]; omega)
            rw [hbeq, hbeq, hlen] at hiff
            have hstay : ¬(cdist orig.length
                (homeOf hashT nodes (eb_test_bucket orig.length t))
                (eb_test_bucket orig.length E) ≤
                cdist orig.length
                (homeOf hashT nodes (eb_test_bucket orig.length t))
                (eb_test_bucket orig.length t)) :=
              fun hle => hcond (hiff.2 hle)
            rw [hbt]
            omega
          · omega
    · -- the tested bucket is empty: the loop breaks
      rw [erase_loop_break htb]
      refine ⟨hperm, ?_⟩
      intro b hb hoccb e he hempe
      rw [hlen] at hb he ⊢
      have hwlt : homeOf hashT nodes b < orig.length := by
        have := @homeOf_lt hashT nodes b (by omega)
        rw [hlen] at this
        exact this
      have htbo : ¬occupiedAt nodes (eb_test_bucket orig.length t) := by
        rw [← hbeq]; exact htb
      have htorig : ¬occupiedAt orig (eb_test_bucket orig.length t) := by
        have := hunt t (le_refl t) ht
        rw [occupiedAt, ← this]
        exact htbo
      by_cases heb : e = eb_test_bucket orig.length E
      · -- the final hole: use the verified-survivor and wrap arguments
        by_contra hcon
        push_neg at hcon
        rcases Nat.lt_trichotomy (cdist orig.length
          (eb_test_bucket orig.length E) b) (t - E) with h | h | h
        · have := hver b hb hoccb h
          rw [← heb] at this
          omega
        · have hbt : b = eb_test_bucket orig.length t := by
            refine cdist_det hebE hb hebT ?_
            rw [cdist_eb_test_bucket him hiE (by omega) ht]
            exact h
          rw [hbt] at hoccb
          exact htbo hoccb
        · have h2 : cdist orig.length (eb_test_bucket orig.length E)
              (eb_test_bucket orig.length t) <
              cdist orig.length (eb_test_bucket orig.length E) b := by
            rw [cdist_eb_test_bucket him hiE (by omega) ht]
            omega
          have h1 : cdist orig.length (homeOf hashT nodes b)
              (eb_test_bucket orig.length E) <
              cdist orig.length (homeOf hashT nodes b) b := by
            rw [← heb]
            omega
          have h3 := cdist_between hwlt hebE hebT hb h1 h2
          have h4 := horig b hb hoccb (eb_test_bucket orig.length t) hebT htorig
          omega
      · -- any other empty bucket was empty before the erase
        have horigempty : ¬occupiedAt orig e := by
          obtain ⟨q, hq1, hq2, hq3⟩ : ∃ q, i ≤ q ∧ q < i + orig.length ∧
              eb_test_bucket orig.length q = e := by
            by_cases hei : e < i
            · exact ⟨e + orig.length, by omega, by omega, by
                rw [eb_test_bucket, if_pos (by omega)]
                omega⟩
            · exact ⟨e, by omega, by omega, by
                rw [eb_test_bucket, if_neg (by omega)]⟩
          by_cases hqt : q < t
          · exfalso
            by_cases hqE : q = E
            · apply heb
              rw [← hq3, hqE]
            · apply hempe
              rw [← hq3]
              exact hscan q hq1 hqt hqE
          · have := hunt q (by omega) hq2
            rw [hq3] at this
            rw [occupiedAt, ← this]
            exact hempe
        exact horig b hb hoccb e he horigempty

/-- `erase_node` on an occupied bucket preserves the invariant; the
erased entry leaves the live set and everything else stays. -/
theorem erase_node_spec {hashT : Nat → Nat} {inner : Inner} {i : Nat}
    (hInv : Inv hashT inner) (hi : i < inner.nodes.length)
    (hocc : occupiedAt inner.nodes i) :
    Inv hashT (erase_node hashT inner i) ∧
    (inner.nodes.getD i emptyNode ::
      entries (erase_node hashT inner i).nodes).Perm (entries inner.nodes) := by
  have hlen8 := hInv.len8
  have hload := hInv.load
  have hused := hInv.used_eq
  have hocclt : occCount inner.nodes < inner.nodes.length := by
    by_contra hc
    push_neg at hc
    omega
  obtain ⟨e0, he0, hemp0⟩ := exists_empty_of_occCount_lt hocclt
  have he0i : e0 ≠ i := fun h => hemp0 (h ▸ hocc)
  obtain ⟨p0, hp0a, hp0b, hp0β⟩ : ∃ p0, i < p0 ∧ p0 < i + inner.nodes.length ∧
      eb_test_bucket inner.nodes.length p0 = e0 := by
    by_cases hie : i < e0
    · exact ⟨e0, hie, by omega, by rw [eb_test_bucket, if_neg (by omega)]⟩
    · exact ⟨e0 + inner.nodes.length, by omega, by omega, by
        rw [eb_test_bucket, if_pos (by omega)]
        omega⟩
  have hp0e : ¬occupiedAt inner.nodes (eb_test_bucket inner.nodes.length p0) := by
    rw [hp0β]
    exact hemp0
  have hβi : eb_test_bucket inner.nodes.length i = i := by
    rw [eb_test_bucket, if_neg (by omega)]
  have hclear := entries_set_clear hi hocc
  obtain ⟨hP, hC⟩ := @erase_loop_spec hashT inner.nodes i p0 hi hp0a hp0b hp0e
    inner.nodes.length (inner.nodes.set i emptyNode) i (i + 1)
    (List.length_set _ _ _)
    (le_refl i) (Nat.lt_succ_self i) (by omega) (by omega) (by omega)
    (List.Perm.refl _)
    (by
      rw [hβi, occupiedAt, getD_set_self _ hi]
      exact fun h => h rfl)
    (fun p hp1 hp2 hp3 => by omega)
    (fun p hp1 hp2 => by
      have hpi : eb_test_bucket inner.nodes.length p ≠ i := fun h => by
        have : p = i := eb_test_bucket_inj hi (by omega) hp2 (le_refl i)
          (by omega) (by rw [h, hβi])
        omega
      exact getD_set_ne _ (fun h => hpi h.symm))
    (fun b hb hoccb hc => by
      exfalso
      rw [hβi] at hc
      have hc0 : cdist inner.nodes.length i b = 0 := by omega
      have hbi := cdist_eq_zero hi hb hc0
      rw [occupiedAt, ← hbi, getD_set_self _ hi] at hoccb
      exact hoccb rfl)
    (fun b hb hoccb e he hempe => by
      have hbi : b ≠ i := fun h => by
        rw [occupiedAt, h, getD_set_self _ hi] at hoccb
        exact hoccb rfl
      have hval : (inner.nodes.set i emptyNode).getD b emptyNode =
          inner.nodes.getD b emptyNode := getD_set_ne _ (fun h => hbi h.symm)
      have hhome : homeOf hashT (inner.nodes.set i emptyNode) b =
          homeOf hashT inner.nodes b :=
        homeOf_congr (List.length_set _ _ _) hval
      rw [hhome]
      refine hInv.contig b hb ?_ e he hempe
      rw [occupiedAt, ← hval]
      exact hoccb)
  rw [hβi] at hP hC
  have hnodes : (erase_node hashT inner i).nodes =
      erase_loop hashT (inner.nodes.set i emptyNode) i i (i + 1)
        inner.nodes.length := rfl
  have hlenR : (erase_node hashT inner i).nodes.length = inner.nodes.length :=
    erase_node_length
  have hcount : occCount inner.nodes =
      occCount (inner.nodes.set i emptyNode) + 1 := by
    rw [occCount_eq_length_entries, occCount_eq_length_entries,
      hclear.length_eq, List.length_cons]
  have hcountR : occCount (erase_node hashT inner i).nodes =
      occCount (inner.nodes.set i emptyNode) := by
    rw [occCount_eq_length_entries, occCount_eq_length_entries, hnodes,
      hP.length_eq]
  have hmapsplit : ((entries inner.nodes).map Node.first).Perm
      ((inner.nodes.getD i emptyNode).first ::
        (entries (inner.nodes.set i emptyNode)).map Node.first) :=
    hclear.map Node.first
  refine ⟨⟨?_, ?_, ?_, ?_, ?_, ?_⟩, ?_⟩
  · rw [hlenR]; exact hlen8
  · rw [hlenR]; exact hInv.pow2cap
  · rw [erase_node_used, hcountR]
    omega
  · rw [erase_node_used, hlenR]
    omega
  · rw [KeysNodup, hnodes]
    have hnd1 : ((inner.nodes.getD i emptyNode).first ::
        (entries (inner.nodes.set i emptyNode)).map Node.first).Nodup :=
      hmapsplit.nodup hInv.keysNodup
    have hnd2 : ((entries (inner.nodes.set i emptyNode)).map Node.first).Nodup :=
      hnd1.of_cons
    exact ((hP.map Node.first).symm).nodup hnd2
  · rw [hnodes]
    exact hC
  · rw [hnodes]
    exact (hP.cons _).trans hclear.symm

/-- `try_shrink` preserves the invariant, the used count and the live
entries (up to permutation), whether or not it resizes. -/
theorem try_shrink_spec {hashT : Nat → Nat} {inner : Inner} (hInv : Inv hashT inner) :
    ∃ inner', try_shrink hashT inner = some inner' ∧ Inv hashT inner' ∧
      inner'.used_node_count = inner.used_node_count ∧
      (entries inner'.nodes).Perm (entries inner.nodes) := by
  rw [try_shrink]
  by_cases hcond : inner.used_node_count * 10 < bucket_count_mask inner ∧
      bucket_count_mask inner > 7
  · rw [if_pos hcond]
    have hlen8 := hInv.len8
    have hcap := hInv.cap
    have hused := hInv.used_eq
    have hmask : bucket_count_mask inner = inner.nodes.length - 1 := rfl
    rw [hmask] at hcond
    have husedlt : inner.used_node_count < 2 ^ 26 := by
      have h29 : (2:Nat) ^ 29 = 536870912 := by norm_num
      have h26 : (2:Nat) ^ 26 = 67108864 := by norm_num
      omega
    have harg1 : 0 < (inner.used_node_count + 1) * 5 / 3 + 1 := by omega
    have harg2 : (inner.used_node_count + 1) * 5 / 3 + 1 < 2 ^ 31 := by
      have h26 : (2:Nat) ^ 26 = 67108864 := by norm_num
      have h31 : (2:Nat) ^ 31 = 2147483648 := by norm_num
      omega
    obtain ⟨⟨kk, hkk⟩, hge8, hgt, hmin⟩ := normalize_spec harg1 harg2
    have hle27 : normalize ((inner.used_node_count + 1) * 5 / 3 + 1) ≤ 2 ^ 27 := by
      refine hmin (2 ^ 27) ⟨27, rfl⟩ (by norm_num) ?_
      have h26 : (2:Nat) ^ 26 = 67108864 := by norm_num
      have h27 : (2:Nat) ^ 27 = 134217728 := by norm_num
      omega
    have hpowcap : IsPow2Cap (normalize ((inner.used_node_count + 1) * 5 / 3 + 1)) := by
      refine ⟨kk, ?_, hkk⟩
      by_contra hklt
      push_neg at hklt
      have hmono : (2:Nat) ^ 30 ≤ 2 ^ kk := Nat.pow_le_pow_right (by norm_num) (by omega)
      have h27 : (2:Nat) ^ 27 = 134217728 := by norm_num
      have h30 : (2:Nat) ^ 30 = 1073741824 := by norm_num
      omega
    have hpow : normalize ((inner.used_node_count + 1) * 5 / 3 + 1) =
        2 ^ Nat.log2 (normalize ((inner.used_node_count + 1) * 5 / 3 + 1)) :=
      hpowcap.log2_eq
    have hoccns : occCount inner.nodes <
        normalize ((inner.used_node_count + 1) * 5 / 3 + 1) := by
      omega
    obtain ⟨innerR, heq, husedR, hlenR, hndR, hcontR, hpermR⟩ :=
      resize_spec hpow (by omega) hInv.keysNodup hoccns
    refine ⟨innerR, heq, ⟨?_, ?_, ?_, ?_, hndR, hcontR⟩, husedR, hpermR⟩
    · rw [hlenR]; exact hge8
    · rw [hlenR]; exact hpowcap
    · rw [husedR, hused, occCount_eq_length_entries, occCount_eq_length_entries,
        hpermR.length_eq]
    · rw [husedR, hlenR]
      omega
  · rw [if_neg hcond]
    exact ⟨inner, rfl, hInv, rfl, List.Perm.refl _⟩

/-- `erase` on a present key removes exactly that entry, returns 1 and
preserves the invariant. -/
theorem erase_present_spec {hashT : Nat → Nat} {inner : Inner} {k b : Nat}
    (hInv : Inv hashT inner) (hk : k ≠ 0)
    (hf : find hashT (some inner) k = some b) :
    ∃ inner', erase hashT (some inner) k = (1, some inner') ∧ Inv hashT inner' ∧
      inner'.used_node_count = inner.used_node_count - 1 ∧
      ∃ w, inner.nodes.getD b emptyNode = ⟨k, w⟩ ∧
        ((⟨k, w⟩ : Node) :: entries inner'.nodes).Perm (entries inner.nodes) := by
  obtain ⟨hb, hkey⟩ := (find_eq_some_iff hInv hk).1 hf
  have hoccb : occupiedAt inner.nodes b := by
    rw [occupiedAt, hkey]
    exact hk
  obtain ⟨hInvE, hPermE⟩ := erase_node_spec hInv hb hoccb
  obtain ⟨innerS, heqS, hInvS, husedS, hpermS⟩ := try_shrink_spec hInvE
  refine ⟨innerS, ?_, hInvS, ?_, ?_⟩
  · rw [erase, hf]
    show (1, erase_iter hashT (some inner) b) = (1, some innerS)
    rw [show erase_iter hashT (some inner) b =
      try_shrink hashT (erase_node hashT inner b) from rfl, heqS]
  · rw [husedS, erase_node_used]
  · refine ⟨(inner.nodes.getD b emptyNode).second, ?_, ?_⟩
    · rw [show inner.nodes.getD b emptyNode =
        (⟨(inner.nodes.getD b emptyNode).first,
          (inner.nodes.getD b emptyNode).second⟩ : Node) from rfl, hkey]
    · have hstep : ((⟨k, (inner.nodes.getD b emptyNode).second⟩ : Node) ::
          entries innerS.nodes).Perm ((⟨k,
            (inner.nodes.getD b emptyNode).second⟩ : Node) ::
          entries (erase_node hashT inner b).nodes) := hpermS.cons _
      refine hstep.trans ?_
      rw [show (⟨k, (inner.nodes.getD b emptyNode).second⟩ : Node) =
        inner.nodes.getD b emptyNode from by rw [← hkey]]
      exact hPermE

/-- C4: probe contiguity is an invariant preserved by erase: after any
`erase(k)` the table still satisfies the whole invariant, and in
particular for every occupied bucket `b` holding a key with home bucket
`h`, every bucket cyclically strictly between `h` and `b` is occupied —
no empty bucket lies closer to `h` than `b` is. -/
theorem claim_C4_erase_contiguity (hashT : Nat → Nat) (t : FlatHashTable) (k : Nat)
    (hWF : WF hashT t) :
    WF hashT (erase hashT t k).2 ∧
    ∀ inner', (erase hashT t k).2 = some inner' →
      ∀ b, b < inner'.nodes.length → occupiedAt inner'.nodes b →
        ∀ e, e < inner'.nodes.length → ¬occupiedAt inner'.nodes e →
          cdist inner'.nodes.length (homeOf hashT inner'.nodes b) b ≤
            cdist inner'.nodes.length (homeOf hashT inner'.nodes b) e := by
  rcases hfind : find hashT t k with _ | b
  · have herase : (erase hashT t k).2 = t := by rw [erase, hfind]
    rw [herase]
    refine ⟨hWF, ?_⟩
    intro inner' heq
    have hInv : Inv hashT inner' := by
      rw [heq] at hWF
      exact hWF
    exact hInv.contig
  · match t with
    | none => exact absurd hfind (fun h => Option.noConfusion h)
    | some inner =>
      have hInv : Inv hashT inner := hWF
      have hk : k ≠ 0 := by
        intro hk0
        rw [hk0] at hfind
        have : find hashT (some inner) 0 = none := rfl
        rw [this] at hfind
        exact Option.noConfusion hfind
      obtain ⟨inner', heq, hInv', _, _⟩ := erase_present_spec hInv hk hfind
      have h2 : (erase hashT (some inner) k).2 = some inner' := by rw [heq]
      rw [h2]
      refine ⟨hInv', ?_⟩
      intro inner'' heq''
      have he : inner' = inner'' := Option.some.inj heq''
      rw [← he]
      exact hInv'.contig

/-- C4, witness: the invariant and the contiguity property hold after
erasing key 2 from the three-entry table. -/
theorem claim_C4_witness :
    WF randomize_hash ([1, 2, 3].foldl
      (fun t k => (emplace randomize_hash t k k).1) (none : FlatHashTable)) ∧
    WF randomize_hash (erase randomize_hash ([1, 2, 3].foldl
      (fun t k => (emplace randomize_hash t k k).1) (none : FlatHashTable)) 2).2 :=
  ⟨by decide,
    (claim_C4_erase_contiguity randomize_hash ([1, 2, 3].foldl
      (fun t k => (emplace randomize_hash t k k).1) (none : FlatHashTable)) 2
      (by decide)).1⟩

/-! ### Insert/erase interleavings (C5) -/

theorem find_isSome_iff_contains {hashT : Nat → Nat} {t : FlatHashTable} {k : Nat}
    (hWF : WF hashT t) (hk : k ≠ 0) :
    (find hashT t k).isSome = true ↔ contains_key t k := by
  match t with
  | none =>
    constructor
    · intro h
      exact absurd h (by rw [show find hashT none k = none from rfl]; decide)
    · intro h
      exact absurd h id
  | some inner =>
    have hInv : Inv hashT inner := hWF
    constructor
    · intro hs
      rcases hf : find hashT (some inner) k with _ | b
      · rw [hf] at hs
        exact absurd hs (by decide)
      · obtain ⟨hb, hkey⟩ := (find_eq_some_iff hInv hk).1 hf
        exact ⟨hk, b, hb, hkey⟩
    · intro hc
      obtain ⟨_, b, hb, hkey⟩ := hc
      rw [find_some_of_haskey hInv hk hb hkey]
      rfl

theorem getLastD_map_cons {α β : Type} (f : α → β) :
    ∀ (l : List α) (x : α) (d : β),
      (((x :: l).getLast?).map f).getD d = ((l.getLast?).map f).getD (f x) := by
  intro l
  induction l with
  | nil => intro x d; rfl
  | cons y l' ih =>
    intro x d
    rw [List.getLast?_cons_cons]
    rw [ih y d, ih y (f x)]

theorem contains_key_iff_mem_keysT {t : FlatHashTable} {k : Nat} (hk : k ≠ 0) :
    contains_key t k ↔ k ∈ (entriesT t).map Node.first := by
  match t with
  | none =>
    constructor
    · exact fun h => absurd h id
    · exact fun h => absurd h (List.not_mem_nil _)
  | some inner => exact contains_key_iff_mem_keys hk

/-- One insert of an interleaving: after `emplace(k0, v0)` the key `k0`
is found, and every other key is found exactly as before. -/
theorem step_insert {hashT : Nat → Nat} {t : FlatHashTable} {k0 v0 : Nat}
    (hWF : WF hashT t) (hna : size t < 2 ^ 27) (hk0 : k0 ≠ 0) :
    WF hashT (emplace hashT t k0 v0).1 ∧
    size (emplace hashT t k0 v0).1 ≤ size t + 1 ∧
    ∀ k, k ≠ 0 → (find hashT (emplace hashT t k0 v0).1 k).isSome =
      (if k0 = k then true else (find hashT t k).isSome) := by
  by_cases hpres : contains_key t k0
  · match t, hWF, hpres with
    | some inner, hWF, hpres =>
      obtain ⟨_, b, hb, hkey⟩ := hpres
      have hkv : hasKV (some inner) k0 ((inner.nodes.getD b emptyNode).second) :=
        ⟨hk0, b, hb, by rw [← hkey]⟩
      obtain ⟨inner', heq, _, hInv', hused', hperm', _⟩ :=
        emplace_present hWF hna hkv
      have hcont : ∀ k, k ≠ 0 →
          (contains_key (some inner') k ↔ contains_key (some inner) k) := by
        intro k hk
        rw [contains_key_iff_mem_keys hk, contains_key_iff_mem_keys hk]
        exact (hperm'.map Node.first).mem_iff
      rw [heq]
      refine ⟨hInv', by rw [show size (some inner') = inner'.used_node_count
        from rfl, hused']; omega, ?_⟩
      intro k hk
      by_cases hkk : k0 = k
      · rw [if_pos hkk]
        exact (find_isSome_iff_contains (show WF hashT (some inner') from hInv') hk).2
          ((hcont k hk).2 (by rw [← hkk]; exact ⟨hk0, b, hb, hkey⟩))
      · rw [if_neg hkk]
        refine Bool.eq_iff_iff.2 ?_
        rw [find_isSome_iff_contains (show WF hashT (some inner') from hInv') hk, find_isSome_iff_contains hWF hk]
        exact hcont k hk
  · obtain ⟨inner', heq, _, hInv', hused', hperm'⟩ :=
      emplace_absent (v := v0) hWF hna hk0 hpres
    have hcont : ∀ k, k ≠ 0 →
        (contains_key (some inner') k ↔ k = k0 ∨ contains_key t k) := by
      intro k hk
      rw [contains_key_iff_mem_keys hk, contains_key_iff_mem_keysT hk]
      rw [(hperm'.map Node.first).mem_iff]
      rw [List.map_cons, List.mem_cons]
    rw [heq]
    refine ⟨hInv', by rw [show size (some inner') = inner'.used_node_count
      from rfl, hused'], ?_⟩
    intro k hk
    by_cases hkk : k0 = k
    · rw [if_pos hkk]
      exact (find_isSome_iff_contains (show WF hashT (some inner') from hInv') hk).2
        ((hcont k hk).2 (Or.inl hkk.symm))
    · rw [if_neg hkk]
      refine Bool.eq_iff_iff.2 ?_
      rw [find_isSome_iff_contains (show WF hashT (some inner') from hInv') hk, find_isSome_iff_contains hWF hk]
      rw [hcont k hk]
      constructor
      · intro h
        rcases h with h | h
        · exact absurd h.symm hkk
        · exact h
      · exact Or.inr

/-- One erase of an interleaving: after `erase(k0)` the key `k0` is no
longer found, and every other key is found exactly as before. -/
theorem step_erase {hashT : Nat → Nat} {t : FlatHashTable} {k0 : Nat}
    (hWF : WF hashT t) (hk0 : k0 ≠ 0) :
    WF hashT (erase hashT t k0).2 ∧
    size (erase hashT t k0).2 ≤ size t + 1 ∧
    ∀ k, k ≠ 0 → (find hashT (erase hashT t k0).2 k).isSome =
      (if k0 = k then false else (find hashT t k).isSome) := by
  rcases hfind : find hashT t k0 with _ | b
  · have herase : (erase hashT t k0).2 = t := by rw [erase, hfind]
    rw [herase]
    refine ⟨hWF, by omega, ?_⟩
    intro k hk
    by_cases hkk : k0 = k
    · rw [if_pos hkk, ← hkk, hfind]
      rfl
    · rw [if_neg hkk]
  · match t, hWF with
    | some inner, hWF =>
      have hInv : Inv hashT inner := hWF
      obtain ⟨inner', heq, hInv', hused', w, hslot, hperm⟩ :=
        erase_present_spec hInv hk0 hfind
      have hkeysperm : (k0 :: (entries inner'.nodes).map Node.first).Perm
          ((entries inner.nodes).map Node.first) := by
        have := hperm.map Node.first
        rw [List.map_cons] at this
        exact this
      have hnodup : (k0 :: (entries inner'.nodes).map Node.first).Nodup :=
        (hkeysperm.symm).nodup hInv.keysNodup
      have h2 : (erase hashT (some inner) k0).2 = some inner' := by rw [heq]
      rw [h2]
      have hsz' : inner'.used_node_count ≤ inner.used_node_count + 1 := by
        rw [hused']
        omega
      refine ⟨hInv', hsz', ?_⟩
      intro k hk
      by_cases hkk : k0 = k
      · rw [if_pos hkk]
        have hnotmem : k0 ∉ (entries inner'.nodes).map Node.first :=
          (List.nodup_cons.1 hnodup).1
        have : ¬contains_key (some inner') k := by
          rw [← hkk, contains_key_iff_mem_keys hk0]
          exact hnotmem
        rcases hres : find hashT (some inner') k with _ | b'
        · rfl
        · exfalso
          apply this
          rw [← (find_isSome_iff_contains (show WF hashT (some inner') from hInv') hk)]
          rw [hres]
          rfl
      · rw [if_neg hkk]
        refine Bool.eq_iff_iff.2 ?_
        rw [find_isSome_iff_contains (show WF hashT (some inner') from hInv') hk, find_isSome_iff_contains hWF hk]
        rw [contains_key_iff_mem_keys hk, contains_key_iff_mem_keys hk]
        rw [← hkeysperm.mem_iff, List.mem_cons]
        constructor
        · exact Or.inr
        · intro h
          rcases h with h | h
          · exact absurd h.symm hkk
          · exact h

/-- The interleaved fold: the table stays well-formed, the size is
bounded by the number of operations, and `find` succeeds exactly when
the last operation touching the key was an insert (defaulting to the
pre-fold state for untouched keys). -/
theorem run_ops_fold_spec {hashT : Nat → Nat} :
    ∀ (ops : List (Bool × Nat × Nat)) (t : FlatHashTable),
      WF hashT t → size t + ops.length ≤ 2 ^ 27 →
      (∀ op ∈ ops, op.2.1 ≠ 0) →
      WF hashT (List.foldl (apply_op hashT) t ops) ∧
      size (List.foldl (apply_op hashT) t ops) ≤ size t + ops.length ∧
      ∀ k, k ≠ 0 →
        (find hashT (List.foldl (apply_op hashT) t ops) k).isSome =
          ((((ops.filter fun op => op.2.1 == k).getLast?).map fun op =>
            op.1).getD ((find hashT t k).isSome)) := by
  intro ops
  induction ops with
  | nil =>
    intro t hWF _ _
    exact ⟨hWF, Nat.le_add_right _ _, fun k _ => rfl⟩
  | cons op rest ih =>
    intro t hWF hsz hkeys
    have hk0 : op.2.1 ≠ 0 := hkeys op (List.mem_cons_self _ _)
    have hkeys' : ∀ o ∈ rest, o.2.1 ≠ 0 := fun o ho =>
      hkeys o (List.mem_cons_of_mem _ ho)
    have hlrest : (op :: rest).length = rest.length + 1 := List.length_cons _ _
    have hna : size t < 2 ^ 27 := by omega
    have hstep : WF hashT (apply_op hashT t op) ∧
        size (apply_op hashT t op) ≤ size t + 1 ∧
        ∀ k, k ≠ 0 → (find hashT (apply_op hashT t op) k).isSome =
          (if op.2.1 = k then op.1 else (find hashT t k).isSome) := by
      rcases op with ⟨flag, k0, v0⟩
      cases flag
      · exact step_erase hWF hk0
      · exact step_insert hWF hna hk0
    obtain ⟨hWF1, hsz1, hchar1⟩ := hstep
    have hfold : List.foldl (apply_op hashT) t (op :: rest) =
        List.foldl (apply_op hashT) (apply_op hashT t op) rest := rfl
    obtain ⟨hWF2, hsz2, hchar2⟩ := ih (apply_op hashT t op) hWF1 (by omega) hkeys'
    rw [hfold]
    refine ⟨hWF2, by omega, ?_⟩
    intro k hk
    rw [hchar2 k hk, hchar1 k hk]
    rw [List.filter_cons]
    by_cases hkk : op.2.1 = k
    · rw [if_cond_true (beq_iff_eq.2 hkk)]
      rw [getLastD_map_cons]
      rw [if_pos hkk]
    · rw [if_cond_false (by simpa using hkk)]
      rw [if_neg hkk]

/-- C5: for every interleaved sequence of insert and erase operations on
non-sentinel keys starting from the empty table (at most `2^27`
operations, below the allocation abort cap), at the end `find(k)`
returns an entry if and only if the most recent operation on `k` in the
sequence was an insert.  Applied after every prefix, this characterizes
every intermediate point of the interleaving. -/
theorem claim_C5_interleaving (hashT : Nat → Nat) (ops : List (Bool × Nat × Nat))
    (hkeys : ∀ op ∈ ops, op.2.1 ≠ 0) (hlen : ops.length ≤ 2 ^ 27) :
    WF hashT (run_ops hashT ops) ∧
    ∀ k, k ≠ 0 →
      (find hashT (run_ops hashT ops) k).isSome = last_insert ops k := by
  obtain ⟨hWF, _, hchar⟩ := run_ops_fold_spec ops none trivial
    (by rw [show size (none : FlatHashTable) = 0 from rfl]; omega) hkeys
  rw [run_ops]
  refine ⟨hWF, ?_⟩
  intro k hk
  rw [hchar k hk]
  rfl

/-- C5, witness: a concrete five-operation interleaving — key 1 is
inserted, erased, reinserted (found); key 2 is inserted then erased
(not found); key 3 is never touched (not found). -/
theorem claim_C5_witness :
    (∀ op ∈ [(true, 1, 10), (true, 2, 20), (false, 1, 0), (true, 1, 30),
      (false, 2, 0)], op.2.1 ≠ 0) ∧
    (find randomize_hash (run_ops randomize_hash [(true, 1, 10), (true, 2, 20),
      (false, 1, 0), (true, 1, 30), (false, 2, 0)]) 1).isSome =
      last_insert [(true, 1, 10), (true, 2, 20), (false, 1, 0), (true, 1, 30),
        (false, 2, 0)] 1 ∧
    (find randomize_hash (run_ops randomize_hash [(true, 1, 10), (true, 2, 20),
      (false, 1, 0), (true, 1, 30), (false, 2, 0)]) 2).isSome =
      last_insert [(true, 1, 10), (true, 2, 20), (false, 1, 0), (true, 1, 30),
        (false, 2, 0)] 2 ∧
    (find randomize_hash (run_ops randomize_hash [(true, 1, 10), (true, 2, 20),
      (false, 1, 0), (true, 1, 30), (false, 2, 0)]) 3).isSome =
      last_insert [(true, 1, 10), (true, 2, 20), (false, 1, 0), (true, 1, 30),
        (false, 2, 0)] 3 :=
  ⟨by decide,
    (claim_C5_interleaving randomize_hash _ (by decide) (by decide)).2 1 (by decide),
    (claim_C5_interleaving randomize_hash _ (by decide) (by decide)).2 2 (by decide),
    (claim_C5_interleaving randomize_hash _ (by decide) (by decide)).2 3 (by decide)⟩

end Td
